import Mathlib

/-!
Verification of the flood-it solver core: a shallow embedding of the graph
model, the graph reduction (with its union-find), the move-history trie, the
search state with its redundancy pruning and valuation, and the A* driver,
together with theorems settling the specification claims.

Machine integers are modelled as `Nat` with explicit reductions `% 2^w`
exactly where the width matters in the source: the trie block length is an
`unsigned short` (`% 65536`), and the color loop bound in the search driver
is a `color_t`, i.e. an unsigned 8-bit value (`% 256`).  List indexing uses
`getD`; an out-of-range access (undefined behaviour in the source) yields the
default element.
-/

namespace Floodit

/-- Colors (`color_t`, an unsigned char in the source), represented as `Nat`.
All color values handled by the program are below 256. -/
abbrev Color := Nat

/-- `Graph::Node`: sorted list of neighbor indices plus a color. -/
structure Node where
  neighbors : List Nat
  color : Color
  deriving DecidableEq, Inhabited, Repr

/-- `Graph`: nodes, root index and the per-color node counts. -/
structure Graph where
  nodes : List Node
  rootIndex : Nat
  colorCounts : List Nat
  deriving DecidableEq, Inhabited, Repr

def Graph.numNodes (g : Graph) : Nat := g.nodes.length

def Graph.colorAt (g : Graph) (i : Nat) : Color := (g.nodes.getD i default).color

def Graph.nbrs (g : Graph) (i : Nat) : List Nat := (g.nodes.getD i default).neighbors

/-! ### The move-history trie (`trie.hpp`)

`Trie<T>::Block` stores a back pointer, an `unsigned short` length and a
small inline array of `K = ELEMENTS_PER_BLOCK` elements.  `K` is a platform
constant (`(sizeof(void*) - sizeof(unsigned short)) / sizeof(T)`, which is 6
for `Trie<color_t>` on an LP64 platform); it is kept as a parameter here.
The deque of full blocks is modelled as a list with the newest block in
front; a block's stable address is its insertion index, so index `i` lives at
position `blocks.length - 1 - i`.  The uninitialized parts of the inline
array are modelled by the default element. -/

structure Block (T : Type) where
  pred : Option Nat
  length : Nat
  data : List T
  deriving DecidableEq, Inhabited, Repr

structure Seq (T : Type) where
  block : Block T
  deriving DecidableEq, Inhabited, Repr

structure TrieSt (T : Type) where
  blocks : List (Block T)
  deriving DecidableEq, Inhabited, Repr

variable {T : Type} [Inhabited T]

/-- `Block::add`: write at `length % K`, increment the 16-bit length, report
whether the block just became full. -/
def Block.add (K : Nat) (b : Block T) (t : T) : Block T × Bool :=
  let index := b.length % K
  (⟨b.pred, (b.length + 1) % 65536, b.data.set index t⟩, index == K - 1)

def Block.size (b : Block T) : Nat := b.length

def Block.initial (K : Nat) : Block T := ⟨none, 0, List.replicate K default⟩

/-- `Trie::initial()`. -/
def Seq.initial (K : Nat) : Seq T := ⟨Block.initial K⟩

def TrieSt.empty : TrieSt T := ⟨[]⟩

/-- Dereference the stable index of a stored block. -/
def TrieSt.getBlock (t : TrieSt T) (i : Nat) : Option (Block T) :=
  t.blocks[t.blocks.length - 1 - i]?

/-- `Trie::append`: add to a copy of the handle's block; if it became full,
push it into the deque and hand out a fresh block chained to it. -/
def TrieSt.append (K : Nat) (t : TrieSt T) (s : Seq T) (e : T) : TrieSt T × Seq T :=
  let r := s.block.add K e
  if r.2 then
    (⟨r.1 :: t.blocks⟩, ⟨⟨some t.blocks.length, r.1.length, List.replicate K default⟩⟩)
  else
    (t, ⟨r.1⟩)

def Seq.size (s : Seq T) : Nat := s.block.length

/-- `Block::back` (via `Sequence::back`): the last element lives in the
handle's own array unless the handle sits exactly on a block boundary, in
which case it is the last element of the predecessor block. -/
def Seq.back (K : Nat) (t : TrieSt T) (s : Seq T) : T :=
  let last := (s.block.length - 1) % K
  if last ≠ K - 1 then s.block.data.getD last default
  else
    match s.block.pred with
    | some i =>
      match t.getBlock i with
      | some pb => pb.data.getD (K - 1) default
      | none => default
    | none => default

/-- The copy loop of `Block::materialize`: `buffer[offset+index] = data[index]`
for `0 ≤ index < count`. -/
def writeSlice (buf : List T) (offset : Nat) (count : Nat) (data : List T) : List T :=
  (List.range count).foldl (fun b index => b.set (offset + index) (data.getD index default)) buf

/-- `Block::materialize`: write the block's own slice of the buffer, then
recurse into the predecessor.  The predecessor chain is walked with fuel
bounded by the number of stored blocks (indices strictly decrease along the
chain). -/
def matAux (K : Nat) (t : TrieSt T) : Nat → Block T → List T → List T
  | 0, _, buf => buf
  | fuel + 1, b, buf =>
    let offset := b.length - ((b.length - 1) % K + 1)
    let buf := writeSlice buf offset (b.length - offset) b.data
    match b.pred with
    | none => buf
    | some i =>
      match t.getBlock i with
      | some pb => matAux K t fuel pb buf
      | none => buf

/-- `Sequence::materialize` into a caller-provided buffer of `size()`
elements. -/
def Seq.materialize (K : Nat) (t : TrieSt T) (s : Seq T) : List T :=
  matAux K t (t.blocks.length + 1) s.block (List.replicate s.block.length default)

/-! ### The search state (`floodit.hpp` / part_000 `floodit.cpp`) -/

/-- `ELEMENTS_PER_BLOCK` for `Trie<color_t>` on an LP64 platform. -/
def EPB : Nat := 6

/-- `State`: filled bitmap, move-history handle, cached valuation. -/
structure State where
  filled : List Bool
  moves : Seq Color
  valuation : Nat
  deriving DecidableEq, Inhabited, Repr

def State.numMoves (s : State) : Nat := s.moves.block.length

/-- Node expansion inside `State::computeValuation`: push every unvisited
neighbor into the next layer, decrement its color count, and count the colors
whose count reaches zero.  The running tuple is
`(visited, next, colorCounts, numExposedColors)`. -/
def expandNode (g : Graph) (node : Nat)
    (st : List Bool × List Nat × List Nat × Nat) : List Bool × List Nat × List Nat × Nat :=
  (g.nbrs node).foldl
    (fun st2 nb =>
      if st2.1.getD nb false then st2
      else
        let counts := st2.2.2.1.set (g.colorAt nb) (st2.2.2.1.getD (g.colorAt nb) 0 - 1)
        let ne := if counts.getD (g.colorAt nb) 0 = 0 then st2.2.2.2 + 1 else st2.2.2.2
        (st2.1.set nb true, st2.2.1 ++ [nb], counts, ne))
    st

/-- The layered loop of `State::computeValuation` (part_000, lines 206-252).
If colors were exposed by the previous layer, charge one move per exposed
color and expand exactly the current nodes whose color got eliminated
(deciding by the snapshot `countsOld`), carrying the others; otherwise charge
one color-blind pseudo-move and expand the whole layer. -/
def valuationLoop (g : Graph) : Nat → List Bool → List Nat → List Nat → Nat → Nat → Nat
  | 0, _, _, _, _, acc => acc
  | fuel + 1, visited, current, counts, numExposed, acc =>
    if current = [] then acc
    else if 0 < numExposed then
      let countsOld := counts
      let st := current.foldl
        (fun st node =>
          if countsOld.getD (g.colorAt node) 0 = 0 then expandNode g node st
          else (st.1, st.2.1 ++ [node], st.2.2.1, st.2.2.2))
        (visited, ([] : List Nat), counts, 0)
      valuationLoop g fuel st.1 st.2.1 st.2.2.1 st.2.2.2 (acc + numExposed)
    else
      let st := current.foldl (fun st node => expandNode g node st)
        (visited, ([] : List Nat), counts, 0)
      valuationLoop g fuel st.1 st.2.1 st.2.2.1 st.2.2.2 (acc + 1)

/-- `State::computeValuation`: seed the traversal with the filled nodes
(decrementing their color counts), run the layered loop, and add the number
of moves made so far.  The loop of the source is a `while`; the fuel chosen
here is an upper bound on its iteration count (each iteration either expands
at least one node, consumes an exposed color, or is final). -/
def State.computeValuation (g : Graph) (s : State) : Nat :=
  let init := (List.range s.filled.length).foldl
    (fun (pr : List Nat × List Nat) index =>
      if s.filled.getD index false then
        (pr.1 ++ [index], pr.2.set (g.colorAt index) (pr.2.getD (g.colorAt index) 0 - 1))
      else pr)
    ([], g.colorCounts)
  s.numMoves + valuationLoop g (g.numNodes + g.colorCounts.length + 2) s.filled init.1 init.2 0 0

/-- `State::State(graph, trie)`: a single move (the root's color) in the
history, only the root filled, valuation computed. -/
def State.mk0 (g : Graph) (t : TrieSt Color) : TrieSt Color × State :=
  let r := TrieSt.append EPB t (Seq.initial EPB) (g.colorAt g.rootIndex)
  let filled := (List.replicate g.numNodes false).set g.rootIndex true
  let s : State := ⟨filled, r.2, 0⟩
  (r.1, { s with valuation := State.computeValuation g s })

/-- The `next > last` scan of `State::move` (part_000, lines 123-139): fill
every node of the new color adjacent to the filled region, reporting whether
anything was filled.  The scan reads the bitmap it is updating, exactly as
the source does. -/
def passGT (g : Graph) (filled : List Bool) (next : Color) : List Bool × Bool :=
  (List.range filled.length).foldl
    (fun pr node =>
      if g.colorAt node = next ∧ pr.1.getD node false = false then
        (g.nbrs node).foldl
          (fun pr2 neighbor =>
            if pr2.1.getD neighbor false then (pr2.1.set node true, true) else pr2)
          pr
      else pr)
    (filled, false)

/-- The `next < last` scan of `State::move` (part_000, lines 141-161): fill
the same nodes, but report an additional expansion only for a node none of
whose already-filled neighbors has a color other than `last`. -/
def passLT (g : Graph) (filled : List Bool) (next last : Color) : List Bool × Bool :=
  (List.range filled.length).foldl
    (fun pr node =>
      if g.colorAt node = next ∧ pr.1.getD node false = false then
        let inner := (g.nbrs node).foldl
          (fun (q : List Bool × Bool) neighbor =>
            if q.1.getD neighbor false then
              (q.1.set node true, if g.colorAt neighbor ≠ last then true else q.2)
            else q)
          (pr.1, false)
        (inner.1, if inner.1.getD node false ∧ inner.2 = false then true else pr.2)
      else pr)
    (filled, false)

/-- `State::move(graph, trie, next)`: append the move, run the scan for the
appropriate direction, reject if it found nothing (the state is returned as
mutated, as in the source, but the caller discards it), otherwise recompute
the valuation. -/
def State.move (g : Graph) (t : TrieSt Color) (s : State) (next : Color) :
    TrieSt Color × State × Bool :=
  let last := Seq.back EPB t s.moves
  let r := TrieSt.append EPB t s.moves next
  if last < next then
    let p := passGT g s.filled next
    if p.2 = false then (r.1, { s with moves := r.2, filled := p.1 }, false)
    else
      let s2 : State := { s with moves := r.2, filled := p.1 }
      (r.1, { s2 with valuation := State.computeValuation g s2 }, true)
  else
    let p := passLT g s.filled next last
    if p.2 = false then (r.1, { s with moves := r.2, filled := p.1 }, false)
    else
      let s2 : State := { s with moves := r.2, filled := p.1 }
      (r.1, { s2 with valuation := State.computeValuation g s2 }, true)

/-- `State::done`. -/
def State.done (s : State) : Bool := s.filled.all (fun x => x)

/-- `State::materializeMoves`. -/
def State.materializeMoves (t : TrieSt Color) (s : State) : List Color :=
  Seq.materialize EPB t s.moves

/-- `StateCompare{}(a, b)`: `a` sorts strictly below `b` in the heap, i.e.
`a` is the worse state (larger valuation, or same valuation and fewer
moves). -/
def stateLess (a b : State) : Bool :=
  if a.valuation ≠ b.valuation then decide (b.valuation < a.valuation)
  else decide (a.numMoves < b.numMoves)

/-- Index of the state extracted by `pop_heap`: a maximum of the queue under
`StateCompare` (which exact maximum is taken on ties is unspecified heap
layout; the first one is used here, and no theorem below depends on the tie
order). -/
def bestIdx (q : List State) : Nat :=
  (List.range q.length).foldl
    (fun best i => if stateLess (q.getD best default) (q.getD i default) then i else best) 0

/-- The two error exits of the core (`std::runtime_error` in the source) plus
a fuel marker for the modelled `while` loop. -/
inductive FloodError where
  | invariantViolation
  | notConnected
  | fuelExhausted
  deriving DecidableEq, Repr

/-- `color_t numColors = graph.getColorCounts().size();` — the count is
truncated to the 8-bit `color_t`. -/
def numColorsLoop (g : Graph) : Nat := g.colorCounts.length % 256

/-- The driver loop of `computeBestSequence`: pop the best state; if it is
done, materialize its moves; otherwise try every color except the last one
used, pushing the accepted successors, and continue.  An empty queue means
the goal was unreachable. -/
def searchLoop (g : Graph) : Nat → TrieSt Color → List State → Except FloodError (List Color)
  | 0, _, _ => .error .fuelExhausted
  | fuel + 1, t, queue =>
    if queue = [] then .error .notConnected
    else
      let i := bestIdx queue
      let s := queue.getD i default
      let rest := queue.eraseIdx i
      if s.done then .ok (State.materializeMoves t s)
      else
        let step := (List.range (numColorsLoop g)).foldl
          (fun (pr : TrieSt Color × List State) next =>
            if next = Seq.back EPB pr.1 s.moves then pr
            else
              let r := State.move g pr.1 s next
              if r.2.2 then (r.1, pr.2 ++ [r.2.1]) else (r.1, pr.2))
          (t, rest)
        searchLoop g fuel step.1 step.2

/-- Fuel for the driver loop; an over-approximation of the number of
iterations of the source's unbounded `while` (each accepted move strictly
grows the filled set, so the state tree has depth at most `numNodes` and
branching at most the color count). -/
def searchFuel (g : Graph) : Nat := (g.colorCounts.length + 2) ^ (g.numNodes + 2)

/-- `computeBestSequence`. -/
def computeBestSequence (g : Graph) : Except FloodError (List Color) :=
  let p := State.mk0 g TrieSt.empty
  searchLoop g (searchFuel g) p.1 [p.2]

/-! ### The alternative implementation (`src/floodit.cpp`)

The repository also contains a variant of the solver whose `State::move`
scans the unfilled neighbors of the filled region (`nbFilled`) instead of all
nodes of the new color.  Its `State` keeps the move history as a plain
vector and a pointer to the graph; the graph is passed explicitly here. -/

structure StateNb where
  filled : List Bool
  moves : List Color
  valuation : Nat
  deriving DecidableEq, Inhabited, Repr

/-- `State::nbFilled` of the variant: the unfilled neighbors of filled
nodes, each listed once, in discovery order. -/
def StateNb.nbList (g : Graph) (s : StateNb) : List Nat :=
  ((List.range s.filled.length).foldl
    (fun (pr : List Nat × List Bool) node =>
      if s.filled.getD node false then
        (g.nbrs node).foldl
          (fun pr2 nb =>
            if pr2.2.getD nb false then pr2 else (pr2.1 ++ [nb], pr2.2.set nb true))
          pr
      else pr)
    ([], s.filled)).1

/-- The layered loop of the variant's `State::computeValuation`
(`src/floodit.cpp`, lines 220-250).  It detects the eliminated colors from
the counts as they stand at the start of the iteration. -/
def valuationLoopNb (g : Graph) : Nat → List Bool → List Nat → List Nat → Nat → Nat → Nat
  | 0, _, _, _, _, acc => acc
  | fuel + 1, visited, current, counts, numEliminated, acc =>
    if current = [] then acc
    else if 0 < numEliminated then
      let countsStart := counts
      let st := current.foldl
        (fun st node =>
          if countsStart.getD (g.colorAt node) 0 = 0 then expandNode g node st
          else (st.1, st.2.1 ++ [node], st.2.2.1, st.2.2.2))
        (visited, ([] : List Nat), counts, 0)
      valuationLoopNb g fuel st.1 st.2.1 st.2.2.1 st.2.2.2 (acc + numEliminated)
    else
      let st := current.foldl (fun st node => expandNode g node st)
        (visited, ([] : List Nat), counts, 0)
      valuationLoopNb g fuel st.1 st.2.1 st.2.2.1 st.2.2.2 (acc + 1)

/-- The variant's `State::computeValuation` (an `int` in the source; its
value is `moves.size() + distance`, which is never negative). -/
def StateNb.computeValuation (g : Graph) (s : StateNb) : Nat :=
  let init := (List.range s.filled.length).foldl
    (fun (pr : List Nat × List Nat) index =>
      if s.filled.getD index false then
        (pr.1 ++ [index], pr.2.set (g.colorAt index) (pr.2.getD (g.colorAt index) 0 - 1))
      else pr)
    ([], g.colorCounts)
  s.moves.length +
    valuationLoopNb g (g.numNodes + g.colorCounts.length + 2) s.filled init.1 init.2 0 0

/-- The variant's `State::State(graph)`. -/
def StateNb.mk0 (g : Graph) : StateNb :=
  let filled := (List.replicate g.numNodes false).set g.rootIndex true
  let s : StateNb := ⟨filled, [g.colorAt g.rootIndex], 0⟩
  { s with valuation := StateNb.computeValuation g s }

/-- The variant's `State::move(color_t next, std::vector<unsigned> nbFilled)`
(`src/floodit.cpp`, lines 136-167): reject iff every newly absorbed node has
an already-filled neighbor of a color other than `last`, and additionally,
when `next > last`, some node of the new color has an unfilled neighbor of
color `last`; otherwise set `filled[node] = (color(node) == next)` for every
node of `nbFilled` and recompute the valuation. -/
def StateNb.move (g : Graph) (s : StateNb) (next : Color) (nf : List Nat) : StateNb × Bool :=
  let last := (s.moves.getLast?).getD default
  let moves := s.moves ++ [next]
  let swappedMovesBetter :=
    (nf.all (fun node =>
      if g.colorAt node == next then
        (g.nbrs node).any (fun nb => s.filled.getD nb false && !(g.colorAt nb == last))
      else true)) &&
    (decide (next < last) || nf.any (fun node =>
      if g.colorAt node == next then
        (g.nbrs node).any (fun nb => !(s.filled.getD nb false) && g.colorAt nb == last)
      else false))
  if swappedMovesBetter then ({ s with moves := moves }, false)
  else
    let filled := nf.foldl (fun fl node => fl.set node (g.colorAt node == next)) s.filled
    let s2 : StateNb := { s with moves := moves, filled := filled }
    ({ s2 with valuation := StateNb.computeValuation g s2 }, true)

/-! ### Well-formedness and specification-level definitions -/

/-- Well-formed graph: nonempty, valid root, neighbor indices in range. -/
def Graph.wfB (g : Graph) : Bool :=
  (decide (0 < g.numNodes)) && (decide (g.rootIndex < g.numNodes)) &&
    g.nodes.all (fun nd => nd.neighbors.all (fun nb => decide (nb < g.numNodes)))

/-- Reduced graph: no edge connects two nodes of the same color (this is the
property asserted by the `State` constructor).  It also rules out
self-loops. -/
def Graph.reducedB (g : Graph) : Bool :=
  (List.range g.numNodes).all (fun i =>
    (g.nbrs i).all (fun nb => !(g.colorAt nb == g.colorAt i)))

/-- Symmetric adjacency: `b ∈ neighbors(a) ↔ a ∈ neighbors(b)` (the
undirected-edge invariant of the data model). -/
def Graph.symmB (g : Graph) : Bool :=
  (List.range g.numNodes).all (fun i =>
    (g.nbrs i).all (fun nb => (g.nbrs nb).contains i))

/-- The per-color node counts recomputed from the nodes. -/
def Graph.histogram (g : Graph) : List Nat :=
  g.nodes.foldl (fun h nd => h.set nd.color (h.getD nd.color 0 + 1))
    (List.replicate g.colorCounts.length 0)

/-- Consistent color counts: every node's color indexes into `colorCounts`,
and `colorCounts` is the color histogram of the nodes. -/
def Graph.countsB (g : Graph) : Bool :=
  g.nodes.all (fun nd => decide (nd.color < g.colorCounts.length)) &&
    (g.colorCounts == g.histogram)

/-- The initial filled bitmap: only the root. -/
def initFilled (g : Graph) : List Bool :=
  (List.replicate g.numNodes false).set g.rootIndex true

/-- Modelled from the spec: one flood move of the replay semantics of claim
C2 — "absorbing every unfilled node of that color adjacent to the filled
region".  The bitmap is rebuilt pointwise. -/
def specStep (g : Graph) (fl : List Bool) (c : Color) : List Bool :=
  (List.range fl.length).map (fun v =>
    fl.getD v false || (g.colorAt v == c && (g.nbrs v).any (fun u => fl.getD u false)))

/-- Modelled from the spec: replaying a returned sequence — "starting with
only the root filled and, for each element after the first, absorbing every
unfilled node of that color adjacent to the filled region". -/
def replay (g : Graph) (ms : List Color) : List Bool :=
  ms.tail.foldl (specStep g) (initFilled g)

/-- One step of breadth-first reachability from a bitmap. -/
def reachStep (g : Graph) (r : List Bool) : List Bool :=
  (List.range r.length).map (fun v =>
    r.getD v false || (g.nbrs v).any (fun u => r.getD u false))

def reachAll (g : Graph) : Nat → List Bool → List Bool
  | 0, r => r
  | n + 1, r => reachAll g n (reachStep g r)

/-- Connectivity: every node is reachable from the root (for the symmetric
graphs at hand). -/
def Graph.connB (g : Graph) : Bool :=
  (reachAll g g.numNodes (initFilled g)).all (fun x => x)

/-- The set `F` of §4.4: the unfilled nodes of color `c` adjacent to the
filled region, as a list of node indices. -/
def newNodes (g : Graph) (fl : List Bool) (c : Color) : List Nat :=
  (List.range fl.length).filter (fun v =>
    fl.getD v false = false ∧ g.colorAt v = c ∧ ∃ u ∈ g.nbrs v, fl.getD u false = true)

/-- Appending a whole list of elements through the trie, threading the trie
state, as the solver does move by move. -/
def appendList (K : Nat) (t : TrieSt T) (s : Seq T) (l : List T) : TrieSt T × Seq T :=
  l.foldl (fun pr e => TrieSt.append K pr.1 pr.2 e) (t, s)

/-! ### Basic list access lemmas -/

theorem getD_set_self {α : Type} (l : List α) (i : Nat) (a d : α) (h : i < l.length) :
    (l.set i a).getD i d = a := by
  simp [List.getD, List.getElem?_set_self, h]

theorem getD_set_ne {α : Type} (l : List α) {i j : Nat} (a d : α) (h : i ≠ j) :
    (l.set i a).getD j d = l.getD j d := by
  simp [List.getD, List.getElem?_set_ne h]

theorem getD_take_lt {α : Type} (l : List α) {n i : Nat} (d : α) (h : i < n) :
    (l.take n).getD i d = l.getD i d := by
  simp [List.getD, List.getElem?_take, h]

theorem getD_append_lt {α : Type} (l l2 : List α) {i : Nat} (d : α) (h : i < l.length) :
    (l ++ l2).getD i d = l.getD i d := by
  simp [List.getD, List.getElem?_append_left h]

theorem getD_append_right {α : Type} (l l2 : List α) (i : Nat) (d : α) :
    (l ++ l2).getD (l.length + i) d = l2.getD i d := by
  simp [List.getD, List.getElem?_append_right (Nat.le_add_right _ _)]

theorem getD_of_le {α : Type} (l : List α) {i : Nat} (d : α) (h : l.length ≤ i) :
    l.getD i d = d :=
  List.getD_eq_default l d h

theorem getD_replicate {α : Type} {n i : Nat} (a d : α) (h : i < n) :
    (List.replicate n a).getD i d = a := by
  rw [List.getD_eq_getElem _ _ (by simpa using h)]
  simp

theorem list_eq_of_getD {α : Type} (l1 l2 : List α) (d : α) (h : l1.length = l2.length)
    (h2 : ∀ i, i < l1.length → l1.getD i d = l2.getD i d) : l1 = l2 := by
  apply List.ext_getElem h
  intro i h1 hh2
  have := h2 i h1
  rwa [List.getD_eq_getElem _ _ h1, List.getD_eq_getElem _ _ hh2] at this

/-! ### Trie representation invariant and round-trip correctness

`predLen n K = n - n % K` is the number of elements of an `n`-element
sequence held by the chain of full predecessor blocks; the handle's own
inline array holds the remaining `n % K`.  A handle sitting exactly on a
block boundary (`n % K = 0`, `n ≥ 1`) holds none of its elements itself: the
whole sequence lives in its predecessor chain. -/

def predLen (n K : Nat) : Nat := n - n % K

/-- The chain of stored (full) blocks reachable from a `pred` pointer
represents a list: each stored block holds the last `K` elements, chains to
the rest, and points strictly downward in insertion order. -/
inductive ChainRepr (K : Nat) (t : TrieSt T) : Option Nat → List T → Prop where
  | nil : ChainRepr K t none []
  | cons (i : Nat) (b : Block T) (l : List T)
      (hi : i < t.blocks.length)
      (hget : t.getBlock i = some b)
      (hlen : b.length = l.length)
      (hne : l ≠ [])
      (hmod : l.length % K = 0)
      (hdata : ∀ j, j < K → b.data.getD j default = l.getD (l.length - K + j) default)
      (hpred : ∀ pj, b.pred = some pj → pj < i)
      (hchain : ChainRepr K t b.pred (l.take (l.length - K))) :
      ChainRepr K t (some i) l

/-- A handle represents a list: correct 16-bit length (below the wrap),
inline array of the platform size holding the tail beyond the predecessor
chain, and a correct chain. -/
structure SeqRepr (K : Nat) (t : TrieSt T) (s : Seq T) (l : List T) : Prop where
  len : s.block.length = l.length
  small : l.length ≤ 65535
  dlen : s.block.data.length = K
  dataEq : ∀ j, j < l.length - predLen l.length K →
    s.block.data.getD j default = l.getD (predLen l.length K + j) default
  chain : ChainRepr K t s.block.pred (l.take (predLen l.length K))

/-- One trie state extends another: blocks are only ever added (to the front
of the list model, i.e. the back of the deque). -/
def TrieExtends (t t2 : TrieSt T) : Prop := ∃ pre, t2.blocks = pre ++ t.blocks

theorem TrieExtends.refl (t : TrieSt T) : TrieExtends t t := ⟨[], rfl⟩

theorem TrieExtends.trans {t1 t2 t3 : TrieSt T} (h1 : TrieExtends t1 t2)
    (h2 : TrieExtends t2 t3) : TrieExtends t1 t3 := by
  obtain ⟨p1, e1⟩ := h1
  obtain ⟨p2, e2⟩ := h2
  exact ⟨p2 ++ p1, by rw [e2, e1, List.append_assoc]⟩

theorem getBlock_mono {t t2 : TrieSt T} (h : TrieExtends t t2) {i : Nat}
    (hi : i < t.blocks.length) : t2.getBlock i = t.getBlock i := by
  obtain ⟨pre, e⟩ := h
  unfold TrieSt.getBlock
  rw [e, List.length_append]
  have harith : pre.length + t.blocks.length - 1 - i = pre.length + (t.blocks.length - 1 - i) := by
    omega
  rw [harith, List.getElem?_append_right (Nat.le_add_right _ _)]
  congr 1
  omega

theorem ChainRepr.mono_chain {t t2 : TrieSt T} {K : Nat} {p : Option Nat} {l : List T}
    (h : TrieExtends t t2) (hc : ChainRepr K t p l) : ChainRepr K t2 p l := by
  induction hc with
  | nil => exact .nil
  | cons i b l hi hget hlen hne hmod hdata hpred hchain ih =>
    refine .cons i b l ?_ ?_ hlen hne hmod hdata hpred ih
    · obtain ⟨pre, e⟩ := h
      rw [e, List.length_append]
      omega
    · rw [getBlock_mono h hi, hget]

theorem SeqRepr.mono_seq {t t2 : TrieSt T} {K : Nat} {s : Seq T} {l : List T}
    (h : TrieExtends t t2) (hr : SeqRepr K t s l) : SeqRepr K t2 s l :=
  ⟨hr.len, hr.small, hr.dlen, hr.dataEq, hr.chain.mono_chain h⟩

theorem append_extends (K : Nat) (t : TrieSt T) (s : Seq T) (e : T) :
    TrieExtends t (TrieSt.append K t s e).1 := by
  unfold TrieSt.append
  dsimp only
  split
  · exact ⟨[(s.block.add K e).1], rfl⟩
  · exact ⟨[], rfl⟩

theorem append_seq_length (K : Nat) (t : TrieSt T) (s : Seq T) (e : T) :
    (TrieSt.append K t s e).2.block.length = (s.block.length + 1) % 65536 := by
  unfold TrieSt.append Block.add
  dsimp only
  split <;> rfl

theorem add_one_mod (n K : Nat) : (n + 1) % K = (n % K + 1) % K := by
  conv_lhs => rw [← Nat.mod_add_div n K]
  rw [Nat.add_right_comm, Nat.add_mul_mod_self_left]

theorem mod_succ_of_full {n K : Nat} (hK : 1 ≤ K) (h : n % K = K - 1) : (n + 1) % K = 0 := by
  rw [add_one_mod, h]
  have he : K - 1 + 1 = K := by omega
  rw [he, Nat.mod_self]

theorem mod_succ_of_notfull {n K : Nat} (hK : 1 ≤ K) (h : n % K ≠ K - 1) :
    (n + 1) % K = n % K + 1 := by
  have hlt : n % K < K := Nat.mod_lt _ (by omega)
  rw [add_one_mod, Nat.mod_eq_of_lt (by omega)]

theorem mod_pred_of_mod_zero {n K : Nat} (hK : 1 ≤ K) (h : n % K = 0) (hn : 1 ≤ n) :
    (n - 1) % K = K - 1 := by
  obtain ⟨q, hq⟩ := Nat.dvd_of_mod_eq_zero h
  have hq1 : 1 ≤ q := by
    rcases Nat.eq_zero_or_pos q with h0 | h1
    · rw [h0, Nat.mul_zero] at hq
      omega
    · exact h1
  have hsplit : K * q = K * (q - 1) + K := by
    have : q - 1 + 1 = q := by omega
    rw [← this, Nat.mul_succ, this]
  have hn1 : n - 1 = K * (q - 1) + (K - 1) := by omega
  rw [hn1, Nat.mul_add_mod, Nat.mod_eq_of_lt (by omega)]

/-- `TrieSt.append` when the block becomes full: push it, hand out a fresh
chained block. -/
theorem append_eq_push {K : Nat} {t : TrieSt T} {s : Seq T} {e : T}
    (hfull : s.block.length % K = K - 1) :
    TrieSt.append K t s e =
    (⟨⟨s.block.pred, (s.block.length + 1) % 65536,
        s.block.data.set (s.block.length % K) e⟩ :: t.blocks⟩,
      ⟨⟨some t.blocks.length, (s.block.length + 1) % 65536, List.replicate K default⟩⟩) := by
  unfold TrieSt.append Block.add
  simp [hfull]

/-- `TrieSt.append` when the block does not become full. -/
theorem append_eq_noPush {K : Nat} {t : TrieSt T} {s : Seq T} {e : T}
    (h : s.block.length % K ≠ K - 1) :
    TrieSt.append K t s e =
    (t, ⟨⟨s.block.pred, (s.block.length + 1) % 65536,
        s.block.data.set (s.block.length % K) e⟩⟩) := by
  unfold TrieSt.append Block.add
  simp [h]

theorem appendList_length (K : Nat) (t : TrieSt T) (s : Seq T) (l : List T)
    (h : s.block.length < 65536) :
    (appendList K t s l).2.block.length = (s.block.length + l.length) % 65536 := by
  induction l generalizing t s with
  | nil =>
    simp only [appendList, List.foldl_nil, List.length_nil, Nat.add_zero]
    exact (Nat.mod_eq_of_lt h).symm
  | cons e rest ih =>
    simp only [appendList, List.foldl_cons] at *
    rw [ih _ _ (by rw [append_seq_length]; exact Nat.mod_lt _ (by omega)),
      append_seq_length, Nat.mod_add_mod, List.length_cons]
    congr 1
    omega

theorem ChainRepr.pred_lt {K : Nat} {t : TrieSt T} {p : Option Nat} {l : List T}
    (h : ChainRepr K t p l) : ∀ pj, p = some pj → pj < t.blocks.length := by
  cases h with
  | nil =>
    intro pj hpj
    cases hpj
  | cons i b l hi hget hlen hne hmod hdata hpred hchain =>
    intro pj hpj
    cases hpj
    exact hi

theorem SeqRepr_initial (K : Nat) (t : TrieSt T) (hK : 1 ≤ K) :
    SeqRepr K t (Seq.initial K) ([] : List T) := by
  refine ⟨rfl, by simp, ?_, ?_, ?_⟩
  · simp [Seq.initial, Block.initial]
  · intro j hj
    simp [predLen] at hj
  · simp only [Seq.initial, Block.initial, List.length_nil, predLen, Nat.zero_mod,
      Nat.sub_zero, List.take_nil]
    exact ChainRepr.nil

theorem SeqRepr_append {K : Nat} {t : TrieSt T} {s : Seq T} {l : List T}
    (hK : 1 ≤ K) (hr : SeqRepr K t s l) (e : T) (hsmall : l.length ≤ 65534) :
    SeqRepr K (TrieSt.append K t s e).1 (TrieSt.append K t s e).2 (l ++ [e]) := by
  have hn := hr.len
  have hmodlt : l.length % K < K := Nat.mod_lt _ (by omega)
  have hlen1 : (s.block.length + 1) % 65536 = l.length + 1 := by
    rw [hn]
    exact Nat.mod_eq_of_lt (by omega)
  have hlapp : (l ++ [e]).length = l.length + 1 := by simp
  by_cases hfull : s.block.length % K = K - 1
  · -- the block becomes full and is pushed
    rw [append_eq_push hfull]
    rw [hn] at hfull
    have hmod0 : (l.length + 1) % K = 0 := mod_succ_of_full hK hfull
    have hKle : K ≤ l.length + 1 := by
      have : l.length % K ≤ l.length := Nat.mod_le _ _
      omega
    have hpredLen : predLen (l.length + 1) K = l.length + 1 := by
      simp [predLen, hmod0]
    have hpredLenOld : predLen l.length K = l.length + 1 - K := by
      simp [predLen, hfull]
      omega
    refine ⟨by simpa using hlen1, by omega, by simp, ?_, ?_⟩
    · intro j hj
      rw [hlapp, hpredLen] at hj
      omega
    · rw [hlapp, hpredLen]
      have htake : List.take (l.length + 1) (l ++ [e]) = l ++ [e] :=
        List.take_of_length_le (by simp)
      rw [htake]
      refine ChainRepr.cons t.blocks.length
        ⟨s.block.pred, (s.block.length + 1) % 65536, s.block.data.set (s.block.length % K) e⟩
        (l ++ [e]) (by simp) ?_ (by simpa using hlen1) (by simp) (by simpa using hmod0) ?_ ?_ ?_
      · unfold TrieSt.getBlock
        simp
      · -- the pushed block's data holds the last K elements of l ++ [e]
        intro j hj
        rcases Nat.lt_or_ge j (K - 1) with hjlt | hjge
        · have hne : s.block.length % K ≠ j := by
            rw [hn, hfull]
            omega
          dsimp only
          rw [getD_set_ne _ _ _ hne]
          have hdata := hr.dataEq j (by rw [hpredLenOld]; omega)
          rw [hdata, hpredLenOld, hlapp]
          rw [getD_append_lt _ _ _ (by omega)]
        · have hj1 : j = K - 1 := by omega
          subst hj1
          dsimp only
          rw [hn, hfull, getD_set_self _ _ _ _ (by rw [hr.dlen]; omega)]
          have harith : (l ++ [e]).length - K + (K - 1) = l.length := by
            rw [hlapp]
            omega
          rw [harith]
          simp
      · intro pj hpj
        dsimp only at hpj
        exact hr.chain.pred_lt pj hpj
      · have harith : (l ++ [e]).length - K = predLen l.length K := by
          rw [hlapp, hpredLenOld]
        rw [harith]
        have htk : (l ++ [e]).take (predLen l.length K) = l.take (predLen l.length K) := by
          apply List.take_append_of_le_length
          simp only [predLen]
          omega
        rw [htk]
        exact hr.chain.mono_chain ⟨[_], rfl⟩
  · -- no push: the handle keeps its block
    rw [append_eq_noPush hfull]
    rw [hn] at hfull
    have hmodsucc : (l.length + 1) % K = l.length % K + 1 := mod_succ_of_notfull hK hfull
    have hpredLenEq : predLen (l.length + 1) K = predLen l.length K := by
      simp only [predLen, hmodsucc]
      omega
    have hplle : predLen l.length K + l.length % K = l.length := by
      have : l.length % K ≤ l.length := Nat.mod_le _ _
      simp only [predLen]
      omega
    refine ⟨by simpa using hlen1, by omega, by simpa using hr.dlen, ?_, ?_⟩
    · intro j hj
      rw [hlapp, hpredLenEq] at hj ⊢
      have hjlt : j < l.length % K + 1 := by
        simp only [predLen] at hj
        omega
      dsimp only
      rcases Nat.lt_or_ge j (l.length % K) with hjl | hjg
      · have hne2 : s.block.length % K ≠ j := by
          rw [hn]
          omega
        rw [getD_set_ne _ _ _ hne2]
        have hdata := hr.dataEq j (by simp only [predLen]; omega)
        rw [hdata, getD_append_lt _ _ _ (by omega)]
      · have hj2 : j = l.length % K := by omega
        subst hj2
        rw [hn, getD_set_self _ _ _ _ (by rw [hr.dlen]; omega)]
        have harith : predLen l.length K + l.length % K = l.length := hplle
        rw [harith]
        simp
    · rw [hlapp, hpredLenEq]
      have htk : (l ++ [e]).take (predLen l.length K) = l.take (predLen l.length K) := by
        apply List.take_append_of_le_length
        simp only [predLen]
        omega
      rw [htk]
      exact hr.chain

theorem mod_pred_of_mod_ne_zero {n K : Nat} (hK : 1 ≤ K) (h : n % K ≠ 0) :
    (n - 1) % K = n % K - 1 := by
  have hd := Nat.div_add_mod n K
  have hr : 1 ≤ n % K := by omega
  have hn1 : n - 1 = K * (n / K) + (n % K - 1) := by omega
  have hlt : n % K - 1 < K := by
    have hx : n % K < K := Nat.mod_lt _ (by omega)
    omega
  rw [hn1, Nat.mul_add_mod, Nat.mod_eq_of_lt hlt]

theorem writeSlice_succ (buf : List T) (off n : Nat) (data : List T) :
    writeSlice buf off (n + 1) data =
      (writeSlice buf off n data).set (off + n) (data.getD n default) := by
  unfold writeSlice
  rw [List.range_succ, List.foldl_append]
  rfl

theorem writeSlice_length (buf : List T) (off cnt : Nat) (data : List T) :
    (writeSlice buf off cnt data).length = buf.length := by
  induction cnt with
  | zero => rfl
  | succ n ih => rw [writeSlice_succ, List.length_set, ih]

theorem writeSlice_getD (buf : List T) (off cnt : Nat) (data : List T) (q : Nat)
    (hbound : off + cnt ≤ buf.length) :
    (writeSlice buf off cnt data).getD q default =
      if off ≤ q ∧ q < off + cnt then data.getD (q - off) default else buf.getD q default := by
  induction cnt with
  | zero =>
    simp only [writeSlice, List.range_zero, List.foldl_nil]
    rw [if_neg (by omega)]
  | succ n ih =>
    rw [writeSlice_succ]
    by_cases hq : q = off + n
    · subst hq
      rw [getD_set_self _ _ _ _ (by rw [writeSlice_length]; omega)]
      rw [if_pos (by omega)]
      congr 1
      omega
    · rw [getD_set_ne _ _ _ (fun h => hq h.symm), ih (by omega)]
      split_ifs with h1 h2 h2 <;> first | rfl | omega

/-- The continuation of `Block::materialize` from a predecessor pointer. -/
def matPred (K : Nat) (t : TrieSt T) (fuel : Nat) (p : Option Nat) (buf : List T) : List T :=
  match p with
  | none => buf
  | some i =>
    match t.getBlock i with
    | some pb => matAux K t fuel pb buf
    | none => buf

theorem matAux_succ (K : Nat) (t : TrieSt T) (fuel : Nat) (b : Block T) (buf : List T) :
    matAux K t (fuel + 1) b buf =
      matPred K t fuel b.pred
        (writeSlice buf (b.length - ((b.length - 1) % K + 1))
          (b.length - (b.length - ((b.length - 1) % K + 1))) b.data) := by
  cases hp : b.pred with
  | none => simp [matAux, matPred, hp]
  | some i =>
    cases hg : t.getBlock i with
    | none => simp [matAux, matPred, hp, hg]
    | some pb => simp [matAux, matPred, hp, hg]

theorem ChainRepr_none_of_nil {K : Nat} {t : TrieSt T} {p : Option Nat}
    (h : ChainRepr K t p ([] : List T)) : p = none := by
  cases h with
  | nil => rfl
  | cons i b l hi hget hlen hne hmod hdata hpred hchain => exact absurd rfl hne

/-- A nonempty represented chain starts with a stored block holding its last
`K` elements. -/
theorem ChainRepr_last_block {K : Nat} {t : TrieSt T} {p : Option Nat} {l : List T}
    (h : ChainRepr K t p l) (hne : l ≠ []) :
    ∃ i b, p = some i ∧ t.getBlock i = some b ∧
      ∀ j, j < K → b.data.getD j default = l.getD (l.length - K + j) default := by
  cases h with
  | nil => exact absurd rfl hne
  | cons i b l hi hget hlen hne2 hmod hdata hpred hchain => exact ⟨i, b, rfl, hget, hdata⟩

/-- Walking a represented predecessor chain writes exactly the represented
elements onto the low positions of the buffer. -/
theorem matPred_chain {K : Nat} {t : TrieSt T} (hK : 1 ≤ K) {p : Option Nat} {lc : List T}
    (hc : ChainRepr K t p lc) :
    ∀ fuel buf, (∀ pj, p = some pj → pj < fuel) → lc.length ≤ buf.length →
    (matPred K t fuel p buf).length = buf.length ∧
    ∀ q, (matPred K t fuel p buf).getD q default =
      if q < lc.length then lc.getD q default else buf.getD q default := by
  induction hc with
  | nil =>
    intro fuel buf hfuel hlen
    refine ⟨rfl, fun q => ?_⟩
    rw [if_neg (by simp)]
    rfl
  | cons i b l hi hget hlen hne hmod hdata hpred hchain ih =>
    intro fuel buf hfuel hbuf
    have hifuel : i < fuel := hfuel i rfl
    obtain ⟨f, rfl⟩ : ∃ f, fuel = f + 1 := ⟨fuel - 1, by omega⟩
    have hm1 : 1 ≤ l.length := List.length_pos.mpr hne
    have hKle : K ≤ l.length := Nat.le_of_dvd (by omega) (Nat.dvd_of_mod_eq_zero hmod)
    have hoff3 : l.length - ((l.length - 1) % K + 1) = l.length - K := by
      rw [mod_pred_of_mod_zero hK hmod hm1]
      omega
    have hcnt3 : l.length - (l.length - K) = K := by omega
    have hmps : matPred K t (f + 1) (some i) buf = matAux K t (f + 1) b buf := by
      simp [matPred, hget]
    have hwlen : (writeSlice buf (l.length - K) K b.data).length = buf.length :=
      writeSlice_length _ _ _ _
    have hwget : ∀ q, (writeSlice buf (l.length - K) K b.data).getD q default =
        if l.length - K ≤ q ∧ q < l.length then l.getD q default else buf.getD q default := by
      intro q
      rw [writeSlice_getD _ _ _ _ _ (by omega)]
      split_ifs with h1 h2 h2
      · rw [hdata _ (by omega)]
        congr 1
        omega
      · omega
      · omega
      · rfl
    rw [hmps, matAux_succ, hlen, hoff3, hcnt3]
    have hpredlt : ∀ pj, b.pred = some pj → pj < f := by
      intro pj hpj
      have := hpred pj hpj
      omega
    have htlen : (l.take (l.length - K)).length ≤ (writeSlice buf (l.length - K) K b.data).length := by
      rw [hwlen, List.length_take]
      omega
    obtain ⟨ihlen, ihget⟩ := ih f (writeSlice buf (l.length - K) K b.data) hpredlt htlen
    refine ⟨by rw [ihlen, hwlen], fun q => ?_⟩
    rw [ihget q]
    rw [List.length_take, Nat.min_eq_left (Nat.sub_le _ _)]
    by_cases hql : q < l.length - K
    · rw [if_pos hql, if_pos (by omega)]
      exact getD_take_lt _ _ hql
    · rw [if_neg hql, hwget q]
      split_ifs with h1 h2 h2 <;> first | rfl | omega

/-- A represented handle materializes to exactly its sequence. -/
theorem SeqRepr.materialize_eq {K : Nat} {t : TrieSt T} {s : Seq T} {l : List T}
    (hK : 1 ≤ K) (hr : SeqRepr K t s l) : Seq.materialize K t s = l := by
  have hn := hr.len
  have hplle : predLen l.length K ≤ l.length := Nat.sub_le _ _
  have hfuelpred : ∀ pj, s.block.pred = some pj → pj < t.blocks.length :=
    hr.chain.pred_lt
  unfold Seq.materialize
  have hbuflen : (List.replicate s.block.length (default : T)).length = l.length := by
    rw [List.length_replicate, hn]
  rcases Nat.eq_zero_or_pos l.length with hn0 | hpos
  · -- empty sequence
    have hl : l = [] := List.eq_nil_of_length_eq_zero hn0
    subst hl
    have hpnone : s.block.pred = none := by
      have hch := hr.chain
      rw [List.take_nil] at hch
      exact ChainRepr_none_of_nil hch
    rw [hn]
    simp only [List.length_nil, List.replicate_zero]
    rw [matAux_succ, hpnone]
    simp only [matPred]
    apply List.eq_nil_of_length_eq_zero
    rw [writeSlice_length]
    rfl
  · -- nonempty: one unfolding of matAux, then the chain lemma
    obtain ⟨f0, hf0⟩ : ∃ f0, t.blocks.length + 1 = f0 + 1 := ⟨t.blocks.length, rfl⟩
    rw [hf0, matAux_succ]
    have hmle : l.length % K ≤ l.length := Nat.mod_le _ _
    have hmlt : l.length % K < K := Nat.mod_lt _ (by omega)
    have hfuelstep : ∀ pj, s.block.pred = some pj → pj < f0 := by
      intro pj hpj
      have := hfuelpred pj hpj
      omega
    rcases Nat.eq_zero_or_pos (l.length % K) with hz | hnz
    · -- the handle sits on a block boundary: its own array is garbage,
      -- but the chain holds the entire sequence and overwrites the buffer
      have hKle : K ≤ l.length := Nat.le_of_dvd (by omega) (Nat.dvd_of_mod_eq_zero hz)
      have hoff : s.block.length - ((s.block.length - 1) % K + 1) = l.length - K := by
        rw [hn, mod_pred_of_mod_zero hK hz hpos]
        omega
      have hcnt : s.block.length - (l.length - K) = K := by
        rw [hn]
        omega
      rw [hoff, hcnt]
      set buf2 := writeSlice (List.replicate s.block.length (default : T))
        (l.length - K) K s.block.data with hbuf2
      have hbuf2len : buf2.length = l.length := by
        rw [hbuf2, writeSlice_length, hbuflen]
      have hpl : predLen l.length K = l.length := by
        simp only [predLen, hz, Nat.sub_zero]
      have hchain := hr.chain
      rw [hpl, List.take_of_length_le (Nat.le_refl _)] at hchain
      obtain ⟨mlen, mget⟩ := matPred_chain hK hchain f0 buf2 hfuelstep (by omega)
      apply list_eq_of_getD _ _ default
      · rw [mlen, hbuf2len]
      · intro q hq
        rw [mlen, hbuf2len] at hq
        rw [mget q, if_pos hq]
    · -- the handle's own array holds the tail beyond the chain
      have hoff : s.block.length - ((s.block.length - 1) % K + 1) = predLen l.length K := by
        rw [hn, mod_pred_of_mod_ne_zero hK (by omega)]
        simp only [predLen]
        omega
      have hcnt : s.block.length - predLen l.length K = l.length - predLen l.length K := by
        rw [hn]
      rw [hoff, hcnt]
      set buf2 := writeSlice (List.replicate s.block.length (default : T))
        (predLen l.length K) (l.length - predLen l.length K) s.block.data with hbuf2
      have hbuf2len : buf2.length = l.length := by
        rw [hbuf2, writeSlice_length, hbuflen]
      have hbuf2get : ∀ q, q < l.length → predLen l.length K ≤ q →
          buf2.getD q default = l.getD q default := by
        intro q hq hqp
        rw [hbuf2, writeSlice_getD _ _ _ _ _ (by rw [hbuflen]; omega)]
        rw [if_pos (by omega)]
        rw [hr.dataEq (q - predLen l.length K) (by omega)]
        congr 1
        omega
      have hchain := hr.chain
      have htklen : (l.take (predLen l.length K)).length = predLen l.length K := by
        rw [List.length_take]
        omega
      obtain ⟨mlen, mget⟩ := matPred_chain hK hchain f0 buf2 hfuelstep
        (by rw [hbuf2len, htklen]; omega)
      apply list_eq_of_getD _ _ default
      · rw [mlen, hbuf2len]
      · intro q hq
        rw [mlen, hbuf2len] at hq
        rw [mget q, htklen]
        by_cases hql : q < predLen l.length K
        · rw [if_pos hql]
          exact getD_take_lt _ _ hql
        · rw [if_neg hql]
          exact hbuf2get q hq (by omega)

/-- A represented handle reports its length. -/
theorem SeqRepr.size_eq {K : Nat} {t : TrieSt T} {s : Seq T} {l : List T}
    (hr : SeqRepr K t s l) : s.size = l.length := hr.len

/-- A represented nonempty handle reports its last element. -/
theorem SeqRepr.back_eq {K : Nat} {t : TrieSt T} {s : Seq T} {l : List T}
    (hK : 1 ≤ K) (hr : SeqRepr K t s l) (hne : l ≠ []) :
    Seq.back K t s = l.getD (l.length - 1) default := by
  have hn := hr.len
  have hpos : 1 ≤ l.length := List.length_pos.mpr hne
  unfold Seq.back
  rcases Nat.eq_zero_or_pos (l.length % K) with hz | hnz
  · -- block boundary: the element lives in the predecessor block
    have hKle : K ≤ l.length := Nat.le_of_dvd (by omega) (Nat.dvd_of_mod_eq_zero hz)
    have hm : (s.block.length - 1) % K = K - 1 := by
      rw [hn, mod_pred_of_mod_zero hK hz hpos]
    rw [hm]
    rw [if_neg (by omega)]
    have hchain := hr.chain
    have hpl : predLen l.length K = l.length := by
      simp only [predLen, hz, Nat.sub_zero]
    rw [hpl, List.take_of_length_le (Nat.le_refl _)] at hchain
    obtain ⟨i, b, hpi, hgi, hd⟩ := ChainRepr_last_block hchain hne
    rw [hpi]
    simp only [hgi]
    rw [hd (K - 1) (by omega)]
    congr 1
    omega
  · -- the element lives in the handle's own array
    have hmlt : l.length % K < K := Nat.mod_lt _ (by omega)
    have hmle : l.length % K ≤ l.length := Nat.mod_le _ _
    have hm : (s.block.length - 1) % K = l.length % K - 1 := by
      rw [hn, mod_pred_of_mod_ne_zero hK (by omega)]
    rw [hm]
    rw [if_pos (by omega)]
    rw [hr.dataEq (l.length % K - 1) (by simp only [predLen]; omega)]
    congr 1
    simp only [predLen]
    omega

theorem seq_size_eq_length (s : Seq T) : s.size = s.block.length := rfl

theorem matAux_length (K : Nat) (t : TrieSt T) :
    ∀ fuel (b : Block T) (buf : List T), (matAux K t fuel b buf).length = buf.length := by
  intro fuel
  induction fuel with
  | zero => intro b buf; rfl
  | succ f ih =>
    intro b buf
    rw [matAux_succ]
    cases hp : b.pred with
    | none => simp only [matPred, writeSlice_length]
    | some i =>
      cases hg : t.getBlock i with
      | none => simp only [matPred, hg, writeSlice_length]
      | some pb => simp only [matPred, hg, ih, writeSlice_length]

/-- Appending a list of elements preserves the representation invariant and
only extends the trie. -/
theorem appendList_repr {K : Nat} (hK : 1 ≤ K) {t : TrieSt T} {s : Seq T} {l : List T}
    (hr : SeqRepr K t s l) (l2 : List T) (hlen : l.length + l2.length ≤ 65535) :
    SeqRepr K (appendList K t s l2).1 (appendList K t s l2).2 (l ++ l2) ∧
      TrieExtends t (appendList K t s l2).1 := by
  induction l2 generalizing t s l with
  | nil =>
    simp only [appendList, List.foldl_nil, List.append_nil]
    exact ⟨hr, TrieExtends.refl t⟩
  | cons e rest ih =>
    simp only [appendList, List.foldl_cons]
    have hstep := SeqRepr_append hK hr e (by simp at hlen; omega)
    have hext := append_extends K t s e
    have := ih hstep (by simp at hlen ⊢; omega)
    rw [List.append_assoc] at this
    simp only [List.singleton_append] at this
    exact ⟨this.1, hext.trans this.2⟩

/-- Claim C9 (amended, general form): starting from the initial handle,
append a common prefix `l`, then build two sibling branches by appending `l1`
through the resulting handle and `l2` through the same handle again (each
total sequence holding at most 65535 elements, the bound forced by the
16-bit block length).  In the final trie, each of the three handles
materializes exactly its own sequence and reports its length and last
element; in particular the prefix handle and the first branch are unaffected
by all appends made after them. -/
theorem trie_roundtrip (K : Nat) (hK : 1 ≤ K) (l l1 l2 : List T)
    (h1 : l.length + l1.length ≤ 65535) (h2 : l.length + l2.length ≤ 65535)
    (t0 ta tb : TrieSt T) (s0 sa sb : Seq T)
    (h0 : appendList K TrieSt.empty (Seq.initial K) l = (t0, s0))
    (ha : appendList K t0 s0 l1 = (ta, sa))
    (hb : appendList K ta s0 l2 = (tb, sb)) :
    Seq.materialize K tb s0 = l ∧ s0.size = l.length ∧
    Seq.materialize K tb sa = l ++ l1 ∧ sa.size = l.length + l1.length ∧
    Seq.materialize K tb sb = l ++ l2 ∧ sb.size = l.length + l2.length ∧
    (l ≠ [] → Seq.back K tb s0 = l.getD (l.length - 1) default) ∧
    (l ++ l1 ≠ [] → Seq.back K tb sa = (l ++ l1).getD ((l ++ l1).length - 1) default) ∧
    (l ++ l2 ≠ [] → Seq.back K tb sb = (l ++ l2).getD ((l ++ l2).length - 1) default) := by
  have h0a : (appendList K TrieSt.empty (Seq.initial K) l).1 = t0 := by rw [h0]
  have h0b : (appendList K TrieSt.empty (Seq.initial K) l).2 = s0 := by rw [h0]
  have haa : (appendList K t0 s0 l1).1 = ta := by rw [ha]
  have hab : (appendList K t0 s0 l1).2 = sa := by rw [ha]
  have hba : (appendList K ta s0 l2).1 = tb := by rw [hb]
  have hbb : (appendList K ta s0 l2).2 = sb := by rw [hb]
  have hinit := SeqRepr_initial K (TrieSt.empty : TrieSt T) hK
  have H0 := appendList_repr hK hinit l (by simp only [List.length_nil]; omega)
  rw [h0a, h0b, List.nil_append] at H0
  obtain ⟨r0, -⟩ := H0
  have Ha := appendList_repr hK r0 l1 h1
  rw [haa, hab] at Ha
  obtain ⟨ra, exta⟩ := Ha
  have r0a : SeqRepr K ta s0 l := r0.mono_seq exta
  have Hb := appendList_repr hK r0a l2 h2
  rw [hba, hbb] at Hb
  obtain ⟨rb, extb⟩ := Hb
  have raf : SeqRepr K tb sa (l ++ l1) := ra.mono_seq extb
  have r0f : SeqRepr K tb s0 l := r0a.mono_seq extb
  refine ⟨r0f.materialize_eq hK, r0f.size_eq, raf.materialize_eq hK, ?_,
    rb.materialize_eq hK, ?_, ?_, ?_, ?_⟩
  · rw [raf.size_eq, List.length_append]
  · rw [rb.size_eq, List.length_append]
  · intro hne
    exact r0f.back_eq hK hne
  · intro hne
    exact raf.back_eq hK hne
  · intro hne
    exact rb.back_eq hK hne

/-- Claim C9 (counterexample): appending 65536 elements through the trie
wraps the 16-bit block length; the resulting handle reports size 0 and
materializes the empty list instead of the appended sequence. -/
theorem trie_roundtrip_cex :
    (appendList 6 (TrieSt.empty : TrieSt Nat) (Seq.initial 6)
        (List.replicate 65536 0)).2.size = 0 ∧
    Seq.materialize 6
        (appendList 6 (TrieSt.empty : TrieSt Nat) (Seq.initial 6)
          (List.replicate 65536 0)).1
        (appendList 6 (TrieSt.empty : TrieSt Nat) (Seq.initial 6)
          (List.replicate 65536 0)).2 = [] ∧
    (List.replicate 65536 (0 : Nat)).length = 65536 := by
  have hlen : (appendList 6 (TrieSt.empty : TrieSt Nat) (Seq.initial 6)
      (List.replicate 65536 0)).2.block.length = 0 := by
    rw [appendList_length 6 _ _ _ (by decide)]
    rw [List.length_replicate]
    rfl
  refine ⟨?_, ?_, by rw [List.length_replicate]⟩
  · rw [seq_size_eq_length]
    exact hlen
  · unfold Seq.materialize
    apply List.eq_nil_of_length_eq_zero
    rw [matAux_length, List.length_replicate, hlen]

/-- Concrete trie states for the round-trip witness: a seven-element prefix
(crossing one block boundary for the LP64 block size 6) and two sibling
branches. -/
def trieW0 : TrieSt Nat × Seq Nat :=
  appendList 6 TrieSt.empty (Seq.initial 6) [10, 20, 30, 40, 50, 60, 70]

def trieWA : TrieSt Nat × Seq Nat := appendList 6 trieW0.1 trieW0.2 [80]

def trieWB : TrieSt Nat × Seq Nat := appendList 6 trieWA.1 trieW0.2 [90, 91]

/-- Claim C9 (witness): the amended round-trip at a concrete instance. -/
theorem trie_roundtrip_witness :
    Seq.materialize 6 trieWB.1 trieW0.2 = [10, 20, 30, 40, 50, 60, 70] ∧
    trieW0.2.size = ([10, 20, 30, 40, 50, 60, 70] : List Nat).length ∧
    Seq.materialize 6 trieWB.1 trieWA.2 = [10, 20, 30, 40, 50, 60, 70] ++ [80] ∧
    trieWA.2.size = ([10, 20, 30, 40, 50, 60, 70] : List Nat).length + [80].length ∧
    Seq.materialize 6 trieWB.1 trieWB.2 = [10, 20, 30, 40, 50, 60, 70] ++ [90, 91] ∧
    trieWB.2.size = ([10, 20, 30, 40, 50, 60, 70] : List Nat).length + [90, 91].length ∧
    (([10, 20, 30, 40, 50, 60, 70] : List Nat) ≠ [] →
      Seq.back 6 trieWB.1 trieW0.2 =
        ([10, 20, 30, 40, 50, 60, 70] : List Nat).getD
          (([10, 20, 30, 40, 50, 60, 70] : List Nat).length - 1) default) ∧
    (([10, 20, 30, 40, 50, 60, 70] : List Nat) ++ [80] ≠ [] →
      Seq.back 6 trieWB.1 trieWA.2 =
        (([10, 20, 30, 40, 50, 60, 70] : List Nat) ++ [80]).getD
          ((([10, 20, 30, 40, 50, 60, 70] : List Nat) ++ [80]).length - 1) default) ∧
    (([10, 20, 30, 40, 50, 60, 70] : List Nat) ++ [90, 91] ≠ [] →
      Seq.back 6 trieWB.1 trieWB.2 =
        (([10, 20, 30, 40, 50, 60, 70] : List Nat) ++ [90, 91]).getD
          ((([10, 20, 30, 40, 50, 60, 70] : List Nat) ++ [90, 91]).length - 1) default) :=
  trie_roundtrip 6 (by decide) [10, 20, 30, 40, 50, 60, 70] [80] [90, 91]
    (by decide) (by decide) trieW0.1 trieWA.1 trieWB.1 trieW0.2 trieWA.2 trieWB.2
    rfl rfl rfl

/-! ### The search driver: the `color_t` truncation of the color count -/

theorem bestIdx_lt (q : List State) (hne : q ≠ []) : bestIdx q < q.length := by
  have hlen : 0 < q.length := List.length_pos.mpr hne
  unfold bestIdx
  have hgen : ∀ (l : List Nat) (acc : Nat), acc < q.length → (∀ i ∈ l, i < q.length) →
      (l.foldl (fun best i =>
        if stateLess (q.getD best default) (q.getD i default) then i else best) acc) <
        q.length := by
    intro l
    induction l with
    | nil => intro acc hacc _; exact hacc
    | cons x xs ih =>
      intro acc hacc hmem
      simp only [List.foldl_cons]
      split
      · exact ih x (hmem x (by simp)) (fun i hi => hmem i (by simp [hi]))
      · exact ih acc hacc (fun i hi => hmem i (by simp [hi]))
  exact hgen _ 0 hlen (fun i hi => List.mem_range.mp hi)

theorem getD_mem {α : Type} [Inhabited α] (l : List α) (i : Nat) (h : i < l.length) :
    l.getD i default ∈ l := by
  rw [List.getD_eq_getElem _ _ h]
  exact List.getElem_mem h

theorem mem_of_mem_eraseIdx {α : Type} {l : List α} {i : Nat} {a : α}
    (h : a ∈ l.eraseIdx i) : a ∈ l :=
  List.eraseIdx_subset _ _ h

/-- When the (truncated) color count is zero, the driver generates no
successors: the queue only shrinks, and the search necessarily ends in the
"not connected" error. -/
theorem searchLoop_no_successors (g : Graph) (hzero : numColorsLoop g = 0) :
    ∀ fuel (t : TrieSt Color) (q : List State),
      (∀ s ∈ q, s.done = false) → q.length < fuel →
      searchLoop g fuel t q = .error .notConnected := by
  intro fuel
  induction fuel with
  | zero => intro t q _ h; omega
  | succ f ih =>
    intro t q hdone hlen
    by_cases hq : q = []
    · simp [searchLoop, hq]
    · have hbest := bestIdx_lt q hq
      have hmem := getD_mem q (bestIdx q) hbest
      have hnotdone := hdone _ hmem
      simp only [searchLoop, if_neg hq, hnotdone]
      rw [hzero]
      simp only [List.range_zero, List.foldl_nil, Bool.false_eq_true, if_false]
      apply ih
      · intro s hs
        exact hdone s (mem_of_mem_eraseIdx hs)
      · rw [List.length_eraseIdx_of_lt hbest]
        omega

theorem mk0_filled (g : Graph) (t : TrieSt Color) :
    (State.mk0 g t).2.filled = initFilled g := rfl

/-- With at least two nodes, the initial state is not done. -/
theorem initFilled_not_done (g : Graph) (h2 : 2 ≤ g.numNodes) (s : State)
    (hf : s.filled = initFilled g) : s.done = false := by
  have hlen : (initFilled g).length = g.numNodes := by
    unfold initFilled
    rw [List.length_set, List.length_replicate]
  have hidx : ∃ j, j < g.numNodes ∧ j ≠ g.rootIndex := by
    by_cases h0 : g.rootIndex = 0
    · exact ⟨1, by omega, by omega⟩
    · exact ⟨0, by omega, fun h => h0 h.symm⟩
  obtain ⟨j, hj, hjne⟩ := hidx
  have hjval : (initFilled g).getD j false = false := by
    unfold initFilled
    rw [getD_set_ne _ _ _ (fun h => hjne h.symm)]
    exact getD_replicate _ _ (by omega)
  unfold State.done
  rw [hf]
  by_contra hall
  have hall2 : (initFilled g).all (fun x => x) = true := by
    cases h : (initFilled g).all (fun x => x) with
    | false => exact absurd h hall
    | true => rfl
  rw [List.all_eq_true] at hall2
  have := hall2 ((initFilled g).getD j false) (getD_mem _ _ (by omega))
  rw [hjval] at this
  exact Bool.false_ne_true this

/-- Two members of different colors force at least two nodes. -/
theorem two_le_length_of_two_mem {α : Type} {l : List α} {a b : α}
    (ha : a ∈ l) (hb : b ∈ l) (hne : a ≠ b) : 2 ≤ l.length := by
  cases l with
  | nil => cases ha
  | cons x xs =>
    cases xs with
    | nil =>
      simp only [List.mem_singleton] at ha hb
      exact absurd (ha.trans hb.symm) hne
    | cons y ys => simp

/-- The histogram fold counts the nodes of each color. -/
theorem histogram_fold_getD (c : Nat) :
    ∀ (ns : List Node) (h : List Nat), c < h.length → (∀ nd ∈ ns, nd.color < h.length) →
    (ns.foldl (fun h nd => h.set nd.color (h.getD nd.color 0 + 1)) h).getD c 0 =
      h.getD c 0 + ns.countP (fun nd => nd.color == c) := by
  intro ns
  induction ns with
  | nil =>
    intro h _ _
    simp [List.countP_nil]
  | cons nd rest ih =>
    intro h hc hcol
    simp only [List.foldl_cons]
    rw [ih _ (by rw [List.length_set]; exact hc)
      (fun x hx => by rw [List.length_set]; exact hcol x (by simp [hx]))]
    rw [List.countP_cons]
    by_cases hce : nd.color = c
    · subst hce
      rw [getD_set_self _ _ _ _ (hcol nd (by simp))]
      simp only [beq_self_eq_true, if_true]
      omega
    · rw [getD_set_ne _ _ _ hce]
      have : (nd.color == c) = false := by
        rw [beq_eq_false_iff_ne]
        exact hce
      rw [this]
      simp

/-- `colorCounts` entries count the nodes of each color, given the
consistency invariant. -/
theorem counts_spec (g : Graph) (hcounts : g.countsB = true) (c : Nat)
    (hc : c < g.colorCounts.length) :
    g.colorCounts.getD c 0 = g.nodes.countP (fun nd => nd.color == c) := by
  unfold Graph.countsB at hcounts
  rw [Bool.and_eq_true] at hcounts
  obtain ⟨hcol, heq⟩ := hcounts
  rw [List.all_eq_true] at hcol
  rw [beq_iff_eq] at heq
  rw [heq]
  unfold Graph.histogram
  rw [histogram_fold_getD c _ _ (by rw [List.length_replicate]; exact hc)
    (fun nd hnd => by
      rw [List.length_replicate]
      have := hcol nd hnd
      exact of_decide_eq_true this)]
  rw [getD_replicate _ _ hc]
  omega

/-- A positive color count yields a node of that color. -/
theorem exists_node_of_pos_count (g : Graph) (hcounts : g.countsB = true) (c : Nat)
    (hc : c < g.colorCounts.length) (hpos : 0 < g.colorCounts.getD c 0) :
    ∃ nd ∈ g.nodes, nd.color = c := by
  rw [counts_spec g hcounts c hc] at hpos
  rw [List.countP_pos_iff] at hpos
  obtain ⟨nd, hnd, hcnd⟩ := hpos
  exact ⟨nd, hnd, by rwa [beq_iff_eq] at hcnd⟩

/-- Any graph whose `colorCounts` has exactly 256 entries and which has at
least two nodes makes the search abort: the loop bound `color_t numColors`
truncates 256 to 0, so no successor is ever generated. -/
theorem searchAborts_of_256 (g : Graph) (hlen : g.colorCounts.length = 256)
    (h2 : 2 ≤ g.numNodes) : computeBestSequence g = .error .notConnected := by
  have hzero : numColorsLoop g = 0 := by
    unfold numColorsLoop
    rw [hlen]
  unfold computeBestSequence
  apply searchLoop_no_successors g hzero
  · intro s hs
    rw [List.mem_singleton] at hs
    rw [hs]
    exact initFilled_not_done g h2 _ (mk0_filled g _)
  · unfold searchFuel
    rw [List.length_singleton]
    have : 1 < (g.colorCounts.length + 2) ^ (g.numNodes + 2) :=
      Nat.one_lt_pow (by omega) (by omega)
    omega

/-- Claim C10: `computeBestSequence` keeps the number of candidate colors in
the 8-bit `color_t`, so the expansion loop ranges over
`colorCounts.size() % 256`; a connected reduced graph with exactly 256
colors (every count positive) therefore generates no successor states, and
the search fails with the "not connected" error instead of returning a
solution. -/
theorem search_fails_at_256_colors (g : Graph)
    (hwf : g.wfB = true) (hred : g.reducedB = true) (hconn : g.connB = true)
    (hcounts : g.countsB = true) (hlen : g.colorCounts.length = 256)
    (hpos : g.colorCounts.all (fun c => decide (0 < c)) = true) :
    numColorsLoop g = 0 ∧ computeBestSequence g = .error .notConnected := by
  have hzero : numColorsLoop g = 0 := by
    unfold numColorsLoop
    rw [hlen]
  refine ⟨hzero, ?_⟩
  rw [List.all_eq_true] at hpos
  have hpos2 : ∀ c, c < g.colorCounts.length → 0 < g.colorCounts.getD c 0 := by
    intro c hc
    exact of_decide_eq_true (hpos _ (getD_mem _ _ hc))
  obtain ⟨nd0, hnd0, hc0⟩ := exists_node_of_pos_count g hcounts 0 (by omega)
    (hpos2 0 (by omega))
  obtain ⟨nd1, hnd1, hc1⟩ := exists_node_of_pos_count g hcounts 1 (by omega)
    (hpos2 1 (by omega))
  have h2 : 2 ≤ g.numNodes :=
    two_le_length_of_two_mem hnd0 hnd1 (fun h => by rw [h, hc1] at hc0; cases hc0)
  exact searchAborts_of_256 g hlen h2

/-! ### Connectivity certificates -/

theorem reachStep_length (g : Graph) (r : List Bool) : (reachStep g r).length = r.length := by
  unfold reachStep
  rw [List.length_map, List.length_range]

theorem reachStep_all_true (g : Graph) (r : List Bool)
    (h : r.all (fun x => x) = true) : (reachStep g r).all (fun x => x) = true := by
  rw [List.all_eq_true] at h ⊢
  intro x hx
  unfold reachStep at hx
  rw [List.mem_map] at hx
  obtain ⟨v, hv, hfx⟩ := hx
  rw [List.mem_range] at hv
  have := h (r.getD v false) (getD_mem _ _ hv)
  rw [← hfx, this]
  simp

theorem reachAll_all_true (g : Graph) (n : Nat) (r : List Bool)
    (h : r.all (fun x => x) = true) : (reachAll g n r).all (fun x => x) = true := by
  induction n generalizing r with
  | zero => exact h
  | succ k ih => exact ih _ (reachStep_all_true g r h)

theorem reachAll_add (g : Graph) (a b : Nat) (r : List Bool) :
    reachAll g (a + b) r = reachAll g b (reachAll g a r) := by
  induction a generalizing r with
  | zero => rw [Nat.zero_add]; rfl
  | succ k ih =>
    have harith : k + 1 + b = (k + b) + 1 := by omega
    rw [harith]
    show reachAll g (k + b) (reachStep g r) = _
    rw [ih]
    rfl

/-- To certify connectivity it is enough to reach everything within some
number of steps not exceeding the fuel of `connB`. -/
theorem connB_of_reach (g : Graph) (k : Nat) (hk : k ≤ g.numNodes)
    (h : (reachAll g k (initFilled g)).all (fun x => x) = true) : g.connB = true := by
  unfold Graph.connB
  have harith : g.numNodes = k + (g.numNodes - k) := by omega
  rw [harith, reachAll_add]
  exact reachAll_all_true _ _ _ h

/-! ### Concrete 256-color graphs -/

/-- A star: center of color 0, leaves 1..255 of colors 1..255.  Connected,
reduced, all 256 colors present. -/
def star256 : Graph :=
  ⟨⟨(List.range 255).map (fun k => k + 1), 0⟩ :: (List.range 255).map (fun k => ⟨[0], k + 1⟩),
   0, List.replicate 256 1⟩

/-- A star: center of color 255, leaves of colors 0..254. -/
def starB : Graph :=
  ⟨⟨(List.range 255).map (fun k => k + 1), 255⟩ :: (List.range 255).map (fun k => ⟨[0], k⟩),
   0, List.replicate 256 1⟩

/-- A two-level star: root of color 0, a hub of color 1, leaves of colors
2..255 attached to the hub. -/
def starC : Graph :=
  ⟨⟨[1], 0⟩ :: ⟨0 :: (List.range 254).map (fun k => k + 2), 1⟩ ::
    (List.range 254).map (fun k => ⟨[1], k + 2⟩), 0, List.replicate 256 1⟩

set_option maxRecDepth 100000 in
set_option maxHeartbeats 16000000 in
/-- Claim C1 (code evaluated at the failing input): `starB` is a well-formed,
reduced, connected graph — one BFS step from the root reaches every node —
yet `computeBestSequence` throws the "not connected" error instead of
returning an optimal sequence (255 moves, one per leaf color, would fill
it). -/
theorem search_throws_on_starB :
    starB.wfB = true ∧ starB.reducedB = true ∧ starB.connB = true ∧
    computeBestSequence starB = .error .notConnected :=
  ⟨by decide, by decide,
   connB_of_reach starB 1 (by decide) (by decide),
   searchAborts_of_256 starB (by decide) (by decide)⟩

set_option maxRecDepth 100000 in
set_option maxHeartbeats 16000000 in
/-- Claim C6 (code evaluated at the failing input): `starC` is a well-formed,
reduced, connected graph — two BFS steps from the root reach every node —
yet `computeBestSequence` terminates with the "graph not connected" error. -/
theorem search_throws_on_starC :
    starC.wfB = true ∧ starC.reducedB = true ∧ starC.connB = true ∧
    computeBestSequence starC = .error .notConnected :=
  ⟨by decide, by decide,
   connB_of_reach starC 2 (by decide) (by decide),
   searchAborts_of_256 starC (by decide) (by decide)⟩

set_option maxRecDepth 100000 in
set_option maxHeartbeats 16000000 in
/-- Claim C10 (witness): the 256-color star discharges every hypothesis of
the truncation theorem. -/
theorem search_fails_at_256_colors_witness :
    numColorsLoop star256 = 0 ∧ computeBestSequence star256 = .error .notConnected :=
  search_fails_at_256_colors star256 (by decide) (by decide)
    (connB_of_reach star256 1 (by decide) (by decide)) (by decide) (by decide) (by decide)

/-! ### Characterizing the redundancy pruning (`State::move`) -/

/-- Membership in `F` as a boolean: unfilled, of the new color, adjacent to
the filled region. -/
def FB (g : Graph) (fl : List Bool) (next : Color) (v : Nat) : Bool :=
  !(fl.getD v false) && (g.colorAt v == next) && (g.nbrs v).any (fun u => fl.getD u false)

/-- "Was reachable before the last move": some already-filled neighbor has a
color other than `last`. -/
def prevB (g : Graph) (fl : List Bool) (last : Color) (v : Nat) : Bool :=
  (g.nbrs v).any (fun u => fl.getD u false && !(g.colorAt u == last))

theorem mem_newNodes (g : Graph) (fl : List Bool) (c : Color) (v : Nat) :
    v ∈ newNodes g fl c ↔ v < fl.length ∧ FB g fl c v = true := by
  unfold newNodes FB
  rw [List.mem_filter, List.mem_range]
  simp only [Bool.and_eq_true, Bool.not_eq_true', beq_iff_eq, List.any_eq_true,
    decide_eq_true_eq]
  constructor
  · rintro ⟨hv, h1, h2, u, hu, h3⟩
    exact ⟨hv, ⟨h1, h2⟩, u, hu, h3⟩
  · rintro ⟨hv, ⟨h1, h2⟩, u, hu, h3⟩
    exact ⟨hv, h1, h2, u, hu, h3⟩

theorem any_getD_set {us : List Nat} {fl : List Bool} {k : Nat} (a : Bool)
    (hk : k ∉ us) (p : Nat → Bool → Bool) :
    us.any (fun u => p u ((fl.set k a).getD u false)) =
      us.any (fun u => p u (fl.getD u false)) := by
  induction us with
  | nil => rfl
  | cons u rest ih =>
    simp only [List.any_cons]
    rw [getD_set_ne _ _ _ (fun h => hk (by rw [h]; exact List.mem_cons_self u rest)),
      ih (fun h => hk (List.mem_cons_of_mem u h))]

theorem any_congr_mem {α : Type} {l : List α} {p q : α → Bool}
    (h : ∀ a ∈ l, p a = q a) : l.any p = l.any q := by
  induction l with
  | nil => rfl
  | cons x xs ih =>
    simp only [List.any_cons]
    rw [h x (by simp), ih (fun a ha => h a (by simp [ha]))]

theorem decide_lt_succ {v k : Nat} (h : v ≠ k) : decide (v < k + 1) = decide (v < k) := by
  by_cases hv : v < k
  · rw [decide_eq_true hv, decide_eq_true (by omega)]
  · rw [decide_eq_false hv, decide_eq_false (by omega)]

theorem reduced_spec {g : Graph} (hred : g.reducedB = true) :
    ∀ i, i < g.numNodes → ∀ u ∈ g.nbrs i, g.colorAt u ≠ g.colorAt i := by
  unfold Graph.reducedB at hred
  rw [List.all_eq_true] at hred
  intro i hi u hu
  have h1 := hred i (List.mem_range.mpr hi)
  rw [List.all_eq_true] at h1
  have h2 := h1 u hu
  rw [Bool.not_eq_eq_eq_not, Bool.not_true, beq_eq_false_iff_ne] at h2
  exact h2

theorem not_self_nbr {g : Graph} (hred : g.reducedB = true) {i : Nat}
    (hi : i < g.numNodes) : i ∉ g.nbrs i := by
  intro hmem
  exact reduced_spec hred i hi i hmem rfl

/-- The body of the outer loop of the `next > last` scan, named for the
characterization lemmas. -/
def stepGT (g : Graph) (next : Color) (pr : List Bool × Bool) (node : Nat) :
    List Bool × Bool :=
  if g.colorAt node = next ∧ pr.1.getD node false = false then
    (g.nbrs node).foldl
      (fun pr2 neighbor =>
        if pr2.1.getD neighbor false then (pr2.1.set node true, true) else pr2)
      pr
  else pr

theorem passGT_eq_fold (g : Graph) (fl : List Bool) (next : Color) :
    passGT g fl next = (List.range fl.length).foldl (stepGT g next) (fl, false) := rfl

/-- The body of the outer loop of the `next < last` scan. -/
def stepLT (g : Graph) (next last : Color) (pr : List Bool × Bool) (node : Nat) :
    List Bool × Bool :=
  if g.colorAt node = next ∧ pr.1.getD node false = false then
    let inner := (g.nbrs node).foldl
      (fun (q : List Bool × Bool) neighbor =>
        if q.1.getD neighbor false then
          (q.1.set node true, if g.colorAt neighbor ≠ last then true else q.2)
        else q)
      (pr.1, false)
    (inner.1, if inner.1.getD node false ∧ inner.2 = false then true else pr.2)
  else pr

theorem passLT_eq_fold (g : Graph) (fl : List Bool) (next last : Color) :
    passLT g fl next last = (List.range fl.length).foldl (stepLT g next last) (fl, false) :=
  rfl

/-- The inner loop of the `next > last` scan, over an arbitrary running
pair. -/
theorem innerGT (k : Nat) :
    ∀ (us : List Nat) (p : List Bool × Bool),
    us.foldl (fun pr2 u => if pr2.1.getD u false then (pr2.1.set k true, true) else pr2) p =
      if us.any (fun u => p.1.getD u false) then (p.1.set k true, true) else p := by
  intro us
  induction us with
  | nil => intro p; simp
  | cons u rest ih =>
    intro p
    obtain ⟨fl, b⟩ := p
    simp only [List.foldl_cons, List.any_cons]
    by_cases hu : fl.getD u false
    · rw [if_pos hu, ih]
      have hsetset : (fl.set k true).set k true = fl.set k true := List.set_set _ _ _ _
      simp only [hu, Bool.true_or, if_true]
      split <;> simp [hsetset]
    · rw [if_neg hu]
      have hu2 : (fl.getD u false) = false := by
        cases h : fl.getD u false with
        | false => rfl
        | true => exact absurd h hu
      rw [ih]
      simp only [hu2, Bool.false_or]

/-- The inner loop of the `next < last` scan, over an arbitrary running
pair. -/
theorem innerLT (g : Graph) (k : Nat) (last : Color) :
    ∀ (us : List Nat) (p : List Bool × Bool), k ∉ us →
    us.foldl (fun q u =>
        if q.1.getD u false then
          (q.1.set k true, if g.colorAt u ≠ last then true else q.2)
        else q) p =
      (if us.any (fun u => p.1.getD u false) then p.1.set k true else p.1,
       p.2 || us.any (fun u => p.1.getD u false && !(g.colorAt u == last))) := by
  intro us
  induction us with
  | nil =>
    intro p _
    simp
  | cons u rest ih =>
    intro p hk
    obtain ⟨fl, b⟩ := p
    have hkr : k ∉ rest := fun h => hk (List.mem_cons_of_mem u h)
    simp only [List.foldl_cons, List.any_cons]
    by_cases hu : fl.getD u false
    · rw [if_pos hu, ih _ hkr]
      simp only
      rw [any_getD_set true hkr (fun u2 x => x)]
      rw [any_getD_set true hkr (fun u2 x => x && !(g.colorAt u2 == last))]
      have hsetset : (fl.set k true).set k true = fl.set k true := List.set_set _ _ _ _
      simp only [hu, Bool.true_or, Bool.true_and, if_true]
      simp only [Prod.mk.injEq]
      constructor
      · split <;> simp [hsetset]
      · by_cases hcl : g.colorAt u = last
        · have hb : (g.colorAt u == last) = true := by rwa [beq_iff_eq]
          rw [if_neg (by simpa using hcl), hb]
          simp
        · have hb : (g.colorAt u == last) = false := by rwa [beq_eq_false_iff_ne]
          rw [if_pos hcl, hb]
          simp
    · rw [if_neg hu]
      have hu2 : (fl.getD u false) = false := by
        cases h : fl.getD u false with
        | false => rfl
        | true => exact absurd h hu
      rw [ih _ hkr]
      simp only [hu2, Bool.false_or, Bool.false_and]

/-- Characterization of the `next > last` scan up to a bound: it adds
exactly the scanned part of `F` to the bitmap, and flags whether anything was
added. -/
theorem passGT_fold (g : Graph) (fl : List Bool) (next : Color)
    (hlen : fl.length = g.numNodes) (hred : g.reducedB = true) :
    ∀ k, k ≤ fl.length →
    ((List.range k).foldl (stepGT g next) (fl, false)).1.length = fl.length ∧
    (∀ v, ((List.range k).foldl (stepGT g next) (fl, false)).1.getD v false =
      (fl.getD v false || (decide (v < k) && FB g fl next v))) ∧
    ((List.range k).foldl (stepGT g next) (fl, false)).2 =
      (List.range k).any (FB g fl next) := by
  intro k
  induction k with
  | zero => exact fun _ => ⟨rfl, fun v => by simp, rfl⟩
  | succ k ih =>
    intro hk1
    obtain ⟨ihlen, ihget, ihflag⟩ := ih (by omega)
    rw [List.range_succ, List.foldl_append, List.foldl_cons, List.foldl_nil,
      List.any_append, List.any_cons, List.any_nil]
    set pr := (List.range k).foldl (stepGT g next) (fl, false) with hpr
    have hkN : k < g.numNodes := by omega
    have hprk : pr.1.getD k false = fl.getD k false := by
      rw [ihget k]
      simp
    by_cases hcond : g.colorAt k = next ∧ pr.1.getD k false = false
    · have hnb : ∀ u ∈ g.nbrs k, pr.1.getD u false = fl.getD u false := by
        intro u hu
        rw [ihget u]
        have hcu : g.colorAt u ≠ next := hcond.1 ▸ reduced_spec hred k hkN u hu
        have hfb : FB g fl next u = false := by
          unfold FB
          rw [beq_eq_false_iff_ne.mpr hcu]
          simp
        rw [hfb]
        simp
      have hflk : fl.getD k false = false := hprk ▸ hcond.2
      unfold stepGT
      rw [if_pos hcond, innerGT]
      rw [any_congr_mem (fun u hu => by rw [hnb u hu])]
      have hFBk : FB g fl next k =
          (g.nbrs k).any (fun u => fl.getD u false) := by
        unfold FB
        rw [hflk, beq_iff_eq.mpr hcond.1]
        simp
      by_cases hany : (g.nbrs k).any (fun u => fl.getD u false) = true
      · rw [if_pos hany]
        refine ⟨by rw [List.length_set, ihlen], fun v => ?_, by rw [hFBk, hany]; simp⟩
        by_cases hv : v = k
        · rw [hv]
          rw [getD_set_self _ _ _ _ (by rw [ihlen]; omega)]
          rw [hflk, hFBk, hany]
          simp
        · rw [getD_set_ne _ _ _ (fun h => hv h.symm), ihget v, decide_lt_succ hv]
      · have hany2 : (g.nbrs k).any (fun u => fl.getD u false) = false := by
          cases h : (g.nbrs k).any (fun u => fl.getD u false) with
          | false => rfl
          | true => exact absurd h hany
        rw [if_neg hany]
        refine ⟨ihlen, fun v => ?_, by rw [ihflag, hFBk, hany2]; simp⟩
        by_cases hv : v = k
        · rw [hv]
          rw [hprk, hFBk, hany2]
          simp
        · rw [ihget v, decide_lt_succ hv]
    · have hFBk : FB g fl next k = false := by
        unfold FB
        rcases Decidable.not_and_iff_or_not.mp hcond with hc | hf
        · rw [beq_eq_false_iff_ne.mpr hc]
          simp
        · have : fl.getD k false = true := by
            rw [← hprk]
            cases h : pr.1.getD k false with
            | false => exact absurd h hf
            | true => rfl
          rw [this]
          simp
      unfold stepGT
      rw [if_neg hcond]
      refine ⟨ihlen, fun v => ?_, by rw [ihflag, hFBk]; simp⟩
      by_cases hv : v = k
      · rw [hv]
        rw [hprk, hFBk]
        simp
      · rw [ihget v, decide_lt_succ hv]

/-- Characterization of the `next < last` scan up to a bound: the bitmap
gains exactly the scanned part of `F`, and the flag records whether some
scanned member of `F` has no already-filled neighbor of a color other than
`last`. -/
theorem passLT_fold (g : Graph) (fl : List Bool) (next last : Color)
    (hlen : fl.length = g.numNodes) (hred : g.reducedB = true) :
    ∀ k, k ≤ fl.length →
    ((List.range k).foldl (stepLT g next last) (fl, false)).1.length = fl.length ∧
    (∀ v, ((List.range k).foldl (stepLT g next last) (fl, false)).1.getD v false =
      (fl.getD v false || (decide (v < k) && FB g fl next v))) ∧
    ((List.range k).foldl (stepLT g next last) (fl, false)).2 =
      (List.range k).any (fun v => FB g fl next v && !(prevB g fl last v)) := by
  intro k
  induction k with
  | zero => exact fun _ => ⟨rfl, fun v => by simp, rfl⟩
  | succ k ih =>
    intro hk1
    obtain ⟨ihlen, ihget, ihflag⟩ := ih (by omega)
    rw [List.range_succ, List.foldl_append, List.foldl_cons, List.foldl_nil,
      List.any_append, List.any_cons, List.any_nil]
    set pr := (List.range k).foldl (stepLT g next last) (fl, false) with hpr
    have hkN : k < g.numNodes := by omega
    have hprk : pr.1.getD k false = fl.getD k false := by
      rw [ihget k]
      simp
    by_cases hcond : g.colorAt k = next ∧ pr.1.getD k false = false
    · have hnb : ∀ u ∈ g.nbrs k, pr.1.getD u false = fl.getD u false := by
        intro u hu
        rw [ihget u]
        have hcu : g.colorAt u ≠ next := hcond.1 ▸ reduced_spec hred k hkN u hu
        have hfb : FB g fl next u = false := by
          unfold FB
          rw [beq_eq_false_iff_ne.mpr hcu]
          simp
        rw [hfb]
        simp
      have hflk : fl.getD k false = false := hprk ▸ hcond.2
      unfold stepLT
      rw [if_pos hcond]
      simp only
      rw [innerLT g k last (g.nbrs k) (pr.1, false) (not_self_nbr hred hkN)]
      simp only [Bool.false_or]
      rw [any_congr_mem (fun u hu => by rw [hnb u hu])]
      rw [show ((g.nbrs k).any fun u => pr.1.getD u false && !(g.colorAt u == last)) =
          prevB g fl last k from
        (any_congr_mem (fun u hu => by rw [hnb u hu])).trans rfl]
      have hFBk : FB g fl next k =
          (g.nbrs k).any (fun u => fl.getD u false) := by
        unfold FB
        rw [hflk, beq_iff_eq.mpr hcond.1]
        simp
      by_cases hany : (g.nbrs k).any (fun u => fl.getD u false) = true
      · rw [if_pos hany]
        have hgetk : (pr.1.set k true).getD k false = true :=
          getD_set_self _ _ _ _ (by rw [ihlen]; omega)
        by_cases hprev : prevB g fl last k = true
        · rw [if_neg (by rw [hprev]; exact fun h => Bool.noConfusion h.2)]
          refine ⟨by rw [List.length_set, ihlen], fun v => ?_,
            by rw [ihflag, hprev]; simp⟩
          by_cases hv : v = k
          · rw [hv, hgetk, hflk, hFBk, hany]
            simp
          · rw [getD_set_ne _ _ _ (fun h => hv h.symm), ihget v, decide_lt_succ hv]
        · have hprev2 : prevB g fl last k = false := by
            cases h : prevB g fl last k with
            | false => rfl
            | true => exact absurd h hprev
          rw [if_pos ⟨hgetk, hprev2⟩]
          refine ⟨by rw [List.length_set, ihlen], fun v => ?_,
            by rw [hFBk, hany, hprev2]; simp⟩
          by_cases hv : v = k
          · rw [hv, hgetk, hflk, hFBk, hany]
            simp
          · rw [getD_set_ne _ _ _ (fun h => hv h.symm), ihget v, decide_lt_succ hv]
      · have hany2 : (g.nbrs k).any (fun u => fl.getD u false) = false := by
          cases h : (g.nbrs k).any (fun u => fl.getD u false) with
          | false => rfl
          | true => exact absurd h hany
        rw [if_neg hany]
        rw [if_neg (fun h => by rw [hprk, hflk] at h; exact Bool.noConfusion h.1)]
        refine ⟨ihlen, fun v => ?_, by rw [ihflag, hFBk, hany2]; simp⟩
        by_cases hv : v = k
        · rw [hv, hprk, hFBk, hany2]
          simp
        · rw [ihget v, decide_lt_succ hv]
    · have hFBk : FB g fl next k = false := by
        unfold FB
        rcases Decidable.not_and_iff_or_not.mp hcond with hc | hf
        · rw [beq_eq_false_iff_ne.mpr hc]
          simp
        · have : fl.getD k false = true := by
            rw [← hprk]
            cases h : pr.1.getD k false with
            | false => exact absurd h hf
            | true => rfl
          rw [this]
          simp
      unfold stepLT
      rw [if_neg hcond]
      refine ⟨ihlen, fun v => ?_, by rw [ihflag, hFBk]; simp⟩
      by_cases hv : v = k
      · rw [hv]
        rw [hprk, hFBk]
        simp
      · rw [ihget v, decide_lt_succ hv]

/-- The verdict of `State::move` is exactly the flag of the corresponding
scan. -/
theorem move_verdict (g : Graph) (t : TrieSt Color) (s : State) (next : Color) :
    (State.move g t s next).2.2 =
      (if Seq.back EPB t s.moves < next then (passGT g s.filled next).2
       else (passLT g s.filled next (Seq.back EPB t s.moves)).2) := by
  simp only [State.move]
  by_cases h : Seq.back EPB t s.moves < next
  · rw [if_pos h, if_pos h]
    by_cases hp : (passGT g s.filled next).2 = false
    · rw [if_pos hp, hp]
    · rw [if_neg hp]
      cases h2 : (passGT g s.filled next).2 with
      | false => exact absurd h2 hp
      | true => rfl
  · rw [if_neg h, if_neg h]
    by_cases hp : (passLT g s.filled next (Seq.back EPB t s.moves)).2 = false
    · rw [if_pos hp, hp]
    · rw [if_neg hp]
      cases h2 : (passLT g s.filled next (Seq.back EPB t s.moves)).2 with
      | false => exact absurd h2 hp
      | true => rfl

/-- The filled bitmap after `State::move` is exactly the bitmap of the
corresponding scan, accepted or not. -/
theorem move_filled (g : Graph) (t : TrieSt Color) (s : State) (next : Color) :
    (State.move g t s next).2.1.filled =
      (if Seq.back EPB t s.moves < next then (passGT g s.filled next).1
       else (passLT g s.filled next (Seq.back EPB t s.moves)).1) := by
  simp only [State.move]
  by_cases h : Seq.back EPB t s.moves < next
  · rw [if_pos h, if_pos h]
    by_cases hp : (passGT g s.filled next).2 = false
    · rw [if_pos hp]
    · rw [if_neg hp]
  · rw [if_neg h, if_neg h]
    by_cases hp : (passLT g s.filled next (Seq.back EPB t s.moves)).2 = false
    · rw [if_pos hp]
    · rw [if_neg hp]

/-- The `F`-scan finds nothing exactly when `F` is empty. -/
theorem any_FB_eq_false_iff (g : Graph) (fl : List Bool) (next : Color) :
    (List.range fl.length).any (FB g fl next) = false ↔ newNodes g fl next = [] := by
  rw [List.any_eq_false, List.eq_nil_iff_forall_not_mem]
  constructor
  · intro h v hv
    rw [mem_newNodes] at hv
    exact h v (List.mem_range.mpr hv.1) hv.2
  · intro h v hv hfb
    exact h v (by rw [mem_newNodes]; exact ⟨List.mem_range.mp hv, hfb⟩)

/-- `prevB` unpacked: some already-filled neighbor has a color other than
`last`. -/
theorem prevB_eq_true_iff (g : Graph) (fl : List Bool) (last : Color) (v : Nat) :
    prevB g fl last v = true ↔
      ∃ u ∈ g.nbrs v, fl.getD u false = true ∧ g.colorAt u ≠ last := by
  unfold prevB
  rw [List.any_eq_true]
  constructor
  · rintro ⟨u, hu, h⟩
    rw [Bool.and_eq_true, Bool.not_eq_true', beq_eq_false_iff_ne] at h
    exact ⟨u, hu, h⟩
  · rintro ⟨u, hu, h1, h2⟩
    exact ⟨u, hu, by rw [Bool.and_eq_true, Bool.not_eq_true', beq_eq_false_iff_ne]
                     exact ⟨h1, h2⟩⟩

/-- The guarded scan of the `next < last` pass finds nothing exactly when
every member of `F` was already reachable before the last move. -/
theorem any_LT_eq_false_iff (g : Graph) (fl : List Bool) (next last : Color) :
    (List.range fl.length).any (fun v => FB g fl next v && !(prevB g fl last v)) = false ↔
      ∀ v ∈ newNodes g fl next, ∃ u ∈ g.nbrs v,
        fl.getD u false = true ∧ g.colorAt u ≠ last := by
  rw [List.any_eq_false]
  constructor
  · intro h v hv
    rw [mem_newNodes] at hv
    have h2 := h v (List.mem_range.mpr hv.1)
    rw [Bool.and_eq_true, Bool.not_eq_true'] at h2
    rw [← prevB_eq_true_iff]
    cases hp : prevB g fl last v with
    | true => rfl
    | false => exact absurd ⟨hv.2, hp⟩ h2
  · intro h v hv hcontra
    rw [Bool.and_eq_true, Bool.not_eq_true'] at hcontra
    have hmem : v ∈ newNodes g fl next := by
      rw [mem_newNodes]
      exact ⟨List.mem_range.mp hv, hcontra.1⟩
    have := (prevB_eq_true_iff g fl last v).mpr (h v hmem)
    rw [this] at hcontra
    exact Bool.noConfusion hcontra.2

/-- C4: for a reduced graph and a state whose bitmap spans the graph, with
`last` the color of the most recent move and `next ≠ last` the attempted
color, `State::move` rejects exactly when either `next > last` and the set
`F` of unfilled `next`-colored nodes adjacent to the filled region is empty,
or `next < last` and every node of `F` has some already-filled neighbor of a
color other than `last`. -/
theorem move_reject_iff (g : Graph) (t : TrieSt Color) (s : State) (next : Color)
    (hlen : s.filled.length = g.numNodes) (hred : g.reducedB = true)
    (hne : next ≠ Seq.back EPB t s.moves) :
    (State.move g t s next).2.2 = false ↔
      ((Seq.back EPB t s.moves < next ∧ newNodes g s.filled next = []) ∨
       (next < Seq.back EPB t s.moves ∧
        ∀ v ∈ newNodes g s.filled next, ∃ u ∈ g.nbrs v,
          s.filled.getD u false = true ∧ g.colorAt u ≠ Seq.back EPB t s.moves)) := by
  rw [move_verdict]
  by_cases hlt : Seq.back EPB t s.moves < next
  · rw [if_pos hlt, passGT_eq_fold]
    have hchar := passGT_fold g s.filled next hlen hred s.filled.length (le_refl _)
    rw [hchar.2.2, any_FB_eq_false_iff]
    constructor
    · intro h
      exact Or.inl ⟨hlt, h⟩
    · rintro (⟨_, h⟩ | ⟨h, _⟩)
      · exact h
      · exact absurd h (Nat.lt_asymm hlt)
  · have hgt : next < Seq.back EPB t s.moves := by
      rcases Nat.lt_trichotomy next (Seq.back EPB t s.moves) with h | h | h
      · exact h
      · exact absurd h hne
      · exact absurd h hlt
    rw [if_neg hlt, passLT_eq_fold]
    have hchar := passLT_fold g s.filled next (Seq.back EPB t s.moves) hlen hred
      s.filled.length (le_refl _)
    rw [hchar.2.2, any_LT_eq_false_iff]
    constructor
    · intro h
      exact Or.inr ⟨hgt, h⟩
    · rintro (⟨h, _⟩ | ⟨_, h⟩)
      · exact absurd h (Nat.lt_asymm hgt)
      · exact h

/-- A three-node path whose colors along the path are 0, 1, 2, rooted at the
first node. -/
def gP : Graph :=
  ⟨[⟨[1], 0⟩, ⟨[0, 2], 1⟩, ⟨[1], 2⟩], 0, [1, 1, 1]⟩

/-- The initial search state on `gP`, with its trie. -/
def mvW : TrieSt Color × State := State.mk0 gP TrieSt.empty

theorem move_reject_iff_witness :
    gP.reducedB = true ∧ mvW.2.filled.length = gP.numNodes ∧
    (2 : Color) ≠ Seq.back EPB mvW.1 mvW.2.moves ∧
    ((State.move gP mvW.1 mvW.2 2).2.2 = false ↔
      ((Seq.back EPB mvW.1 mvW.2.moves < 2 ∧ newNodes gP mvW.2.filled 2 = []) ∨
       (2 < Seq.back EPB mvW.1 mvW.2.moves ∧
        ∀ v ∈ newNodes gP mvW.2.filled 2, ∃ u ∈ gP.nbrs v,
          mvW.2.filled.getD u false = true ∧
          gP.colorAt u ≠ Seq.back EPB mvW.1 mvW.2.moves))) :=
  ⟨by decide, by decide, by decide,
    move_reject_iff gP mvW.1 mvW.2 2 (by decide) (by decide) (by decide)⟩

/-! ### The variant pruning (`src/floodit.cpp`) and its agreement with
`part_000` when the new color is smaller -/

theorem wf_spec {g : Graph} (hw : g.wfB = true) :
    ∀ w, w < g.numNodes → ∀ u ∈ g.nbrs w, u < g.numNodes := by
  unfold Graph.wfB at hw
  rw [Bool.and_eq_true, Bool.and_eq_true] at hw
  have h3 := hw.2
  rw [List.all_eq_true] at h3
  intro w hwlt u hu
  have hnode : g.nodes.getD w default ∈ g.nodes := by
    rw [List.getD_eq_getElem _ _ hwlt]
    exact g.nodes.getElem_mem hwlt
  have h4 := h3 _ hnode
  rw [List.all_eq_true] at h4
  exact of_decide_eq_true (h4 u hu)

theorem symm_spec {g : Graph} (hs : g.symmB = true) :
    ∀ i, i < g.numNodes → ∀ u ∈ g.nbrs i, i ∈ g.nbrs u := by
  unfold Graph.symmB at hs
  rw [List.all_eq_true] at hs
  intro i hi u hu
  have h1 := hs i (List.mem_range.mpr hi)
  rw [List.all_eq_true] at h1
  have h2 := h1 u hu
  simpa using h2

theorem getD_true_lt {fl : List Bool} {w : Nat} (h : fl.getD w false = true) :
    w < fl.length := by
  by_contra hge
  rw [getD_of_le _ _ (by omega)] at h
  exact Bool.noConfusion h

/-- The inner loop of `nbFilled`: push every not-yet-visited neighbor and
mark it.  The visited bitmap stays in lockstep with the accumulated list. -/
theorem nbAux (fl : List Bool) :
    ∀ (us : List Nat) (p : List Nat × List Bool),
    (∀ u ∈ us, u < p.2.length) →
    (∀ v, p.2.getD v false = (fl.getD v false || decide (v ∈ p.1))) →
    (us.foldl (fun pr2 nb =>
        if pr2.2.getD nb false then pr2 else (pr2.1 ++ [nb], pr2.2.set nb true)) p).2.length =
      p.2.length ∧
    (∀ v, (us.foldl (fun pr2 nb =>
        if pr2.2.getD nb false then pr2 else (pr2.1 ++ [nb], pr2.2.set nb true)) p).2.getD v false =
      (fl.getD v false || decide (v ∈ (us.foldl (fun pr2 nb =>
        if pr2.2.getD nb false then pr2 else (pr2.1 ++ [nb], pr2.2.set nb true)) p).1))) ∧
    (∀ v, v ∈ (us.foldl (fun pr2 nb =>
        if pr2.2.getD nb false then pr2 else (pr2.1 ++ [nb], pr2.2.set nb true)) p).1 ↔
      (v ∈ p.1 ∨ (v ∈ us ∧ fl.getD v false = false))) := by
  intro us
  induction us with
  | nil =>
    intro p _ hinv
    refine ⟨rfl, hinv, fun v => ?_⟩
    simp
  | cons u rest ih =>
    intro p hbound hinv
    obtain ⟨acc, vis⟩ := p
    replace hinv : ∀ v, vis.getD v false = (fl.getD v false || decide (v ∈ acc)) := hinv
    replace hbound : ∀ x ∈ u :: rest, x < vis.length := hbound
    simp only [List.foldl_cons]
    by_cases hu : vis.getD u false = true
    · rw [if_pos hu]
      obtain ⟨l1, l2, l3⟩ := ih (acc, vis)
        (fun x hx => hbound x (List.mem_cons_of_mem u hx)) hinv
      refine ⟨l1, l2, fun v => ?_⟩
      rw [l3 v]
      constructor
      · rintro (h | ⟨h1, h2⟩)
        · exact Or.inl h
        · exact Or.inr ⟨List.mem_cons_of_mem u h1, h2⟩
      · rintro (h | ⟨h1, h2⟩)
        · exact Or.inl h
        · rcases List.mem_cons.mp h1 with hvu | hvr
          · have h5 := hinv u
            rw [hu, ← hvu, h2] at h5
            simp only [Bool.false_or] at h5
            exact Or.inl (of_decide_eq_true h5.symm)
          · exact Or.inr ⟨hvr, h2⟩
    · rw [if_neg hu]
      have hu2 : vis.getD u false = false := by
        cases h : vis.getD u false with
        | false => rfl
        | true => exact absurd h hu
      have hulen : u < vis.length := hbound u (List.mem_cons_self u rest)
      have hflu : fl.getD u false = false := by
        have := hinv u
        rw [hu2] at this
        cases h : fl.getD u false with
        | false => rfl
        | true => rw [h] at this; exact Bool.noConfusion this
      have hinv2 : ∀ v, (vis.set u true).getD v false =
          (fl.getD v false || decide (v ∈ acc ++ [u])) := by
        intro v
        by_cases hv : v = u
        · rw [hv, getD_set_self _ _ _ _ hulen]
          have : u ∈ acc ++ [u] := by simp
          rw [decide_eq_true this]
          simp
        · rw [getD_set_ne _ _ _ (fun h => hv h.symm), hinv v]
          have : (v ∈ acc ++ [u]) ↔ (v ∈ acc) := by
            simp [List.mem_append, hv]
          by_cases hva : v ∈ acc
          · rw [decide_eq_true hva, decide_eq_true (this.mpr hva)]
          · rw [decide_eq_false hva, decide_eq_false (fun h => hva (this.mp h))]
      obtain ⟨l1, l2, l3⟩ := ih (acc ++ [u], vis.set u true)
        (fun x hx => by
          rw [List.length_set]
          exact hbound x (List.mem_cons_of_mem u hx)) hinv2
      rw [List.length_set] at l1
      refine ⟨l1, l2, fun v => ?_⟩
      rw [l3 v]
      constructor
      · rintro (h | ⟨h1, h2⟩)
        · rcases List.mem_append.mp h with h3 | h3
          · exact Or.inl h3
          · have hvu : v = u := by simpa using h3
            exact Or.inr ⟨by rw [hvu]; exact List.mem_cons_self u rest, by rw [hvu]; exact hflu⟩
        · exact Or.inr ⟨List.mem_cons_of_mem u h1, h2⟩
      · rintro (h | ⟨h1, h2⟩)
        · exact Or.inl (List.mem_append.mpr (Or.inl h))
        · rcases List.mem_cons.mp h1 with hvu | hvr
          · exact Or.inl (List.mem_append.mpr (Or.inr (by simp [hvu])))
          · exact Or.inr ⟨hvr, h2⟩

/-- The outer loop of `nbFilled`, truncated to the first `k` nodes. -/
def nbFold (g : Graph) (fl : List Bool) (k : Nat) : List Nat × List Bool :=
  (List.range k).foldl
    (fun (pr : List Nat × List Bool) node =>
      if fl.getD node false then
        (g.nbrs node).foldl
          (fun pr2 nb =>
            if pr2.2.getD nb false then pr2 else (pr2.1 ++ [nb], pr2.2.set nb true))
          pr
      else pr)
    ([], fl)

theorem nbList_eq_fold (g : Graph) (s : StateNb) :
    s.nbList g = (nbFold g s.filled s.filled.length).1 := rfl

/-- Characterization of the `nbFilled` scan up to a bound: its list holds
exactly the unfilled neighbors of filled nodes among the first `k`. -/
theorem nbFold_char (g : Graph) (fl : List Bool) (hw : g.wfB = true)
    (hlen : fl.length = g.numNodes) :
    ∀ k, k ≤ fl.length →
    (nbFold g fl k).2.length = fl.length ∧
    (∀ v, (nbFold g fl k).2.getD v false =
      (fl.getD v false || decide (v ∈ (nbFold g fl k).1))) ∧
    (∀ v, v ∈ (nbFold g fl k).1 ↔
      (v < g.numNodes ∧ fl.getD v false = false ∧
        ∃ w, w < k ∧ fl.getD w false = true ∧ v ∈ g.nbrs w)) := by
  intro k
  induction k with
  | zero =>
    refine fun _ => ⟨rfl, fun v => by simp [nbFold], fun v => ?_⟩
    simp [nbFold]
  | succ k ih =>
    intro hk1
    obtain ⟨ihlen, ihinv, ihmem⟩ := ih (by omega)
    have hstep : nbFold g fl (k + 1) =
        (if fl.getD k false then
          (g.nbrs k).foldl
            (fun pr2 nb =>
              if pr2.2.getD nb false then pr2 else (pr2.1 ++ [nb], pr2.2.set nb true))
            (nbFold g fl k)
        else nbFold g fl k) := by
      unfold nbFold
      rw [List.range_succ, List.foldl_append, List.foldl_cons, List.foldl_nil]
    by_cases hfk : fl.getD k false = true
    · rw [hstep, if_pos hfk]
      have hkN : k < g.numNodes := by omega
      obtain ⟨l1, l2, l3⟩ := nbAux fl (g.nbrs k) (nbFold g fl k)
        (fun u hu => by rw [ihlen, hlen]; exact wf_spec hw k hkN u hu) ihinv
      rw [ihlen] at l1
      refine ⟨l1, l2, fun v => ?_⟩
      rw [l3 v, ihmem v]
      constructor
      · rintro (⟨h1, h2, w, h3, h4, h5⟩ | ⟨h1, h2⟩)
        · exact ⟨h1, h2, w, by omega, h4, h5⟩
        · exact ⟨wf_spec hw k hkN v h1, h2, k, by omega, hfk, h1⟩
      · rintro ⟨h1, h2, w, h3, h4, h5⟩
        by_cases hwk : w = k
        · exact Or.inr ⟨by rw [← hwk]; exact h5, h2⟩
        · exact Or.inl ⟨h1, h2, w, by omega, h4, h5⟩
    · have hfk2 : fl.getD k false = false := by
        cases h : fl.getD k false with
        | false => rfl
        | true => exact absurd h hfk
      rw [hstep, if_neg (by rw [hfk2]; exact Bool.noConfusion)]
      refine ⟨ihlen, ihinv, fun v => ?_⟩
      rw [ihmem v]
      constructor
      · rintro ⟨h1, h2, w, h3, h4, h5⟩
        exact ⟨h1, h2, w, by omega, h4, h5⟩
      · rintro ⟨h1, h2, w, h3, h4, h5⟩
        by_cases hwk : w = k
        · rw [hwk, hfk2] at h4
          exact absurd h4 Bool.noConfusion
        · exact ⟨h1, h2, w, by omega, h4, h5⟩

/-- Membership in `nbFilled`: the unfilled nodes adjacent to the filled
region (symmetry turns "neighbor of a filled node" into "has a filled
neighbor"). -/
theorem mem_nbList (g : Graph) (s : StateNb) (hw : g.wfB = true)
    (hsym : g.symmB = true) (hlen : s.filled.length = g.numNodes) (v : Nat) :
    v ∈ s.nbList g ↔
      (v < g.numNodes ∧ s.filled.getD v false = false ∧
        (g.nbrs v).any (fun w => s.filled.getD w false) = true) := by
  rw [nbList_eq_fold]
  rw [(nbFold_char g s.filled hw hlen s.filled.length le_rfl).2.2 v]
  constructor
  · rintro ⟨h1, h2, w, h3, h4, h5⟩
    refine ⟨h1, h2, List.any_eq_true.mpr ⟨w, ?_, h4⟩⟩
    exact symm_spec hsym w (by omega) v h5
  · rintro ⟨h1, h2, h3⟩
    obtain ⟨w, hw2, hw3⟩ := List.any_eq_true.mp h3
    exact ⟨h1, h2, w, getD_true_lt hw3, hw3, symm_spec hsym v h1 w hw2⟩

/-- The verdict of the variant `State::move` is the negation of its
`swappedMovesBetter` test. -/
theorem moveNb_verdict (g : Graph) (sn : StateNb) (next : Color) (nf : List Nat) :
    (StateNb.move g sn next nf).2 =
      !((nf.all (fun node =>
          if g.colorAt node == next then
            (g.nbrs node).any (fun nb => sn.filled.getD nb false &&
              !(g.colorAt nb == (sn.moves.getLast?).getD default))
          else true)) &&
        (decide (next < (sn.moves.getLast?).getD default) || nf.any (fun node =>
          if g.colorAt node == next then
            (g.nbrs node).any (fun nb => !(sn.filled.getD nb false) &&
              g.colorAt nb == (sn.moves.getLast?).getD default)
          else false))) := by
  simp only [StateNb.move]
  split
  · rename_i h
    rw [h]
    rfl
  · rename_i h
    rw [Bool.not_eq_true] at h
    rw [h]
    rfl

/-- On acceptance, the variant writes `color(node) == next` into the bitmap
at every scanned node. -/
theorem moveNb_filled (g : Graph) (sn : StateNb) (next : Color) (nf : List Nat) :
    (StateNb.move g sn next nf).2 = true →
    (StateNb.move g sn next nf).1.filled =
      nf.foldl (fun fl node => fl.set node (g.colorAt node == next)) sn.filled := by
  simp only [StateNb.move]
  split
  · intro h
    exact absurd h Bool.noConfusion
  · intro _
    rfl

theorem foldl_set_length (c : Nat → Bool) :
    ∀ (nf : List Nat) (fl : List Bool),
    (nf.foldl (fun fl2 node => fl2.set node (c node)) fl).length = fl.length := by
  intro nf
  induction nf with
  | nil => intro fl; rfl
  | cons u rest ih =>
    intro fl
    rw [List.foldl_cons, ih, List.length_set]

/-- Pointwise effect of the variant fill fold: every scanned index gets
`c`, the rest keep their value (scanned indices must be in range). -/
theorem foldl_set_getD (c : Nat → Bool) :
    ∀ (nf : List Nat) (fl : List Bool) (v : Nat), (∀ u ∈ nf, u < fl.length) →
    (nf.foldl (fun fl2 node => fl2.set node (c node)) fl).getD v false =
      (if v ∈ nf then c v else fl.getD v false) := by
  intro nf
  induction nf with
  | nil =>
    intro fl v _
    simp
  | cons u rest ih =>
    intro fl v hb
    rw [List.foldl_cons, ih _ v (fun x hx => by
      rw [List.length_set]
      exact hb x (List.mem_cons_of_mem u hx))]
    by_cases hvr : v ∈ rest
    · rw [if_pos hvr, if_pos (List.mem_cons_of_mem u hvr)]
    · rw [if_neg hvr]
      by_cases hvu : v = u
      · rw [hvu, getD_set_self _ _ _ _ (hb u (List.mem_cons_self u rest)),
          if_pos (List.mem_cons_self u rest)]
      · rw [getD_set_ne _ _ _ (fun h => hvu h.symm),
          if_neg (fun h => (List.mem_cons.mp h).elim hvu hvr)]

/-- C5 (amended): on a well-formed symmetric reduced graph, for matching
states of the two implementations, when the attempted color is SMALLER than
the color of the last move the two pruning formulations agree: the verdicts
are equal, and on acceptance the bitmaps are equal.  (When the attempted
color is larger they can disagree; see the counterexample.) -/
theorem pruning_agree_lt (g : Graph) (t : TrieSt Color) (s : State) (sn : StateNb)
    (next : Color)
    (hw : g.wfB = true) (hsym : g.symmB = true) (hred : g.reducedB = true)
    (hfl : sn.filled = s.filled) (hlen : s.filled.length = g.numNodes)
    (hlast : (sn.moves.getLast?).getD default = Seq.back EPB t s.moves)
    (hlt : next < Seq.back EPB t s.moves) :
    (StateNb.move g sn next (sn.nbList g)).2 = (State.move g t s next).2.2 ∧
    ((State.move g t s next).2.2 = true →
      (StateNb.move g sn next (sn.nbList g)).1.filled =
        (State.move g t s next).2.1.filled) := by
  have hnotlt : ¬ (Seq.back EPB t s.moves < next) := Nat.lt_asymm hlt
  have hlen2 : sn.filled.length = g.numNodes := by rw [hfl]; exact hlen
  have hchar := passLT_fold g s.filled next (Seq.back EPB t s.moves) hlen hred
    s.filled.length le_rfl
  have hmem : ∀ v, v ∈ sn.nbList g ↔
      (v < g.numNodes ∧ s.filled.getD v false = false ∧
        (g.nbrs v).any (fun w => s.filled.getD w false) = true) := by
    intro v
    rw [mem_nbList g sn hw hsym hlen2, hfl]
  have hFBmem : ∀ v, v < s.filled.length → (FB g s.filled next v = true ↔
      (v ∈ sn.nbList g ∧ g.colorAt v = next)) := by
    intro v hv
    unfold FB
    rw [hmem v]
    simp only [Bool.and_eq_true, Bool.not_eq_true', beq_iff_eq]
    constructor
    · rintro ⟨⟨h1, h2⟩, h3⟩
      exact ⟨⟨by omega, h1, h3⟩, h2⟩
    · rintro ⟨⟨h1, h2, h3⟩, h4⟩
      exact ⟨⟨h2, h4⟩, h3⟩
  have hver : (StateNb.move g sn next (sn.nbList g)).2 = (State.move g t s next).2.2 := by
    rw [moveNb_verdict, hlast, decide_eq_true hlt, Bool.true_or, Bool.and_true,
      move_verdict, if_neg hnotlt, passLT_eq_fold, hchar.2.2, hfl]
    by_cases hA : ((sn.nbList g).all (fun node =>
        if g.colorAt node == next then
          (g.nbrs node).any (fun nb => s.filled.getD nb false &&
            !(g.colorAt nb == Seq.back EPB t s.moves))
        else true)) = true
    · rw [hA, Bool.not_true]
      symm
      rw [List.any_eq_false]
      intro v hvr
      rw [Bool.and_eq_true, Bool.not_eq_true']
      rintro ⟨hFB, hprev⟩
      have hv := List.mem_range.mp hvr
      obtain ⟨hnf, hcol⟩ := (hFBmem v hv).mp hFB
      rw [List.all_eq_true] at hA
      have h2 := hA v hnf
      rw [if_pos (beq_iff_eq.mpr hcol)] at h2
      have h3 : prevB g s.filled (Seq.back EPB t s.moves) v = true := h2
      rw [hprev] at h3
      exact Bool.noConfusion h3
    · rw [Bool.not_eq_true] at hA
      rw [hA, Bool.not_false]
      symm
      rw [List.any_eq_true]
      obtain ⟨v, hvnf, hPv⟩ := List.all_eq_false.mp hA
      rw [Bool.not_eq_true] at hPv
      by_cases hcol : (g.colorAt v == next) = true
      · rw [if_pos hcol] at hPv
        have hprevf : prevB g s.filled (Seq.back EPB t s.moves) v = false := hPv
        obtain ⟨hvN, hunf, hadj⟩ := (hmem v).mp hvnf
        have hFB : FB g s.filled next v = true :=
          (hFBmem v (by omega)).mpr ⟨hvnf, beq_iff_eq.mp hcol⟩
        refine ⟨v, List.mem_range.mpr (by omega), ?_⟩
        rw [Bool.and_eq_true, Bool.not_eq_true']
        exact ⟨hFB, hprevf⟩
      · rw [if_neg hcol] at hPv
        exact absurd hPv Bool.noConfusion
  refine ⟨hver, fun hacc => ?_⟩
  have hnfbound : ∀ u ∈ sn.nbList g, u < s.filled.length := by
    intro u hu
    have := ((hmem u).mp hu).1
    omega
  rw [moveNb_filled g sn next (sn.nbList g) (by rw [hver]; exact hacc),
    move_filled, if_neg hnotlt, passLT_eq_fold, hfl]
  apply list_eq_of_getD _ _ false
  · rw [foldl_set_length, hchar.1]
  · intro i hi
    rw [foldl_set_length] at hi
    rw [foldl_set_getD _ _ _ _ hnfbound, hchar.2.1 i,
      decide_eq_true hi, Bool.true_and]
    by_cases hnf : i ∈ sn.nbList g
    · rw [if_pos hnf]
      obtain ⟨hiN, hunf, hadj⟩ := (hmem i).mp hnf
      by_cases hcol : g.colorAt i = next
      · have hFB : FB g s.filled next i = true := (hFBmem i hi).mpr ⟨hnf, hcol⟩
        rw [beq_iff_eq.mpr hcol, hFB, hunf]
        rfl
      · have hFBf : FB g s.filled next i = false := by
          unfold FB
          rw [beq_eq_false_iff_ne.mpr hcol]
          simp
        rw [hFBf, hunf, beq_eq_false_iff_ne.mpr hcol]
        rfl
    · rw [if_neg hnf]
      have hFBf : FB g s.filled next i = false := by
        cases h : FB g s.filled next i with
        | false => rfl
        | true => exact absurd ((hFBmem i hi).mp h).1 hnf
      rw [hFBf, Bool.or_false]

/-- On `gP`, from matching initial states, attempting color 2 (GREATER than
the last color 0): the `part_000` formulation rejects while the variant
accepts, so the two formulations are not equivalent in general. -/
theorem pruning_equiv_cex :
    gP.wfB = true ∧ gP.symmB = true ∧ gP.reducedB = true ∧
    (StateNb.mk0 gP).filled = mvW.2.filled ∧
    ((StateNb.mk0 gP).moves.getLast?).getD default = Seq.back EPB mvW.1 mvW.2.moves ∧
    (2 : Color) ≠ Seq.back EPB mvW.1 mvW.2.moves ∧
    (State.move gP mvW.1 mvW.2 2).2.2 = false ∧
    (StateNb.move gP (StateNb.mk0 gP) 2 ((StateNb.mk0 gP).nbList gP)).2 = true := by
  decide

/-- A three-node path whose colors along the path are 2, 0, 1, rooted at the
first node (so the initial move color is 2 and smaller colors can be
attempted). -/
def gQ : Graph :=
  ⟨[⟨[1], 2⟩, ⟨[0, 2], 0⟩, ⟨[1], 1⟩], 0, [1, 1, 1]⟩

/-- The initial search state on `gQ`, with its trie. -/
def mvQ : TrieSt Color × State := State.mk0 gQ TrieSt.empty

theorem pruning_agree_lt_witness :
    (0 : Color) < Seq.back EPB mvQ.1 mvQ.2.moves ∧
    ((StateNb.move gQ (StateNb.mk0 gQ) 0 ((StateNb.mk0 gQ).nbList gQ)).2 =
        (State.move gQ mvQ.1 mvQ.2 0).2.2 ∧
      ((State.move gQ mvQ.1 mvQ.2 0).2.2 = true →
        (StateNb.move gQ (StateNb.mk0 gQ) 0 ((StateNb.mk0 gQ).nbList gQ)).1.filled =
          (State.move gQ mvQ.1 mvQ.2 0).2.1.filled)) :=
  ⟨by decide, pruning_agree_lt gQ mvQ.1 mvQ.2 (StateNb.mk0 gQ) 0 (by decide) (by decide)
    (by decide) (by decide) (by decide) (by decide) (by decide)⟩

/-! ### The valuation is not a lower bound (`computeValuation`) -/

/-- A two-node graph: an edge between a node of color 0 (the root) and a
node of color 1. -/
def g2 : Graph :=
  ⟨[⟨[1], 0⟩, ⟨[0], 1⟩], 0, [1, 1]⟩

/-- C3: on `g2`, the single move of color 1 from the initial state is
accepted and fills the whole graph, yet the resulting state's valuation
exceeds its move count by 1.  A completed state needs zero further moves, so
the heuristic `h = getValuation() - getNumMoves() = 1` exceeds the true
remaining move count `0`: `computeValuation` is not admissible. -/
theorem valuation_not_admissible :
    (State.move g2 (State.mk0 g2 TrieSt.empty).1 (State.mk0 g2 TrieSt.empty).2 1).2.2
        = true ∧
    (State.move g2 (State.mk0 g2 TrieSt.empty).1 (State.mk0 g2 TrieSt.empty).2 1).2.1.done
        = true ∧
    (State.move g2 (State.mk0 g2 TrieSt.empty).1 (State.mk0 g2 TrieSt.empty).2 1).2.1.valuation
      = (State.move g2 (State.mk0 g2 TrieSt.empty).1
          (State.mk0 g2 TrieSt.empty).2 1).2.1.numMoves + 1 := by
  decide

/-! ### Replay correctness of the returned sequence -/

/-- `State::move` always threads the appended trie, accepted or not. -/
theorem move_trie (g : Graph) (t : TrieSt Color) (s : State) (next : Color) :
    (State.move g t s next).1 = (TrieSt.append EPB t s.moves next).1 := by
  simp only [State.move]
  split
  · split <;> rfl
  · split <;> rfl

/-- `State::move` always installs the appended move handle. -/
theorem move_moves (g : Graph) (t : TrieSt Color) (s : State) (next : Color) :
    (State.move g t s next).2.1.moves = (TrieSt.append EPB t s.moves next).2 := by
  simp only [State.move]
  split
  · split <;> rfl
  · split <;> rfl

theorem specStep_length (g : Graph) (fl : List Bool) (c : Color) :
    (specStep g fl c).length = fl.length := by
  unfold specStep
  rw [List.length_map, List.length_range]

theorem specStep_getD (g : Graph) (fl : List Bool) (c : Color) {i : Nat}
    (hi : i < fl.length) :
    (specStep g fl c).getD i false =
      (fl.getD i false ||
        (g.colorAt i == c && (g.nbrs i).any (fun u => fl.getD u false))) := by
  unfold specStep
  rw [List.getD_eq_getElem _ _ (by rw [List.length_map, List.length_range]; exact hi),
    List.getElem_map, List.getElem_range]

theorem specStep_getD_ge (g : Graph) (fl : List Bool) (c : Color) {i : Nat}
    (hi : fl.length ≤ i) : (specStep g fl c).getD i false = false :=
  getD_of_le _ _ (by rw [specStep_length]; exact hi)

/-- The bitmap produced by `State::move` is one step of the spec's replay
semantics, accepted or not. -/
theorem move_filled_eq_specStep (g : Graph) (t : TrieSt Color) (s : State) (next : Color)
    (hlen : s.filled.length = g.numNodes) (hred : g.reducedB = true) :
    (State.move g t s next).2.1.filled = specStep g s.filled next := by
  rw [move_filled]
  by_cases h : Seq.back EPB t s.moves < next
  · rw [if_pos h, passGT_eq_fold]
    have hchar := passGT_fold g s.filled next hlen hred s.filled.length le_rfl
    apply list_eq_of_getD _ _ false
    · rw [hchar.1, specStep_length]
    · intro i hi
      rw [hchar.1] at hi
      rw [hchar.2.1 i, decide_eq_true hi, Bool.true_and, specStep_getD g _ _ hi]
      unfold FB
      cases hfi : s.filled.getD i false <;> simp
  · rw [if_neg h, passLT_eq_fold]
    have hchar := passLT_fold g s.filled next (Seq.back EPB t s.moves) hlen hred
      s.filled.length le_rfl
    apply list_eq_of_getD _ _ false
    · rw [hchar.1, specStep_length]
    · intro i hi
      rw [hchar.1] at hi
      rw [hchar.2.1 i, decide_eq_true hi, Bool.true_and, specStep_getD g _ _ hi]
      unfold FB
      cases hfi : s.filled.getD i false <;> simp

/-- An accepted move witnesses a member of `F`: the flag only fires on a
node the scan filled. -/
theorem move_accept_new (g : Graph) (t : TrieSt Color) (s : State) (next : Color)
    (hlen : s.filled.length = g.numNodes) (hred : g.reducedB = true)
    (hacc : (State.move g t s next).2.2 = true) :
    ∃ v, v < s.filled.length ∧ FB g s.filled next v = true := by
  rw [move_verdict] at hacc
  by_cases h : Seq.back EPB t s.moves < next
  · rw [if_pos h, passGT_eq_fold,
      (passGT_fold g s.filled next hlen hred s.filled.length le_rfl).2.2] at hacc
    obtain ⟨v, hvr, hv⟩ := List.any_eq_true.mp hacc
    exact ⟨v, List.mem_range.mp hvr, hv⟩
  · rw [if_neg h, passLT_eq_fold,
      (passLT_fold g s.filled next (Seq.back EPB t s.moves) hlen hred
        s.filled.length le_rfl).2.2] at hacc
    obtain ⟨v, hvr, hv⟩ := List.any_eq_true.mp hacc
    rw [Bool.and_eq_true] at hv
    exact ⟨v, List.mem_range.mp hvr, hv.1⟩

theorem replay_append (g : Graph) (l : List Color) (e : Color) (h : l ≠ []) :
    replay g (l ++ [e]) = specStep g (replay g l) e := by
  unfold replay
  cases l with
  | nil => exact absurd rfl h
  | cons a as => simp [List.foldl_append]

/-- Number of filled entries of a bitmap, as a count over indices. -/
def countTrue (fl : List Bool) : Nat :=
  (List.range fl.length).countP (fun v => fl.getD v false)

theorem countTrue_le_length (fl : List Bool) : countTrue fl ≤ fl.length := by
  unfold countTrue
  calc (List.range fl.length).countP (fun v => fl.getD v false)
      ≤ (List.range fl.length).length := List.countP_le_length _
    _ = fl.length := List.length_range _

theorem countP_lt_of_witness {l : List Nat} {p q : Nat → Bool}
    (h : ∀ x ∈ l, p x = true → q x = true) {w : Nat} (hw : w ∈ l)
    (hqw : q w = true) (hpw : p w = false) : l.countP p < l.countP q := by
  obtain ⟨l1, l2, rfl⟩ := List.append_of_mem hw
  rw [List.countP_append, List.countP_append, List.countP_cons, List.countP_cons,
    hqw, hpw]
  have h1 : l1.countP p ≤ l1.countP q :=
    List.countP_mono_left (fun a ha => h a (List.mem_append_left _ ha))
  have h2 : l2.countP p ≤ l2.countP q :=
    List.countP_mono_left (fun a ha =>
      h a (List.mem_append_right _ (List.mem_cons_of_mem _ ha)))
  have e1 : (if (true = true) then 1 else 0) = 1 := rfl
  have e2 : (if (false = true) then 1 else 0) = 0 := rfl
  rw [e1, e2]
  omega

/-- An accepted move strictly grows the number of filled entries. -/
theorem countTrue_lt_of_accept (g : Graph) (t : TrieSt Color) (s : State) (next : Color)
    (hlen : s.filled.length = g.numNodes) (hred : g.reducedB = true)
    (hacc : (State.move g t s next).2.2 = true) :
    countTrue s.filled < countTrue (State.move g t s next).2.1.filled := by
  rw [move_filled_eq_specStep g t s next hlen hred]
  unfold countTrue
  rw [specStep_length]
  obtain ⟨v, hv, hFB⟩ := move_accept_new g t s next hlen hred hacc
  unfold FB at hFB
  rw [Bool.and_eq_true, Bool.and_eq_true, Bool.not_eq_true'] at hFB
  apply countP_lt_of_witness
  · intro x hx hpx
    rw [specStep_getD g _ _ (List.mem_range.mp hx), hpx, Bool.true_or]
  · exact List.mem_range.mpr hv
  · rw [specStep_getD g _ _ hv, hFB.1.1, hFB.1.2, hFB.2]
    rfl
  · exact hFB.1.1

/-- The queue invariant of the driver loop: each queued state's move handle
represents a nonempty color list whose replay is exactly the state's bitmap,
with at most as many moves as filled nodes. -/
def SearchInv (g : Graph) (t : TrieSt Color) (s : State) : Prop :=
  ∃ l, SeqRepr EPB t s.moves l ∧ l ≠ [] ∧ replay g l = s.filled ∧
    s.filled.length = g.numNodes ∧ l.length ≤ countTrue s.filled

theorem SearchInv.mono_inv {g : Graph} {t t2 : TrieSt Color} {s : State}
    (h : TrieExtends t t2) (hi : SearchInv g t s) : SearchInv g t2 s := by
  obtain ⟨l, h1, h2, h3, h4, h5⟩ := hi
  exact ⟨l, h1.mono_seq h, h2, h3, h4, h5⟩

/-- The expansion fold of the driver loop preserves the queue invariant. -/
theorem fold_moves_inv (g : Graph) (hred : g.reducedB = true) (hN : g.numNodes ≤ 65534)
    (s : State) (l : List Color) (hlne : l ≠ []) (hreplay : replay g l = s.filled)
    (hlen : s.filled.length = g.numNodes) (hcount : l.length ≤ countTrue s.filled) :
    ∀ (cs : List Color) (pr : TrieSt Color × List State),
    SeqRepr EPB pr.1 s.moves l →
    (∀ x ∈ pr.2, SearchInv g pr.1 x) →
    (∀ x ∈ (cs.foldl (fun (pr : TrieSt Color × List State) next =>
        if next = Seq.back EPB pr.1 s.moves then pr
        else
          let r := State.move g pr.1 s next
          if r.2.2 then (r.1, pr.2 ++ [r.2.1]) else (r.1, pr.2)) pr).2,
      SearchInv g (cs.foldl (fun (pr : TrieSt Color × List State) next =>
        if next = Seq.back EPB pr.1 s.moves then pr
        else
          let r := State.move g pr.1 s next
          if r.2.2 then (r.1, pr.2 ++ [r.2.1]) else (r.1, pr.2)) pr).1 x) := by
  intro cs
  induction cs with
  | nil =>
    intro pr hrepr hq
    exact hq
  | cons c rest ih =>
    intro pr hrepr hq
    simp only [List.foldl_cons]
    by_cases hc : c = Seq.back EPB pr.1 s.moves
    · rw [if_pos hc]
      exact ih pr hrepr hq
    · rw [if_neg hc]
      have hsmall : l.length ≤ 65534 := by
        have h1 := countTrue_le_length s.filled
        omega
      have htx : TrieExtends pr.1 (State.move g pr.1 s c).1 := by
        rw [move_trie]
        exact append_extends EPB pr.1 s.moves c
      have hreprOld : SeqRepr EPB (State.move g pr.1 s c).1 s.moves l := hrepr.mono_seq htx
      by_cases hacc : (State.move g pr.1 s c).2.2 = true
      · rw [if_pos hacc]
        apply ih
        · exact hreprOld
        · intro x hx
          rcases List.mem_append.mp hx with hold | hnew
          · exact (hq x hold).mono_inv htx
          · have hxnew : x = (State.move g pr.1 s c).2.1 := by simpa using hnew
            rw [hxnew]
            refine ⟨l ++ [c], ?_, by simp, ?_, ?_, ?_⟩
            · rw [move_moves, move_trie]
              exact SeqRepr_append (by decide) hrepr c hsmall
            · rw [replay_append g l c hlne, hreplay,
                move_filled_eq_specStep g pr.1 s c hlen hred]
            · rw [move_filled_eq_specStep g pr.1 s c hlen hred, specStep_length]
              exact hlen
            · have h2 := countTrue_lt_of_accept g pr.1 s c hlen hred hacc
              rw [List.length_append, List.length_singleton]
              omega
      · rw [if_neg hacc]
        apply ih
        · exact hreprOld
        · intro x hx
          exact (hq x hx).mono_inv htx

/-- The driver loop returns only move lists whose replay fills the whole
graph. -/
theorem searchLoop_replay (g : Graph) (hred : g.reducedB = true)
    (hN : g.numNodes ≤ 65534) :
    ∀ (fuel : Nat) (t : TrieSt Color) (queue : List State) (ms : List Color),
    (∀ x ∈ queue, SearchInv g t x) →
    searchLoop g fuel t queue = .ok ms →
    replay g ms = List.replicate g.numNodes true := by
  intro fuel
  induction fuel with
  | zero =>
    intro t queue ms _ hok
    exact Except.noConfusion hok
  | succ fuel ih =>
    intro t queue ms hinv hok
    simp only [searchLoop] at hok
    by_cases hq : queue = []
    · rw [if_pos hq] at hok
      exact Except.noConfusion hok
    · rw [if_neg hq] at hok
      have hilt : bestIdx queue < queue.length := bestIdx_lt queue hq
      have hsmem : queue.getD (bestIdx queue) default ∈ queue :=
        getD_mem queue (bestIdx queue) hilt
      obtain ⟨l, hrepr, hlne, hreplay, hlen, hcount⟩ := hinv _ hsmem
      by_cases hdone : (queue.getD (bestIdx queue) default).done = true
      · rw [if_pos hdone] at hok
        simp only [Except.ok.injEq] at hok
        have hms : ms = l := by
          rw [← hok]
          exact hrepr.materialize_eq (by decide)
        rw [hms, hreplay]
        unfold State.done at hdone
        rw [List.all_eq_true] at hdone
        rw [List.eq_replicate_iff]
        exact ⟨hlen, fun b hb => hdone b hb⟩
      · rw [if_neg hdone] at hok
        apply ih _ _ ms _ hok
        apply fold_moves_inv g hred hN (queue.getD (bestIdx queue) default) l hlne
          hreplay hlen hcount (List.range (numColorsLoop g))
          (t, queue.eraseIdx (bestIdx queue)) hrepr
        intro x hx
        exact hinv x (mem_of_mem_eraseIdx hx)

/-- C2: whenever `computeBestSequence` returns a sequence on a reduced graph
of at most 65534 nodes, replaying that sequence — root region first, then
absorbing every unfilled node of each move's color adjacent to the filled
region — fills every node. -/
theorem search_result_fills (g : Graph) (ms : List Color)
    (hw : g.wfB = true) (hred : g.reducedB = true) (hN : g.numNodes ≤ 65534)
    (hok : computeBestSequence g = .ok ms) :
    replay g ms = List.replicate g.numNodes true := by
  unfold computeBestSequence at hok
  apply searchLoop_replay g hred hN (searchFuel g) (State.mk0 g TrieSt.empty).1
    [(State.mk0 g TrieSt.empty).2] ms _ hok
  intro x hx
  have hx2 : x = (State.mk0 g TrieSt.empty).2 := by simpa using hx
  rw [hx2]
  have hroot : g.rootIndex < g.numNodes := by
    unfold Graph.wfB at hw
    rw [Bool.and_eq_true, Bool.and_eq_true] at hw
    exact of_decide_eq_true hw.1.2
  refine ⟨[g.colorAt g.rootIndex], ?_, by simp, ?_, ?_, ?_⟩
  · have h1 := SeqRepr_append (by decide)
      (SeqRepr_initial EPB (TrieSt.empty : TrieSt Color) (by decide))
      (g.colorAt g.rootIndex) (by simp)
    rw [List.nil_append] at h1
    exact h1
  · rfl
  · show ((List.replicate g.numNodes false).set g.rootIndex true).length = g.numNodes
    rw [List.length_set, List.length_replicate]
  · show 1 ≤ countTrue ((List.replicate g.numNodes false).set g.rootIndex true)
    unfold countTrue
    have hpos : 0 <
        (List.range ((List.replicate g.numNodes false).set g.rootIndex true).length).countP
          (fun v => ((List.replicate g.numNodes false).set g.rootIndex true).getD v false) := by
      rw [List.countP_pos_iff]
      refine ⟨g.rootIndex, ?_, ?_⟩
      · rw [List.mem_range, List.length_set, List.length_replicate]
        exact hroot
      · rw [getD_set_self _ _ _ _ (by rw [List.length_replicate]; exact hroot)]
    omega

theorem search_result_fills_witness :
    g2.wfB = true ∧ g2.reducedB = true ∧ g2.numNodes ≤ 65534 ∧
    computeBestSequence g2 = .ok [0, 1] ∧
    replay g2 [0, 1] = List.replicate g2.numNodes true :=
  ⟨by decide, by decide, by decide, rfl,
    search_result_fills g2 [0, 1] (by decide) (by decide) (by decide) rfl⟩

/-! ### `UnionFind` (`unionfind.hpp`) and `Graph::reduce` -/

/-- `UnionFind::find`: follow parent links; fuel bounds the chain length
(parents only ever decrease, so `element + 1` steps suffice). -/
def findAux : Nat → List Nat → Nat → Nat
  | 0, _, e => e
  | fuel + 1, p, e =>
    let pe := p.getD e e
    if pe = e then e else findAux fuel p pe

/-- The parent vector of `UnionFind(numElements)` is the identity. -/
def UnionFind.mk (n : Nat) : List Nat := List.range n

def UnionFind.find (p : List Nat) (e : Nat) : Nat := findAux (p.length + 1) p e

/-- `UnionFind::merge`: point the larger root at the smaller. -/
def UnionFind.merge (p : List Nat) (a b : Nat) : List Nat :=
  let ra := UnionFind.find p a
  let rb := UnionFind.find p b
  if ra < rb then p.set rb ra
  else if rb < ra then p.set ra rb
  else p

/-- The union-find representation invariant: parent links never increase
(out-of-range reads default to the element itself). -/
def ParentInv (p : List Nat) : Prop := ∀ i, p.getD i i ≤ i

theorem ParentInv.mk (n : Nat) : ParentInv (UnionFind.mk n) := by
  intro i
  unfold UnionFind.mk
  by_cases hi : i < n
  · rw [List.getD_eq_getElem _ _ (by rwa [List.length_range]), List.getElem_range]
  · rw [getD_of_le _ _ (by rw [List.length_range]; omega)]

theorem findAux_of_root {p : List Nat} {e : Nat} (h : p.getD e e = e) :
    ∀ fuel, findAux fuel p e = e := by
  intro fuel
  cases fuel with
  | zero => rfl
  | succ f =>
    show (if p.getD e e = e then e else findAux f p (p.getD e e)) = e
    rw [if_pos h]

theorem findAux_sound {p : List Nat} (hp : ParentInv p) :
    ∀ (fuel e : Nat), e < fuel →
    p.getD (findAux fuel p e) (findAux fuel p e) = findAux fuel p e ∧
      findAux fuel p e ≤ e := by
  intro fuel
  induction fuel with
  | zero => intro e he; omega
  | succ f ih =>
    intro e he
    unfold findAux
    simp only
    by_cases hroot : p.getD e e = e
    · rw [if_pos hroot]
      exact ⟨hroot, le_refl e⟩
    · rw [if_neg hroot]
      have hlt : p.getD e e < e := Nat.lt_of_le_of_ne (hp e) hroot
      have := ih (p.getD e e) (by omega)
      exact ⟨this.1, by omega⟩

theorem findAux_irrel {p : List Nat} (hp : ParentInv p) :
    ∀ (fuel fuel2 e : Nat), e < fuel → e < fuel2 →
    findAux fuel p e = findAux fuel2 p e := by
  intro fuel
  induction fuel with
  | zero => intro fuel2 e he; omega
  | succ f ih =>
    intro fuel2 e he he2
    cases fuel2 with
    | zero => omega
    | succ f2 =>
      show (if p.getD e e = e then e else findAux f p (p.getD e e)) =
        (if p.getD e e = e then e else findAux f2 p (p.getD e e))
      by_cases hroot : p.getD e e = e
      · rw [if_pos hroot, if_pos hroot]
      · rw [if_neg hroot, if_neg hroot]
        have hlt : p.getD e e < e := Nat.lt_of_le_of_ne (hp e) hroot
        exact ih f2 (p.getD e e) (by omega) (by omega)

theorem find_le {p : List Nat} (hp : ParentInv p) (e : Nat) : UnionFind.find p e ≤ e := by
  unfold UnionFind.find
  by_cases he : e < p.length + 1
  · exact (findAux_sound hp _ e he).2
  · rw [findAux_of_root (getD_of_le _ _ (by omega))]

theorem find_parent_root {p : List Nat} (hp : ParentInv p) (e : Nat) :
    p.getD (UnionFind.find p e) (UnionFind.find p e) = UnionFind.find p e := by
  unfold UnionFind.find
  by_cases he : e < p.length + 1
  · exact (findAux_sound hp _ e he).1
  · rw [findAux_of_root (getD_of_le _ _ (by omega))]
    exact getD_of_le _ _ (by omega)

theorem find_root {p : List Nat} (hp : ParentInv p) (e : Nat) :
    UnionFind.find p (UnionFind.find p e) = UnionFind.find p e := by
  have h := find_parent_root hp e
  unfold UnionFind.find
  exact findAux_of_root h _

theorem find_of_root {p : List Nat} {e : Nat} (h : p.getD e e = e) :
    UnionFind.find p e = e := findAux_of_root h _

theorem find_step {p : List Nat} (hp : ParentInv p) (e : Nat) :
    UnionFind.find p e =
      (if p.getD e e = e then e else UnionFind.find p (p.getD e e)) := by
  by_cases hroot : p.getD e e = e
  · rw [if_pos hroot]
    exact find_of_root hroot
  · rw [if_neg hroot]
    have helt : e < p.length := by
      by_contra hge
      exact hroot (getD_of_le _ _ (by omega))
    have hpe : p.getD e e < e := Nat.lt_of_le_of_ne (hp e) hroot
    show findAux (p.length + 1) p e = findAux (p.length + 1) p (p.getD e e)
    have hstep : findAux (p.length + 1) p e = findAux p.length p (p.getD e e) := by
      show (if p.getD e e = e then e else findAux p.length p (p.getD e e)) = _
      rw [if_neg hroot]
    rw [hstep]
    exact findAux_irrel hp p.length (p.length + 1) (p.getD e e) (by omega) (by omega)

theorem ParentInv.set {p : List Nat} (hp : ParentInv p) {ra rb : Nat} (h : ra ≤ rb) :
    ParentInv (p.set rb ra) := by
  intro i
  by_cases hi : i = rb
  · subst hi
    by_cases hl : i < p.length
    · rw [getD_set_self _ _ _ _ hl]
      exact h
    · rw [getD_of_le _ _ (by rw [List.length_set]; omega)]
  · rw [getD_set_ne _ _ _ (fun h2 => hi h2.symm)]
    exact hp i

/-- The effect of re-pointing root `rb` at root `ra < rb` on every find. -/
theorem find_set_root {p : List Nat} (hp : ParentInv p) {ra rb : Nat}
    (hrb : p.getD rb rb = rb) (hlt : ra < rb) (hrbl : rb < p.length)
    (hra : p.getD ra ra = ra) :
    ∀ x, UnionFind.find (p.set rb ra) x =
      (if UnionFind.find p x = rb then ra else UnionFind.find p x) := by
  have hq : ParentInv (p.set rb ra) := ParentInv.set hp (le_of_lt hlt)
  have hqra : (p.set rb ra).getD ra ra = ra := by
    rw [getD_set_ne _ _ _ (by omega)]
    exact hra
  intro x
  induction x using Nat.strong_induction_on with
  | _ x ih =>
    by_cases hxrb : x = rb
    · subst hxrb
      rw [if_pos (find_of_root hrb)]
      rw [find_step hq x]
      rw [getD_set_self _ _ _ _ hrbl, if_neg (by omega)]
      exact find_of_root hqra
    · have hgd : (p.set rb ra).getD x x = p.getD x x :=
        getD_set_ne _ _ _ (fun h2 => hxrb h2.symm)
      by_cases hroot : p.getD x x = x
      · rw [find_of_root (hgd.trans hroot), find_of_root hroot, if_neg hxrb]
      · have hpx : p.getD x x < x := Nat.lt_of_le_of_ne (hp x) hroot
        rw [find_step hq x, hgd, if_neg hroot, ih (p.getD x x) hpx,
          find_step hp x, if_neg hroot]

theorem merge_length (p : List Nat) (a b : Nat) :
    (UnionFind.merge p a b).length = p.length := by
  simp only [UnionFind.merge]
  split
  · exact List.length_set _ _ _
  · split
    · exact List.length_set _ _ _
    · rfl

theorem merge_parentInv {p : List Nat} (hp : ParentInv p) (a b : Nat) :
    ParentInv (UnionFind.merge p a b) := by
  simp only [UnionFind.merge]
  split
  · exact hp.set (by omega)
  · split
    · exact hp.set (by omega)
    · exact hp

/-- The effect of `UnionFind::merge` on every find: the larger of the two
roots is redirected to the smaller. -/
theorem merge_find {p : List Nat} (hp : ParentInv p) {a b : Nat}
    (ha : a < p.length) (hb : b < p.length) (x : Nat) :
    UnionFind.find (UnionFind.merge p a b) x =
      (if UnionFind.find p x = max (UnionFind.find p a) (UnionFind.find p b)
       then min (UnionFind.find p a) (UnionFind.find p b)
       else UnionFind.find p x) := by
  have hrapr := find_parent_root hp a
  have hrbpr := find_parent_root hp b
  unfold UnionFind.merge
  rcases lt_trichotomy (UnionFind.find p a) (UnionFind.find p b) with hlt | heq | hgt
  · rw [if_pos hlt]
    rw [find_set_root hp hrbpr hlt (by have := find_le hp b; omega) hrapr x]
    rw [Nat.max_eq_right (le_of_lt hlt), Nat.min_eq_left (le_of_lt hlt)]
  · rw [if_neg (by omega), if_neg (by omega)]
    rw [← heq, Nat.max_self, Nat.min_self]
    split
    · rename_i h
      exact h
    · rfl
  · rw [if_neg (by omega), if_pos hgt]
    rw [find_set_root hp hrapr hgt (by have := find_le hp a; omega) hrbpr x]
    rw [Nat.max_eq_left (le_of_lt hgt), Nat.min_eq_right (le_of_lt hgt)]

theorem find_mk (n e : Nat) : UnionFind.find (UnionFind.mk n) e = e := by
  apply find_of_root
  unfold UnionFind.mk
  by_cases he : e < n
  · rw [List.getD_eq_getElem _ _ (by rwa [List.length_range]), List.getElem_range]
  · rw [getD_of_le _ _ (by rw [List.length_range]; omega)]

/-- The running invariant of the merging pass: correct length, decreasing
parents, and color-homogeneous classes. -/
def PState (g : Graph) (p : List Nat) : Prop :=
  p.length = g.numNodes ∧ ParentInv p ∧
    ∀ i, g.colorAt (UnionFind.find p i) = g.colorAt i

theorem PState.merge {g : Graph} {p : List Nat} (hps : PState g p) {a b : Nat}
    (ha : a < g.numNodes) (hb : b < g.numNodes) (hcol : g.colorAt a = g.colorAt b) :
    PState g (UnionFind.merge p a b) := by
  obtain ⟨hlen, hp, hci⟩ := hps
  have ha2 : a < p.length := by omega
  have hb2 : b < p.length := by omega
  refine ⟨by rw [merge_length]; exact hlen, merge_parentInv hp a b, fun i => ?_⟩
  rw [merge_find hp ha2 hb2 i]
  by_cases hcase : UnionFind.find p i = max (UnionFind.find p a) (UnionFind.find p b)
  · rw [if_pos hcase]
    have h1 : g.colorAt (min (UnionFind.find p a) (UnionFind.find p b)) = g.colorAt a := by
      rcases Nat.le_total (UnionFind.find p a) (UnionFind.find p b) with h | h
      · rw [Nat.min_eq_left h]
        exact hci a
      · rw [Nat.min_eq_right h]
        rw [hci b]
        exact hcol.symm
    have h2 : g.colorAt (max (UnionFind.find p a) (UnionFind.find p b)) = g.colorAt a := by
      rcases Nat.le_total (UnionFind.find p a) (UnionFind.find p b) with h | h
      · rw [Nat.max_eq_right h]
        rw [hci b]
        exact hcol.symm
      · rw [Nat.max_eq_left h]
        exact hci a
    rw [h1, ← h2, ← hcase]
    exact hci i
  · rw [if_neg hcase]
    exact hci i

theorem merge_preserves_eq {p : List Nat} (hp : ParentInv p) {a b : Nat}
    (ha : a < p.length) (hb : b < p.length) {x y : Nat}
    (h : UnionFind.find p x = UnionFind.find p y) :
    UnionFind.find (UnionFind.merge p a b) x = UnionFind.find (UnionFind.merge p a b) y := by
  rw [merge_find hp ha hb x, merge_find hp ha hb y, h]

theorem merge_joins {p : List Nat} (hp : ParentInv p) {a b : Nat}
    (ha : a < p.length) (hb : b < p.length) :
    UnionFind.find (UnionFind.merge p a b) a = UnionFind.find (UnionFind.merge p a b) b := by
  rw [merge_find hp ha hb a, merge_find hp ha hb b]
  rcases Nat.lt_trichotomy (UnionFind.find p a) (UnionFind.find p b) with h | h | h
  · rw [if_neg (by omega), if_pos (by omega)]
    omega
  · rw [if_pos (by omega), if_pos (by omega)]
  · rw [if_pos (by omega), if_neg (by omega)]
    omega

/-- The first loop of `Graph::reduce`: merge same-colored adjacent nodes. -/
def mergePass (g : Graph) : List Nat :=
  (List.range g.numNodes).foldl
    (fun p i =>
      (g.nbrs i).foldl
        (fun p2 nb => if g.colorAt i == g.colorAt nb then UnionFind.merge p2 i nb else p2)
        p)
    (UnionFind.mk g.numNodes)

/-- The inner merging fold over one node's neighbor list. -/
theorem mergeInner (g : Graph) (i : Nat) (hi : i < g.numNodes) :
    ∀ (us : List Nat) (p0 : List Nat), PState g p0 → (∀ u ∈ us, u < g.numNodes) →
    PState g (us.foldl
      (fun p2 nb => if g.colorAt i == g.colorAt nb then UnionFind.merge p2 i nb else p2) p0) ∧
    (∀ x y, UnionFind.find p0 x = UnionFind.find p0 y →
      UnionFind.find (us.foldl
        (fun p2 nb => if g.colorAt i == g.colorAt nb then UnionFind.merge p2 i nb else p2) p0) x =
      UnionFind.find (us.foldl
        (fun p2 nb => if g.colorAt i == g.colorAt nb then UnionFind.merge p2 i nb else p2) p0) y) ∧
    (∀ nb ∈ us, g.colorAt i = g.colorAt nb →
      UnionFind.find (us.foldl
        (fun p2 nb => if g.colorAt i == g.colorAt nb then UnionFind.merge p2 i nb else p2) p0) i =
      UnionFind.find (us.foldl
        (fun p2 nb => if g.colorAt i == g.colorAt nb then UnionFind.merge p2 i nb else p2) p0) nb) := by
  intro us
  induction us with
  | nil =>
    intro p0 hps _
    exact ⟨hps, fun x y h => h, fun nb hnb => absurd hnb (List.not_mem_nil nb)⟩
  | cons u rest ih =>
    intro p0 hps hbound
    have hu : u < g.numNodes := hbound u (List.mem_cons_self u rest)
    simp only [List.foldl_cons]
    by_cases hc : g.colorAt i = g.colorAt u
    · rw [if_pos (beq_iff_eq.mpr hc)]
      have hps1 : PState g (UnionFind.merge p0 i u) := hps.merge hi hu hc
      obtain ⟨r1, r2, r3⟩ := ih (UnionFind.merge p0 i u) hps1
        (fun x hx => hbound x (List.mem_cons_of_mem u hx))
      refine ⟨r1, fun x y h => r2 x y ?_, fun nb hnb hcnb => ?_⟩
      · exact merge_preserves_eq hps.2.1 (by rw [hps.1]; omega) (by rw [hps.1]; omega) h
      · rcases List.mem_cons.mp hnb with hnbu | hnbr
        · rw [hnbu]
          exact r2 i u (merge_joins hps.2.1 (by rw [hps.1]; omega) (by rw [hps.1]; omega))
        · exact r3 nb hnbr hcnb
    · rw [if_neg (fun h => hc (beq_iff_eq.mp h))]
      obtain ⟨r1, r2, r3⟩ := ih p0 hps (fun x hx => hbound x (List.mem_cons_of_mem u hx))
      refine ⟨r1, r2, fun nb hnb hcnb => ?_⟩
      rcases List.mem_cons.mp hnb with hnbu | hnbr
      · rw [hnbu] at hcnb
        exact absurd hcnb hc
      · exact r3 nb hnbr hcnb

/-- The outer merging fold over a list of node indices. -/
theorem mergeOuter (g : Graph) (hw : g.wfB = true) :
    ∀ (is : List Nat) (p0 : List Nat), PState g p0 → (∀ i ∈ is, i < g.numNodes) →
    PState g (is.foldl (fun p i =>
      (g.nbrs i).foldl
        (fun p2 nb => if g.colorAt i == g.colorAt nb then UnionFind.merge p2 i nb else p2)
        p) p0) ∧
    (∀ x y, UnionFind.find p0 x = UnionFind.find p0 y →
      UnionFind.find (is.foldl (fun p i =>
        (g.nbrs i).foldl
          (fun p2 nb => if g.colorAt i == g.colorAt nb then UnionFind.merge p2 i nb else p2)
          p) p0) x =
      UnionFind.find (is.foldl (fun p i =>
        (g.nbrs i).foldl
          (fun p2 nb => if g.colorAt i == g.colorAt nb then UnionFind.merge p2 i nb else p2)
          p) p0) y) ∧
    (∀ i ∈ is, ∀ nb ∈ g.nbrs i, g.colorAt i = g.colorAt nb →
      UnionFind.find (is.foldl (fun p i =>
        (g.nbrs i).foldl
          (fun p2 nb => if g.colorAt i == g.colorAt nb then UnionFind.merge p2 i nb else p2)
          p) p0) i =
      UnionFind.find (is.foldl (fun p i =>
        (g.nbrs i).foldl
          (fun p2 nb => if g.colorAt i == g.colorAt nb then UnionFind.merge p2 i nb else p2)
          p) p0) nb) := by
  intro is
  induction is with
  | nil =>
    intro p0 hps _
    exact ⟨hps, fun x y h => h, fun i hi => absurd hi (List.not_mem_nil i)⟩
  | cons j rest ih =>
    intro p0 hps hbound
    have hj : j < g.numNodes := hbound j (List.mem_cons_self j rest)
    simp only [List.foldl_cons]
    obtain ⟨i1, i2, i3⟩ := mergeInner g j hj (g.nbrs j) p0 hps (wf_spec hw j hj)
    obtain ⟨r1, r2, r3⟩ := ih _ i1 (fun x hx => hbound x (List.mem_cons_of_mem j hx))
    refine ⟨r1, fun x y h => r2 x y (i2 x y h), fun i hi nb hnb hcol => ?_⟩
    rcases List.mem_cons.mp hi with hij | hir
    · subst hij
      exact r2 i nb (i3 nb hnb hcol)
    · exact r3 i hir nb hnb hcol

/-- The merging pass: invariant state, and same-colored adjacent nodes end
up in the same class. -/
theorem mergePass_props (g : Graph) (hw : g.wfB = true) :
    PState g (mergePass g) ∧
    (∀ i, i < g.numNodes → ∀ nb ∈ g.nbrs i, g.colorAt i = g.colorAt nb →
      UnionFind.find (mergePass g) i = UnionFind.find (mergePass g) nb) := by
  have hinit : PState g (UnionFind.mk g.numNodes) := by
    refine ⟨List.length_range _, ParentInv.mk _, fun i => ?_⟩
    rw [find_mk]
  obtain ⟨r1, _, r3⟩ := mergeOuter g hw (List.range g.numNodes)
    (UnionFind.mk g.numNodes) hinit (fun i hi => List.mem_range.mp hi)
  exact ⟨r1, fun i hi nb hnb hcol => r3 i (List.mem_range.mpr hi) nb hnb hcol⟩

/-- The renumbering/count loop of `Graph::reduce` (lines 47-54): `reduced[i]`
counts the class representatives among `1..i`, and every merged-away node
decrements its color's count. -/
def redCountFold (g : Graph) (p : List Nat) : List Nat × List Nat :=
  (List.range (g.numNodes - 1)).foldl
    (fun (pr : List Nat × List Nat) j =>
      (pr.1.set (j + 1)
        (pr.1.getD j 0 + (if UnionFind.find p (j + 1) = j + 1 then 1 else 0)),
       if UnionFind.find p (j + 1) ≠ j + 1 then
         pr.2.set (g.colorAt (j + 1)) (pr.2.getD (g.colorAt (j + 1)) 0 - 1)
       else pr.2))
    (List.replicate g.numNodes 0, g.colorCounts)

/-- The neighbor-merging loop of `Graph::reduce` (lines 59-67). -/
def nodesMerged (g : Graph) (p : List Nat) : List Node :=
  (List.range g.numNodes).foldl
    (fun nds i =>
      if UnionFind.find p i ≠ i then
        nds.set (UnionFind.find p i)
          { nds.getD (UnionFind.find p i) default with
            neighbors := (nds.getD (UnionFind.find p i) default).neighbors ++
              (nds.getD i default).neighbors }
      else nds)
    g.nodes

/-- The compaction loop of `Graph::reduce` (lines 70-72). -/
def nodesKept (g : Graph) (p red : List Nat) (nds : List Node) : List Node :=
  (List.range g.numNodes).foldl
    (fun acc i =>
      if UnionFind.find p i = i then acc.set (red.getD i 0) (acc.getD i default)
      else acc)
    nds

/-- `std::unique` on a sorted range: drop consecutive duplicates. -/
def dedupGo : Nat → List Nat → List Nat
  | _, [] => []
  | prev, b :: bs => if b = prev then dedupGo prev bs else b :: dedupGo b bs

def dedupAdj : List Nat → List Nat
  | [] => []
  | a :: rest => a :: dedupGo a rest

/-- The per-node neighbor cleanup of `Graph::reduce` (lines 76-90): remap
through the renumbering, drop self-loops, sort, deduplicate. -/
def remapNode (p red : List Nat) (i : Nat) (nd : Node) : Node :=
  { nd with neighbors :=
      dedupAdj (List.insertionSort (fun a b => a ≤ b)
        ((nd.neighbors.map (fun nb => red.getD (UnionFind.find p nb) 0)).filter
          (fun x => x != i))) }

/-- `Graph::reduce`: merge same-colored adjacent nodes, renumber, rebuild the
node array and check that no color lost all of its nodes. -/
def Graph.reduce (g : Graph) : Except FloodError Graph :=
  let p := mergePass g
  let rc := redCountFold g p
  let root := rc.1.getD (UnionFind.find p g.rootIndex) 0
  let nds1 := nodesMerged g p
  let nds2 := nodesKept g p rc.1 nds1
  let nds3 := nds2.take (rc.1.getD (g.numNodes - 1) 0 + 1)
  let nds4 := (List.range nds3.length).map
    (fun i => remapNode p rc.1 i (nds3.getD i default))
  if rc.2.countP (fun c => decide (0 < c)) = rc.2.length then
    .ok ⟨nds4, root, rc.2⟩
  else .error .invariantViolation

theorem getD_set {α : Type} (l : List α) (i j : Nat) (a d : α) :
    (l.set i a).getD j d = (if i = j ∧ j < l.length then a else l.getD j d) := by
  by_cases hij : i = j
  · subst hij
    by_cases hi : i < l.length
    · rw [getD_set_self _ _ _ _ hi, if_pos ⟨rfl, hi⟩]
    · rw [if_neg (fun h => hi h.2), getD_of_le _ _ (by rw [List.length_set]; omega),
        getD_of_le _ _ (by omega)]
  · rw [getD_set_ne _ _ _ hij, if_neg (fun h => hij h.1)]

theorem set_getD_self {α : Type} (l : List α) (i : Nat) (d : α) (hi : i < l.length) :
    l.set i (l.getD i d) = l := by
  apply list_eq_of_getD _ _ d (List.length_set _ _ _)
  intro j hj
  rw [getD_set]
  by_cases hij : i = j
  · rw [if_pos ⟨hij, by rw [List.length_set] at hj; omega⟩, hij]
  · rw [if_neg (fun h => hij h.1)]

theorem foldl_fix {α β : Type} (P : β → Prop) :
    ∀ (l : List α) (f : β → α → β) (b : β), P b →
    (∀ x, P x → ∀ a ∈ l, f x a = x) → l.foldl f b = b := by
  intro l
  induction l with
  | nil => intro f b _ _; rfl
  | cons a rest ih =>
    intro f b hP hfix
    rw [List.foldl_cons, hfix b hP a (List.mem_cons_self a rest)]
    exact ih f b hP (fun x hx a2 ha2 => hfix x hx a2 (List.mem_cons_of_mem a ha2))

theorem countP_nodes {α : Type} (d : α) (pf : α → Bool) :
    ∀ (l : List α), l.countP pf = (List.range l.length).countP (fun i => pf (l.getD i d)) := by
  intro l
  induction l with
  | nil => rfl
  | cons a rest ih =>
    rw [List.countP_cons, List.length_cons, List.range_succ_eq_map, List.countP_cons,
      List.countP_map]
    have h0 : (a :: rest).getD 0 d = a := rfl
    rw [h0, ih]
    have hcomp : ((fun i => pf ((a :: rest).getD i d)) ∘ (fun x => x + 1)) =
        (fun i => pf (rest.getD i d)) := by
      funext i
      rfl
    rw [hcomp]

theorem countP_shift (f : Nat → Bool) :
    ∀ (k : Nat), (List.range k).countP (fun j => f (j + 1)) =
      (List.range (k + 1)).countP (fun i => decide (1 ≤ i) && f i) := by
  intro k
  induction k with
  | zero => rfl
  | succ k ih =>
    rw [List.range_succ, List.countP_append, ih]
    conv_rhs => rw [List.range_succ]
    rw [List.countP_append]
    have hone : List.countP (fun j => f (j + 1)) [k] =
        List.countP (fun i => decide (1 ≤ i) && f i) [k + 1] := by
      rw [List.countP_cons, List.countP_cons, List.countP_nil, List.countP_nil]
      have hd : decide (1 ≤ k + 1) = true := decide_eq_true (by omega)
      rw [hd, Bool.true_and]
    rw [hone]

/-- Number of merged-away (non-representative) nodes of color `c` among the
nodes `1..k`. -/
def NR (g : Graph) (p : List Nat) (c : Nat) (k : Nat) : Nat :=
  (List.range k).countP (fun j =>
    decide (UnionFind.find p (j + 1) ≠ j + 1) && (g.colorAt (j + 1) == c))

theorem NR_succ (g : Graph) (p : List Nat) (c k : Nat) :
    NR g p c (k + 1) = NR g p c k +
      (if (decide (UnionFind.find p (k + 1) ≠ k + 1) && (g.colorAt (k + 1) == c)) = true
       then 1 else 0) := by
  unfold NR
  rw [List.range_succ, List.countP_append, List.countP_cons, List.countP_nil]
  omega

/-- The count half of the renumbering loop: every color's count drops by its
number of merged-away nodes (saturating, as the model uses `Nat`; the
subtraction is exact whenever the counts are consistent). -/
theorem redCount_counts (g : Graph) (p : List Nat) :
    ∀ k, ((List.range k).foldl
      (fun (pr : List Nat × List Nat) j =>
        (pr.1.set (j + 1)
          (pr.1.getD j 0 + (if UnionFind.find p (j + 1) = j + 1 then 1 else 0)),
         if UnionFind.find p (j + 1) ≠ j + 1 then
           pr.2.set (g.colorAt (j + 1)) (pr.2.getD (g.colorAt (j + 1)) 0 - 1)
         else pr.2))
      (List.replicate g.numNodes 0, g.colorCounts)).2.length = g.colorCounts.length ∧
    ∀ c, ((List.range k).foldl
      (fun (pr : List Nat × List Nat) j =>
        (pr.1.set (j + 1)
          (pr.1.getD j 0 + (if UnionFind.find p (j + 1) = j + 1 then 1 else 0)),
         if UnionFind.find p (j + 1) ≠ j + 1 then
           pr.2.set (g.colorAt (j + 1)) (pr.2.getD (g.colorAt (j + 1)) 0 - 1)
         else pr.2))
      (List.replicate g.numNodes 0, g.colorCounts)).2.getD c 0 =
      g.colorCounts.getD c 0 - NR g p c k := by
  intro k
  induction k with
  | zero =>
    refine ⟨rfl, fun c => ?_⟩
    have h0 : NR g p c 0 = 0 := rfl
    rw [h0, Nat.sub_zero]
    rfl
  | succ k ih =>
    obtain ⟨ihlen, ihget⟩ := ih
    simp only [List.range_succ, List.foldl_append, List.foldl_cons, List.foldl_nil]
    by_cases hnr : UnionFind.find p (k + 1) ≠ k + 1
    · constructor
      · simp only [if_pos hnr]
        rw [List.length_set]
        exact ihlen
      · intro c
        simp only [if_pos hnr]
        rw [getD_set, NR_succ, decide_eq_true hnr, Bool.true_and]
        by_cases hcc : g.colorAt (k + 1) = c
        · rw [beq_iff_eq.mpr hcc]
          by_cases hclen : c <
              ((List.range k).foldl
                (fun (pr : List Nat × List Nat) j =>
                  (pr.1.set (j + 1)
                    (pr.1.getD j 0 + (if UnionFind.find p (j + 1) = j + 1 then 1 else 0)),
                   if UnionFind.find p (j + 1) ≠ j + 1 then
                     pr.2.set (g.colorAt (j + 1)) (pr.2.getD (g.colorAt (j + 1)) 0 - 1)
                   else pr.2))
                (List.replicate g.numNodes 0, g.colorCounts)).2.length
          · rw [if_pos ⟨hcc, hclen⟩, hcc, ihget c, if_pos rfl]
            omega
          · rw [if_neg (fun h => hclen h.2), ihget c, if_pos rfl]
            rw [ihlen] at hclen
            rw [getD_of_le _ _ (by omega)]
            omega
        · rw [if_neg (fun h => hcc h.1), ihget c,
            beq_eq_false_iff_ne.mpr hcc]
          have hif : (if false = true then 1 else 0) = 0 := rfl
          rw [hif, Nat.add_zero]
    · constructor
      · simp only [if_neg hnr]
        exact ihlen
      · intro c
        simp only [if_neg hnr]
        rw [ihget c, NR_succ]
        have hd : decide (UnionFind.find p (k + 1) ≠ k + 1) = false :=
          decide_eq_false hnr
        rw [hd, Bool.false_and]
        have hif : (if false = true then 1 else 0) = 0 := rfl
        rw [hif, Nat.add_zero]

/-- C7: on a well-formed graph with consistent counts in which every color
has at least one node, `Graph::reduce` succeeds (merging never empties a
color: every class keeps a representative of its own color), and a color has
a positive count after reduction exactly when it had one before. -/
theorem reduce_preserves_colors (g : Graph) (hw : g.wfB = true) (hc : g.countsB = true)
    (hpos : g.colorCounts.all (fun x => decide (0 < x)) = true) :
    ∃ g2, Graph.reduce g = .ok g2 ∧
      g2.colorCounts.length = g.colorCounts.length ∧
      ∀ c, c < g.colorCounts.length →
        (0 < g2.colorCounts.getD c 0 ↔ 0 < g.colorCounts.getD c 0) := by
  obtain ⟨⟨hplen, hpinv, hcolor⟩, hjoin⟩ := mergePass_props g hw
  have hposD : ∀ c, c < g.colorCounts.length → 0 < g.colorCounts.getD c 0 := by
    intro c hcl
    rw [List.all_eq_true] at hpos
    have h2 := hpos _ (List.getElem_mem hcl)
    rw [List.getD_eq_getElem _ _ hcl]
    exact of_decide_eq_true h2
  have hn : 0 < g.numNodes := by
    unfold Graph.wfB at hw
    rw [Bool.and_eq_true, Bool.and_eq_true] at hw
    exact of_decide_eq_true hw.1.1
  have hrc := redCount_counts g (mergePass g) (g.numNodes - 1)
  have hlen2 : (redCountFold g (mergePass g)).2.length = g.colorCounts.length := hrc.1
  have hget2 : ∀ c, (redCountFold g (mergePass g)).2.getD c 0 =
      g.colorCounts.getD c 0 - NR g (mergePass g) c (g.numNodes - 1) := hrc.2
  have htotal : ∀ c, c < g.colorCounts.length →
      g.colorCounts.getD c 0 =
        (List.range g.numNodes).countP (fun i => g.colorAt i == c) := by
    intro c hcl
    rw [counts_spec g hc c hcl, countP_nodes default (fun nd => nd.color == c) g.nodes]
    rfl
  have hposc : ∀ c, c < g.colorCounts.length →
      0 < g.colorCounts.getD c 0 - NR g (mergePass g) c (g.numNodes - 1) := by
    intro c hcl
    have hpc := hposD c hcl
    rw [htotal c hcl] at hpc
    obtain ⟨i0, hi0r, hi0c⟩ := List.countP_pos_iff.mp hpc
    have hi0n : i0 < g.numNodes := List.mem_range.mp hi0r
    have hrlt : UnionFind.find (mergePass g) i0 < g.numNodes := by
      have := find_le hpinv i0
      omega
    have hrcol : g.colorAt (UnionFind.find (mergePass g) i0) = c := by
      rw [hcolor i0]
      exact beq_iff_eq.mp hi0c
    have hrroot : UnionFind.find (mergePass g) (UnionFind.find (mergePass g) i0) =
        UnionFind.find (mergePass g) i0 := find_root hpinv i0
    have hNRlt : NR g (mergePass g) c (g.numNodes - 1) < g.colorCounts.getD c 0 := by
      rw [htotal c hcl]
      unfold NR
      rw [countP_shift (fun i => decide (UnionFind.find (mergePass g) i ≠ i) &&
        (g.colorAt i == c)) (g.numNodes - 1)]
      have hn1 : g.numNodes - 1 + 1 = g.numNodes := by omega
      rw [hn1]
      apply countP_lt_of_witness
      · intro x _ hx
        rw [Bool.and_eq_true, Bool.and_eq_true] at hx
        exact hx.2.2
      · exact List.mem_range.mpr hrlt
      · exact beq_iff_eq.mpr hrcol
      · have hdf : decide (UnionFind.find (mergePass g) (UnionFind.find (mergePass g) i0) ≠
            UnionFind.find (mergePass g) i0) = false := decide_eq_false (fun h => h hrroot)
        rw [hdf, Bool.false_and, Bool.and_false]
    omega
  have hcheck : (redCountFold g (mergePass g)).2.countP (fun x => decide (0 < x)) =
      (redCountFold g (mergePass g)).2.length := by
    rw [List.countP_eq_length]
    intro a ha
    obtain ⟨idx, hidx, hval⟩ := List.mem_iff_getElem.mp ha
    have hidx2 : idx < g.colorCounts.length := by
      rw [← hlen2]
      exact hidx
    have hv := hget2 idx
    rw [List.getD_eq_getElem _ _ hidx, hval] at hv
    rw [hv]
    exact decide_eq_true (hposc idx hidx2)
  have hok : ∃ g2, Graph.reduce g = .ok g2 := by
    simp only [Graph.reduce]
    rw [if_pos hcheck]
    exact ⟨_, rfl⟩
  obtain ⟨g2, hok2⟩ := hok
  have hcc : g2.colorCounts = (redCountFold g (mergePass g)).2 := by
    have hok3 := hok2
    simp only [Graph.reduce] at hok3
    rw [if_pos hcheck] at hok3
    simp only [Except.ok.injEq] at hok3
    rw [← hok3]
  refine ⟨g2, hok2, ?_, ?_⟩
  · rw [hcc]
    exact hlen2
  · intro c hcl
    constructor
    · intro _
      exact hposD c hcl
    · intro _
      rw [hcc, hget2 c]
      exact hposc c hcl

/-- A three-node path with two adjacent nodes of color 0 and one of color 1,
needing an actual merge. -/
def gR : Graph :=
  ⟨[⟨[1], 0⟩, ⟨[0, 2], 0⟩, ⟨[1], 1⟩], 0, [2, 1]⟩

theorem reduce_preserves_colors_witness :
    gR.wfB = true ∧ gR.countsB = true ∧
    gR.colorCounts.all (fun x => decide (0 < x)) = true ∧
    (∃ g2, Graph.reduce gR = .ok g2 ∧
      g2.colorCounts.length = gR.colorCounts.length ∧
      ∀ c, c < gR.colorCounts.length →
        (0 < g2.colorCounts.getD c 0 ↔ 0 < gR.colorCounts.getD c 0)) :=
  ⟨by decide, by decide, by decide,
    reduce_preserves_colors gR (by decide) (by decide) (by decide)⟩

/-- On a reduced graph the merging pass merges nothing. -/
theorem mergePass_id (g : Graph) (hred : g.reducedB = true) :
    mergePass g = UnionFind.mk g.numNodes := by
  unfold mergePass
  apply foldl_fix (fun _ => True) _ _ _ trivial
  intro p _ i hi
  apply foldl_fix (fun _ => True) _ _ _ trivial
  intro p2 _ nb hnb
  rw [if_neg (fun h =>
    reduced_spec hred i (List.mem_range.mp hi) nb hnb (beq_iff_eq.mp h).symm)]

/-- With the identity partition, the renumbering loop leaves the counts
unchanged and numbers every node by itself. -/
theorem redCountFold_id_aux (g : Graph) :
    ∀ k, k ≤ g.numNodes - 1 →
    ((List.range k).foldl
      (fun (pr : List Nat × List Nat) j =>
        (pr.1.set (j + 1)
          (pr.1.getD j 0 +
            (if UnionFind.find (UnionFind.mk g.numNodes) (j + 1) = j + 1 then 1 else 0)),
         if UnionFind.find (UnionFind.mk g.numNodes) (j + 1) ≠ j + 1 then
           pr.2.set (g.colorAt (j + 1)) (pr.2.getD (g.colorAt (j + 1)) 0 - 1)
         else pr.2))
      (List.replicate g.numNodes 0, g.colorCounts)).1.length = g.numNodes ∧
    (∀ v, ((List.range k).foldl
      (fun (pr : List Nat × List Nat) j =>
        (pr.1.set (j + 1)
          (pr.1.getD j 0 +
            (if UnionFind.find (UnionFind.mk g.numNodes) (j + 1) = j + 1 then 1 else 0)),
         if UnionFind.find (UnionFind.mk g.numNodes) (j + 1) ≠ j + 1 then
           pr.2.set (g.colorAt (j + 1)) (pr.2.getD (g.colorAt (j + 1)) 0 - 1)
         else pr.2))
      (List.replicate g.numNodes 0, g.colorCounts)).1.getD v 0 =
      (if 1 ≤ v ∧ v ≤ k then v else 0)) ∧
    ((List.range k).foldl
      (fun (pr : List Nat × List Nat) j =>
        (pr.1.set (j + 1)
          (pr.1.getD j 0 +
            (if UnionFind.find (UnionFind.mk g.numNodes) (j + 1) = j + 1 then 1 else 0)),
         if UnionFind.find (UnionFind.mk g.numNodes) (j + 1) ≠ j + 1 then
           pr.2.set (g.colorAt (j + 1)) (pr.2.getD (g.colorAt (j + 1)) 0 - 1)
         else pr.2))
      (List.replicate g.numNodes 0, g.colorCounts)).2 = g.colorCounts := by
  intro k
  induction k with
  | zero =>
    intro _
    simp only [List.range_zero, List.foldl_nil]
    refine ⟨?_, ?_, ?_⟩
    · rw [List.length_replicate]
    · intro v
      rw [if_neg (fun h => by omega)]
      by_cases hv : v < g.numNodes
      · exact getD_replicate 0 0 hv
      · exact getD_of_le _ _ (by rw [List.length_replicate]; omega)
    · exact trivial
  | succ k ih =>
    intro hk1
    obtain ⟨ihlen, ihget, ihcounts⟩ := ih (by omega)
    simp only [List.range_succ, List.foldl_append, List.foldl_cons, List.foldl_nil]
    rw [find_mk]
    refine ⟨?_, fun v => ?_, ?_⟩
    · rw [List.length_set]
      exact ihlen
    · rw [if_pos rfl]
      rw [show (((List.range k).foldl
          (fun (pr : List Nat × List Nat) j =>
            (pr.1.set (j + 1)
              (pr.1.getD j 0 +
                (if UnionFind.find (UnionFind.mk g.numNodes) (j + 1) = j + 1 then 1 else 0)),
             if UnionFind.find (UnionFind.mk g.numNodes) (j + 1) ≠ j + 1 then
               pr.2.set (g.colorAt (j + 1)) (pr.2.getD (g.colorAt (j + 1)) 0 - 1)
             else pr.2))
          (List.replicate g.numNodes 0, g.colorCounts)).1.getD k 0 + 1 = k + 1) from by
        rw [ihget k]
        by_cases h1 : 1 ≤ k
        · rw [if_pos ⟨h1, le_refl k⟩]
        · rw [if_neg (fun h => h1 h.1)]
          omega]
      rw [getD_set]
      by_cases hv : v = k + 1
      · rw [if_pos ⟨hv.symm, by rw [ihlen]; omega⟩, hv, if_pos ⟨by omega, le_refl _⟩]
      · rw [if_neg (fun h => hv h.1.symm), ihget v]
        by_cases hv2 : 1 ≤ v ∧ v ≤ k
        · rw [if_pos hv2, if_pos ⟨hv2.1, by omega⟩]
        · rw [if_neg hv2, if_neg (fun h => hv2 ⟨h.1, by
            rcases Nat.lt_or_ge v (k + 1) with hlt | hge
            · omega
            · exact absurd (by omega : v = k + 1) hv⟩)]
    · rw [if_neg (fun h => h rfl)]
      exact ihcounts

theorem redCount_id (g : Graph) :
    (redCountFold g (UnionFind.mk g.numNodes)).1.length = g.numNodes ∧
    (∀ v, (redCountFold g (UnionFind.mk g.numNodes)).1.getD v 0 =
      (if 1 ≤ v ∧ v ≤ g.numNodes - 1 then v else 0)) ∧
    (redCountFold g (UnionFind.mk g.numNodes)).2 = g.colorCounts :=
  redCountFold_id_aux g (g.numNodes - 1) (le_refl _)

theorem nodesMerged_id (g : Graph) :
    nodesMerged g (UnionFind.mk g.numNodes) = g.nodes := by
  unfold nodesMerged
  apply foldl_fix (fun _ => True) _ _ _ trivial
  intro nds _ i _
  rw [find_mk, if_neg (fun h => h rfl)]

theorem nodesKept_id (g : Graph) (red : List Nat)
    (hred : ∀ v, v < g.numNodes → red.getD v 0 = v) :
    nodesKept g (UnionFind.mk g.numNodes) red g.nodes = g.nodes := by
  unfold nodesKept
  apply foldl_fix (fun x : List Node => x.length = g.numNodes) _ _ _ rfl
  intro acc hacc i hi
  rw [find_mk, if_pos rfl, hred i (List.mem_range.mp hi),
    set_getD_self acc i default (by rw [hacc]; exact List.mem_range.mp hi)]

theorem dedupGo_sorted :
    ∀ (l : List Nat) (prev : Nat), List.Chain' (fun a b => a < b) (prev :: l) →
    dedupGo prev l = l := by
  intro l
  induction l with
  | nil => intro prev _; rfl
  | cons b bs ih =>
    intro prev hch
    have h1 := (List.chain'_cons.mp hch).1
    unfold dedupGo
    rw [if_neg (fun h => by omega), ih b (List.chain'_cons.mp hch).2]

theorem dedupAdj_sorted (l : List Nat) (h : List.Chain' (fun a b => a < b) l) :
    dedupAdj l = l := by
  cases l with
  | nil => rfl
  | cons a rest =>
    show a :: dedupGo a rest = a :: rest
    rw [dedupGo_sorted rest a h]

/-- Executable check that a list is strictly increasing. -/
def sortedStrictB : List Nat → Bool
  | [] => true
  | [_] => true
  | a :: b :: rest => decide (a < b) && sortedStrictB (b :: rest)

theorem sortedStrictB_chain :
    ∀ l, sortedStrictB l = true → List.Chain' (fun a b => a < b) l := by
  intro l
  induction l with
  | nil => intro _; exact List.chain'_nil
  | cons a rest ih =>
    cases rest with
    | nil => intro _; exact List.chain'_singleton a
    | cons b bs =>
      intro h
      unfold sortedStrictB at h
      rw [Bool.and_eq_true, decide_eq_true_eq] at h
      exact List.chain'_cons.mpr ⟨h.1, ih h.2⟩

/-- C8: reducing an already reduced graph (no same-colored neighbors, sorted
duplicate-free adjacency, all color counts positive) succeeds and returns the
graph unchanged. -/
theorem reduce_idempotent (g : Graph) (hw : g.wfB = true) (hred : g.reducedB = true)
    (hsorted : g.nodes.all (fun nd => sortedStrictB nd.neighbors) = true)
    (hpos : g.colorCounts.all (fun x => decide (0 < x)) = true) :
    Graph.reduce g = .ok g := by
  have hn : 0 < g.numNodes := by
    unfold Graph.wfB at hw
    rw [Bool.and_eq_true, Bool.and_eq_true] at hw
    exact of_decide_eq_true hw.1.1
  have hroot : g.rootIndex < g.numNodes := by
    unfold Graph.wfB at hw
    rw [Bool.and_eq_true, Bool.and_eq_true] at hw
    exact of_decide_eq_true hw.1.2
  have hrid := redCount_id g
  have hredv : ∀ v, v < g.numNodes →
      (redCountFold g (UnionFind.mk g.numNodes)).1.getD v 0 = v := by
    intro v hv
    rw [hrid.2.1 v]
    by_cases h1 : 1 ≤ v
    · rw [if_pos ⟨h1, by omega⟩]
    · rw [if_neg (fun h => h1 h.1)]
      omega
  have hchain : ∀ i, i < g.numNodes → List.Chain' (fun a b => a < b) (g.nbrs i) := by
    intro i hi
    rw [List.all_eq_true] at hsorted
    have h2 := hsorted _ (List.getElem_mem hi)
    have h3 : g.nbrs i = (g.nodes[i]).neighbors := by
      unfold Graph.nbrs
      rw [List.getD_eq_getElem _ _ hi]
    rw [h3]
    exact sortedStrictB_chain _ h2
  have hcheck : (redCountFold g (UnionFind.mk g.numNodes)).2.countP
      (fun x => decide (0 < x)) = (redCountFold g (UnionFind.mk g.numNodes)).2.length := by
    rw [hrid.2.2, List.countP_eq_length]
    rw [List.all_eq_true] at hpos
    exact hpos
  have htk : g.nodes.take g.numNodes = g.nodes := by
    show g.nodes.take g.nodes.length = g.nodes
    exact List.take_length g.nodes
  have hmap : (List.range g.nodes.length).map
      (fun i => remapNode (UnionFind.mk g.numNodes)
        (redCountFold g (UnionFind.mk g.numNodes)).1 i (g.nodes.getD i default)) =
      g.nodes := by
    apply List.ext_getElem
    · rw [List.length_map, List.length_range]
    · intro i h1 h2
      rw [List.getElem_map, List.getElem_range]
      have hi : i < g.numNodes := h2
      have hnd : g.nodes.getD i default = g.nodes[i] := List.getD_eq_getElem _ _ hi
      unfold remapNode
      have e1 : ∀ nb ∈ (g.nodes.getD i default).neighbors,
          (redCountFold g (UnionFind.mk g.numNodes)).1.getD
            (UnionFind.find (UnionFind.mk g.numNodes) nb) 0 = id nb := by
        intro nb hnbm
        rw [find_mk, hredv nb (wf_spec hw i hi nb hnbm)]
        rfl
      rw [List.map_congr_left e1, List.map_id]
      have hnbrs : (g.nodes.getD i default).neighbors = g.nbrs i := rfl
      rw [hnbrs]
      have hstep2 : (g.nbrs i).filter (fun x => x != i) = g.nbrs i := by
        rw [List.filter_eq_self]
        intro a ha
        exact bne_iff_ne.mpr (fun h => (not_self_nbr hred hi) (h ▸ ha))
      rw [hstep2]
      have hsorted2 : List.Sorted (fun a b => a ≤ b) (g.nbrs i) := by
        have hpw : List.Pairwise (fun a b => a < b) (g.nbrs i) := by
          rw [← List.chain'_iff_pairwise]
          exact hchain i hi
        exact hpw.imp (fun hab => le_of_lt hab)
      rw [List.Sorted.insertionSort_eq hsorted2, dedupAdj_sorted _ (hchain i hi)]
      have hnb2 : g.nbrs i = g.nodes[i].neighbors := by
        unfold Graph.nbrs
        rw [hnd]
      rw [hnd, hnb2]
  simp only [Graph.reduce]
  rw [mergePass_id g hred, if_pos hcheck, nodesMerged_id g, nodesKept_id g _ hredv,
    hredv (g.numNodes - 1) (by omega),
    show g.numNodes - 1 + 1 = g.numNodes from by omega, htk, hmap, find_mk,
    hredv g.rootIndex hroot, hrid.2.2]

theorem reduce_idempotent_witness :
    gP.wfB = true ∧ gP.reducedB = true ∧
    gP.nodes.all (fun nd => sortedStrictB nd.neighbors) = true ∧
    gP.colorCounts.all (fun x => decide (0 < x)) = true ∧
    Graph.reduce gP = .ok gP :=
  ⟨by decide, by decide, by decide, by decide,
    reduce_idempotent gP (by decide) (by decide) (by decide) (by decide)⟩

/-! ### The 16-bit move-history wrap makes the unbounded replay claim fail
(claim C2's counterexample) -/

/-- Neighbors of node `i` on an `N`-node path. -/
def pathNbrs (N i : Nat) : List Nat :=
  (if 0 < i then [i - 1] else []) ++ (if i + 1 < N then [i + 1] else [])

/-- An `N`-node path whose colors alternate 0,1,0,1,..., rooted at one
end. -/
def pathAlt (N : Nat) : Graph :=
  ⟨(List.range N).map (fun i => ⟨pathNbrs N i, i % 2⟩), 0, [(N + 1) / 2, N / 2]⟩

/-- The 65536-node two-color path: the smallest graph family member on which
the solver's 16-bit move history wraps exactly at the final state. -/
def gBig : Graph := pathAlt 65536

theorem pathAlt_numNodes (N : Nat) : (pathAlt N).numNodes = N := by
  simp only [pathAlt, Graph.numNodes]
  rw [List.length_map, List.length_range]

theorem pathAlt_colorAt {N i : Nat} (hi : i < N) : (pathAlt N).colorAt i = i % 2 := by
  simp only [pathAlt, Graph.colorAt]
  rw [List.getD_eq_getElem _ _ (by rw [List.length_map, List.length_range]; exact hi),
    List.getElem_map, List.getElem_range]

theorem pathAlt_nbrs {N i : Nat} (hi : i < N) : (pathAlt N).nbrs i = pathNbrs N i := by
  simp only [pathAlt, Graph.nbrs]
  rw [List.getD_eq_getElem _ _ (by rw [List.length_map, List.length_range]; exact hi),
    List.getElem_map, List.getElem_range]

theorem mem_pathNbrs {N i u : Nat} :
    u ∈ pathNbrs N i ↔ ((0 < i ∧ u = i - 1) ∨ (i + 1 < N ∧ u = i + 1)) := by
  unfold pathNbrs
  constructor
  · intro h
    rcases List.mem_append.mp h with h | h
    · by_cases h0 : 0 < i
      · rw [if_pos h0] at h
        exact Or.inl ⟨h0, by simpa using h⟩
      · rw [if_neg h0] at h
        exact absurd h (List.not_mem_nil u)
    · by_cases h1 : i + 1 < N
      · rw [if_pos h1] at h
        exact Or.inr ⟨h1, by simpa using h⟩
      · rw [if_neg h1] at h
        exact absurd h (List.not_mem_nil u)
  · rintro (⟨h0, hu⟩ | ⟨h1, hu⟩)
    · exact List.mem_append.mpr (Or.inl (by rw [if_pos h0, hu]; simp))
    · exact List.mem_append.mpr (Or.inr (by rw [if_pos h1, hu]; simp))

theorem gBig_numNodes : gBig.numNodes = 65536 := pathAlt_numNodes 65536

theorem gBig_colorAt {i : Nat} (hi : i < 65536) : gBig.colorAt i = i % 2 :=
  pathAlt_colorAt hi

theorem gBig_nbrs {i : Nat} (hi : i < 65536) : gBig.nbrs i = pathNbrs 65536 i :=
  pathAlt_nbrs hi

theorem gBig_numColors : numColorsLoop gBig = 2 := rfl

theorem pathAlt_wf (N : Nat) (hN : 0 < N) : (pathAlt N).wfB = true := by
  unfold Graph.wfB
  rw [Bool.and_eq_true, Bool.and_eq_true]
  refine ⟨⟨decide_eq_true (by rw [pathAlt_numNodes]; exact hN),
    decide_eq_true ?_⟩, ?_⟩
  · rw [pathAlt_numNodes]
    show 0 < N
    exact hN
  · rw [List.all_eq_true]
    intro nd hnd
    rw [show (pathAlt N).nodes = (List.range N).map (fun i => ⟨pathNbrs N i, i % 2⟩)
      from rfl] at hnd
    obtain ⟨i, hir, hie⟩ := List.mem_map.mp hnd
    have hi : i < N := List.mem_range.mp hir
    rw [← hie]
    rw [List.all_eq_true]
    intro u hu
    rcases mem_pathNbrs.mp hu with ⟨h0, hu1⟩ | ⟨h1, hu1⟩
    · exact decide_eq_true (by rw [pathAlt_numNodes]; omega)
    · exact decide_eq_true (by rw [pathAlt_numNodes]; omega)

theorem pathAlt_reduced (N : Nat) : (pathAlt N).reducedB = true := by
  unfold Graph.reducedB
  rw [List.all_eq_true]
  intro i hir
  have hi : i < N := by
    have := List.mem_range.mp hir
    rwa [pathAlt_numNodes] at this
  rw [List.all_eq_true]
  intro u hu
  rw [pathAlt_nbrs hi] at hu
  have hune : (pathAlt N).colorAt u ≠ (pathAlt N).colorAt i := by
    rcases mem_pathNbrs.mp hu with ⟨h0, hu1⟩ | ⟨h1, hu1⟩
    · rw [hu1, pathAlt_colorAt (show i - 1 < N by omega), pathAlt_colorAt hi]
      have h2 : ((i : Nat) - 1) % 2 ≠ i % 2 := by omega
      exact h2
    · rw [hu1, pathAlt_colorAt (show i + 1 < N by omega), pathAlt_colorAt hi]
      have h2 : ((i : Nat) + 1) % 2 ≠ i % 2 := by omega
      exact h2
  rw [beq_eq_false_iff_ne.mpr hune]
  rfl

theorem gBig_reduced : gBig.reducedB = true := pathAlt_reduced 65536

theorem reachStep_getD (g : Graph) (r : List Bool) {v : Nat} (hv : v < r.length) :
    (reachStep g r).getD v false =
      (r.getD v false || (g.nbrs v).any (fun u => r.getD u false)) := by
  unfold reachStep
  rw [List.getD_eq_getElem _ _ (by rw [List.length_map, List.length_range]; exact hv),
    List.getElem_map, List.getElem_range]

/-- Breadth-first reachability on `gBig` grows the reached prefix by one node
per step. -/
theorem gBig_reach : ∀ (j m : Nat) (r : List Bool), r.length = 65536 →
    (∀ v, v < 65536 → r.getD v false = decide (v ≤ m)) →
    (reachAll gBig j r).length = 65536 ∧
    (∀ v, v < 65536 → (reachAll gBig j r).getD v false = decide (v ≤ m + j)) := by
  intro j
  induction j with
  | zero =>
    intro m r h1 h2
    refine ⟨h1, fun v hv => ?_⟩
    show r.getD v false = decide (v ≤ m + 0)
    rw [Nat.add_zero, h2 v hv]
  | succ j ih =>
    intro m r h1 h2
    have hstep_len : (reachStep gBig r).length = 65536 := by
      rw [reachStep_length, h1]
    have hstep_pt : ∀ v, v < 65536 →
        (reachStep gBig r).getD v false = decide (v ≤ m + 1) := by
      intro v hv
      rw [reachStep_getD gBig r (by rw [h1]; exact hv), h2 v hv]
      by_cases hvm : v ≤ m
      · rw [decide_eq_true hvm, Bool.true_or, decide_eq_true (by omega : v ≤ m + 1)]
      · rw [decide_eq_false hvm, Bool.false_or, gBig_nbrs hv]
        by_cases hvm1 : v = m + 1
        · subst hvm1
          rw [decide_eq_true (le_refl (m + 1)), List.any_eq_true]
          refine ⟨m, mem_pathNbrs.mpr (Or.inl ⟨by omega, by omega⟩), ?_⟩
          rw [h2 m (by omega)]
          exact decide_eq_true (le_refl m)
        · have hany : ((pathNbrs 65536 v).any (fun u => r.getD u false)) = false := by
            rw [List.any_eq_false]
            intro u hu
            rcases mem_pathNbrs.mp hu with ⟨h0, hu1⟩ | ⟨hb, hu1⟩
            · rw [hu1, h2 (v - 1) (by omega), decide_eq_false (by omega)]
              exact fun h => Bool.noConfusion h
            · rw [hu1, h2 (v + 1) (by omega), decide_eq_false (by omega)]
              exact fun h => Bool.noConfusion h
          rw [hany, decide_eq_false (by omega : ¬ (v ≤ m + 1))]
    have hrec := ih (m + 1) (reachStep gBig r) hstep_len hstep_pt
    refine ⟨?_, fun v hv => ?_⟩
    · show (reachAll gBig j (reachStep gBig r)).length = 65536
      exact hrec.1
    · show (reachAll gBig j (reachStep gBig r)).getD v false = decide (v ≤ m + (j + 1))
      rw [hrec.2 v hv, show m + 1 + j = m + (j + 1) from by omega]

theorem gBig_initFilled_len : (initFilled gBig).length = 65536 := by
  unfold initFilled
  rw [List.length_set, List.length_replicate, gBig_numNodes]

theorem gBig_initFilled_pt :
    ∀ v, v < 65536 → (initFilled gBig).getD v false = decide (v ≤ 0) := by
  intro v hv
  unfold initFilled
  rw [show gBig.rootIndex = 0 from rfl]
  by_cases hv0 : v = 0
  · rw [hv0, getD_set_self _ _ _ _ (by rw [List.length_replicate, gBig_numNodes]; omega)]
    rfl
  · rw [getD_set_ne _ _ _ (fun h => hv0 h.symm), decide_eq_false (by omega)]
    exact getD_replicate false false (by rw [gBig_numNodes]; exact hv)

theorem gBig_conn : gBig.connB = true := by
  unfold Graph.connB
  rw [List.all_eq_true]
  intro x hx
  obtain ⟨i, hi, hix⟩ := List.mem_iff_getElem.mp hx
  obtain ⟨l1, l2⟩ := gBig_reach gBig.numNodes 0 (initFilled gBig)
    gBig_initFilled_len gBig_initFilled_pt
  have hi2 : i < 65536 := by
    rw [l1] at hi
    exact hi
  have h3 := l2 i hi2
  rw [List.getD_eq_getElem _ _ (by rw [l1]; exact hi2), hix] at h3
  rw [h3]
  exact decide_eq_true (by rw [gBig_numNodes]; omega)


theorem bestIdx_singleton (s : State) : bestIdx [s] = 0 := by
  unfold bestIdx
  rw [show List.range [s].length = [0] from rfl]
  simp only [List.foldl_cons, List.foldl_nil]
  split
  · rfl
  · rfl

theorem not_done_of_lt (s : State) {k : Nat} (hk : k ≤ 65534)
    (hlen : s.filled.length = 65536)
    (hfill : ∀ v, s.filled.getD v false = decide (v ≤ k)) : s.done = false := by
  cases hd : s.done with
  | false => rfl
  | true =>
    unfold State.done at hd
    rw [List.all_eq_true] at hd
    have h1 : s.filled.getD 65535 false = true := by
      rw [List.getD_eq_getElem _ _ (by rw [hlen]; omega)]
      exact hd _ (List.getElem_mem _)
    rw [hfill 65535] at h1
    have := of_decide_eq_true h1
    omega

theorem gBig_step (k fuel : Nat) (t : TrieSt Color) (s : State) (hk : k ≤ 65534)
    (hlen : s.filled.length = 65536)
    (hfill : ∀ v, s.filled.getD v false = decide (v ≤ k))
    (hml : s.moves.block.length = k + 1)
    (hrepr : SeqRepr EPB t s.moves ((List.range (k + 1)).map (fun j => j % 2))) :
    searchLoop gBig (fuel + 1) t [s] =
      searchLoop gBig fuel (State.move gBig t s ((k + 1) % 2)).1
        [(State.move gBig t s ((k + 1) % 2)).2.1] ∧
    (State.move gBig t s ((k + 1) % 2)).2.1.filled.length = 65536 ∧
    (∀ v, (State.move gBig t s ((k + 1) % 2)).2.1.filled.getD v false =
      decide (v ≤ k + 1)) ∧
    (State.move gBig t s ((k + 1) % 2)).2.1.moves.block.length = (k + 2) % 65536 ∧
    (k + 2 ≤ 65535 →
      SeqRepr EPB (State.move gBig t s ((k + 1) % 2)).1
        (State.move gBig t s ((k + 1) % 2)).2.1.moves
        ((List.range (k + 2)).map (fun j => j % 2))) := by
  have hlen2 : s.filled.length = gBig.numNodes := by
    rw [gBig_numNodes]
    exact hlen
  have hmlen : ((List.range (k + 1)).map (fun j : Nat => j % 2)).length = k + 1 := by
    rw [List.length_map, List.length_range]
  have hmne : ((List.range (k + 1)).map (fun j : Nat => j % 2)) ≠ [] := by
    intro h
    have h2 := congrArg List.length h
    rw [hmlen, List.length_nil] at h2
    exact absurd h2 (by omega)
  have hback : Seq.back EPB t s.moves = k % 2 := by
    rw [hrepr.back_eq (by decide) hmne, hmlen, Nat.add_sub_cancel,
      List.getD_eq_getElem _ _ (by rw [hmlen]; omega), List.getElem_map,
      List.getElem_range]
  -- the color of node k+1, the attempted move
  have hcol1 : gBig.colorAt (k + 1) = (k + 1) % 2 := gBig_colorAt (by omega)
  have hcolk : gBig.colorAt k = k % 2 := gBig_colorAt (by omega)
  have hnb1 : gBig.nbrs (k + 1) = pathNbrs 65536 (k + 1) := gBig_nbrs (by omega)
  have hkm : k ∈ pathNbrs 65536 (k + 1) := mem_pathNbrs.mpr (Or.inl ⟨by omega, by omega⟩)
  have hflk : s.filled.getD k false = true := by
    rw [hfill k]
    exact decide_eq_true (le_refl k)
  have hanyk : ((pathNbrs 65536 (k + 1)).any (fun u => s.filled.getD u false)) = true :=
    List.any_eq_true.mpr ⟨k, hkm, hflk⟩
  have hacc : (State.move gBig t s ((k + 1) % 2)).2.2 = true := by
    rw [move_verdict, hback]
    rcases Nat.mod_two_eq_zero_or_one k with hpar | hpar
    · have hnext : ((k + 1) % 2 : Nat) = 1 := by omega
      rw [hpar, hnext, if_pos (by omega : (0 : Nat) < 1), passGT_eq_fold,
        (passGT_fold gBig s.filled 1 hlen2 gBig_reduced s.filled.length le_rfl).2.2,
        List.any_eq_true]
      refine ⟨k + 1, List.mem_range.mpr (by rw [hlen]; omega), ?_⟩
      unfold FB
      rw [hfill (k + 1), decide_eq_false (by omega : ¬ (k + 1 ≤ k)), hcol1, hnext,
        hnb1, hanyk]
      rfl
    · have hnext : ((k + 1) % 2 : Nat) = 0 := by omega
      rw [hpar, hnext, if_neg (by omega : ¬ ((1 : Nat) < 0)), passLT_eq_fold,
        (passLT_fold gBig s.filled 0 1 hlen2 gBig_reduced s.filled.length le_rfl).2.2,
        List.any_eq_true]
      refine ⟨k + 1, List.mem_range.mpr (by rw [hlen]; omega), ?_⟩
      rw [Bool.and_eq_true]
      constructor
      · unfold FB
        rw [hfill (k + 1), decide_eq_false (by omega : ¬ (k + 1 ≤ k)), hcol1, hnext,
          hnb1, hanyk]
        rfl
      · rw [Bool.not_eq_true']
        unfold prevB
        rw [hnb1, List.any_eq_false]
        intro u hu
        rcases mem_pathNbrs.mp hu with ⟨h0, hu1⟩ | ⟨hb, hu1⟩
        · have hu2 : u = k := by omega
          rw [hu2, hflk, hcolk, hpar]
          intro hcontra
          rw [Bool.and_eq_true] at hcontra
          have h3 := hcontra.2
          rw [Bool.not_eq_true'] at h3
          rw [beq_iff_eq.mpr rfl] at h3
          exact Bool.noConfusion h3
        · rw [hu1, hfill (k + 2), decide_eq_false (by omega)]
          intro hcontra
          rw [Bool.and_eq_true] at hcontra
          exact Bool.noConfusion hcontra.1
  have hfe := move_filled_eq_specStep gBig t s ((k + 1) % 2) hlen2 gBig_reduced
  have hflen2 : (State.move gBig t s ((k + 1) % 2)).2.1.filled.length = 65536 := by
    rw [hfe, specStep_length, hlen]
  have hfill2 : ∀ v, (State.move gBig t s ((k + 1) % 2)).2.1.filled.getD v false =
      decide (v ≤ k + 1) := by
    intro v
    rw [hfe]
    by_cases hv : v < 65536
    · rw [specStep_getD gBig s.filled _ (by rw [hlen]; exact hv), hfill v]
      by_cases hvk : v ≤ k
      · rw [decide_eq_true hvk, decide_eq_true (by omega : v ≤ k + 1), Bool.true_or]
      · rw [decide_eq_false hvk, Bool.false_or]
        by_cases hvk1 : v = k + 1
        · subst hvk1
          rw [hcol1, hnb1, hanyk, Bool.and_true, decide_eq_true (le_refl (k + 1))]
          exact beq_self_eq_true _
        · have hanyv : ((gBig.nbrs v).any (fun u => s.filled.getD u false)) = false := by
            rw [gBig_nbrs hv, List.any_eq_false]
            intro u hu
            rcases mem_pathNbrs.mp hu with ⟨h0, hu1⟩ | ⟨hb, hu1⟩
            · rw [hu1, hfill (v - 1), decide_eq_false (by omega)]
              exact fun h => Bool.noConfusion h
            · rw [hu1, hfill (v + 1), decide_eq_false (by omega)]
              exact fun h => Bool.noConfusion h
          rw [hanyv, Bool.and_false, decide_eq_false (by omega : ¬ (v ≤ k + 1))]
    · rw [specStep_getD_ge gBig s.filled _ (by rw [hlen]; omega),
        decide_eq_false (by omega : ¬ (v ≤ k + 1))]
  have hmv : (State.move gBig t s ((k + 1) % 2)).2.1.moves.block.length =
      (k + 2) % 65536 := by
    rw [move_moves, append_seq_length, hml]
  have hrepr2 : k + 2 ≤ 65535 →
      SeqRepr EPB (State.move gBig t s ((k + 1) % 2)).1
        (State.move gBig t s ((k + 1) % 2)).2.1.moves
        ((List.range (k + 2)).map (fun j => j % 2)) := by
    intro hk2
    rw [move_moves, move_trie]
    have h := SeqRepr_append (by decide) hrepr ((k + 1) % 2) (by rw [hmlen]; omega)
    rw [show (List.range (k + 2)).map (fun j : Nat => j % 2) =
        (List.range (k + 1)).map (fun j : Nat => j % 2) ++ [(k + 1) % 2] from by
      rw [show k + 2 = (k + 1) + 1 from rfl, List.range_succ, List.map_append]
      rfl]
    exact h
  refine ⟨?_, hflen2, hfill2, hmv, hrepr2⟩
  have hdone := not_done_of_lt s hk hlen hfill
  simp only [searchLoop]
  rw [if_neg (List.cons_ne_nil s []), bestIdx_singleton,
    show ([s].getD 0 default) = s from rfl,
    show ([s].eraseIdx 0) = ([] : List State) from rfl, hdone,
    if_neg (fun h => Bool.noConfusion h), gBig_numColors,
    show List.range 2 = [0, 1] from rfl]
  simp only [List.foldl_cons, List.foldl_nil]
  rcases Nat.mod_two_eq_zero_or_one k with hpar | hpar
  · have hnext : ((k + 1) % 2 : Nat) = 1 := by omega
    rw [hnext] at hacc ⊢
    rw [if_pos (by rw [hback, hpar] : (0 : Color) = Seq.back EPB t s.moves)]
    rw [if_neg (by rw [hback, hpar]; decide : ¬ ((1 : Color) = Seq.back EPB t s.moves))]
    rw [if_pos hacc, List.nil_append]
  · have hnext : ((k + 1) % 2 : Nat) = 0 := by omega
    rw [hnext] at hacc ⊢
    rw [if_neg (by rw [hback, hpar]; decide : ¬ ((0 : Color) = Seq.back EPB t s.moves))]
    rw [if_pos hacc]
    have hx : TrieExtends t (State.move gBig t s 0).1 := by
      rw [move_trie]
      exact append_extends EPB t s.moves 0
    have hback2 : Seq.back EPB (State.move gBig t s 0).1 s.moves = 1 := by
      rw [(hrepr.mono_seq hx).back_eq (by decide) hmne, hmlen, Nat.add_sub_cancel,
        List.getD_eq_getElem _ _ (by rw [hmlen]; omega), List.getElem_map,
        List.getElem_range]
      exact hpar
    rw [if_pos hback2.symm, List.nil_append]

end Floodit

namespace Floodit

theorem gBig_final (fuel : Nat) (t : TrieSt Color) (s : State)
    (hlen : s.filled.length = 65536)
    (hfill : ∀ v, s.filled.getD v false = decide (v ≤ 65535))
    (hml : s.moves.block.length = 0) :
    searchLoop gBig (fuel + 1) t [s] = .ok [] := by
  have hdone : s.done = true := by
    unfold State.done
    rw [List.all_eq_true]
    intro x hx
    obtain ⟨i, hi, hix⟩ := List.mem_iff_getElem.mp hx
    have h2 := hfill i
    rw [List.getD_eq_getElem _ _ hi, hix] at h2
    rw [h2]
    exact decide_eq_true (by rw [hlen] at hi; omega)
  simp only [searchLoop]
  rw [if_neg (List.cons_ne_nil s []), bestIdx_singleton,
    show ([s].getD 0 default) = s from rfl, hdone, if_pos rfl]
  unfold State.materializeMoves Seq.materialize
  rw [hml]
  rw [show (List.replicate 0 (default : Color)) = [] from rfl]
  have hnil : matAux EPB t (t.blocks.length + 1) s.moves.block ([] : List Color) = [] := by
    apply List.eq_nil_of_length_eq_zero
    rw [matAux_length]
    rfl
  rw [hnil]

theorem gBig_base :
    (State.mk0 gBig TrieSt.empty).2.filled.length = 65536 ∧
    (∀ v, (State.mk0 gBig TrieSt.empty).2.filled.getD v false = decide (v ≤ 0)) ∧
    (State.mk0 gBig TrieSt.empty).2.moves.block.length = 0 + 1 ∧
    SeqRepr EPB (State.mk0 gBig TrieSt.empty).1 (State.mk0 gBig TrieSt.empty).2.moves
      ((List.range (0 + 1)).map (fun j => j % 2)) := by
  have hroot0 : gBig.colorAt gBig.rootIndex = 0 := by
    rw [show gBig.rootIndex = 0 from rfl, gBig_colorAt (by omega : (0 : Nat) < 65536)]
  refine ⟨?_, ?_, ?_, ?_⟩
  · simp only [State.mk0]
    rw [List.length_set, List.length_replicate, gBig_numNodes]
  · intro v
    simp only [State.mk0]
    rw [show gBig.rootIndex = 0 from rfl]
    by_cases hv0 : v = 0
    · rw [hv0, getD_set_self _ _ _ _
        (by rw [List.length_replicate, gBig_numNodes]; omega)]
      rfl
    · rw [getD_set_ne _ _ _ (fun h => hv0 h.symm), decide_eq_false (by omega)]
      by_cases hb : v < gBig.numNodes
      · exact getD_replicate false false hb
      · exact getD_of_le _ _ (by rw [List.length_replicate]; omega)
  · simp only [State.mk0]
    rw [append_seq_length]
    rfl
  · simp only [State.mk0]
    have h := SeqRepr_append (by decide)
      (SeqRepr_initial EPB (TrieSt.empty : TrieSt Color) (by decide))
      (gBig.colorAt gBig.rootIndex) (by simp)
    rw [List.nil_append] at h
    rw [show (List.range (0 + 1)).map (fun j : Nat => j % 2) = [0] from rfl, ← hroot0]
    exact h

theorem gBig_loop : ∀ (m : Nat), ∀ (k fuel : Nat) (t : TrieSt Color) (s : State),
    k + m = 65535 → m + 1 ≤ fuel →
    s.filled.length = 65536 →
    (∀ v, s.filled.getD v false = decide (v ≤ k)) →
    s.moves.block.length = (k + 1) % 65536 →
    (k ≤ 65534 → SeqRepr EPB t s.moves ((List.range (k + 1)).map (fun j => j % 2))) →
    searchLoop gBig fuel t [s] = .ok [] := by
  intro m
  induction m with
  | zero =>
    intro k fuel t s hkm hfuel hlen hfill hml _
    obtain ⟨f, rfl⟩ : ∃ f, fuel = f + 1 := ⟨fuel - 1, by omega⟩
    have hk : k = 65535 := by omega
    subst hk
    exact gBig_final f t s hlen hfill (by rw [hml])
  | succ m ih =>
    intro k fuel t s hkm hfuel hlen hfill hml hrepr
    obtain ⟨f, rfl⟩ : ∃ f, fuel = f + 1 := ⟨fuel - 1, by omega⟩
    have hk : k ≤ 65534 := by omega
    have hml2 : s.moves.block.length = k + 1 := by
      rw [hml]
      exact Nat.mod_eq_of_lt (by omega)
    obtain ⟨heq, hlen2, hfill2, hml3, hrepr3⟩ :=
      gBig_step k f t s hk hlen hfill hml2 (hrepr hk)
    rw [heq]
    exact ih (k + 1) f _ _ (by omega) (by omega) hlen2 hfill2 hml3
      (fun h2 => hrepr3 (by omega))

theorem searchFuel_lb (g : Graph) (h1 : g.numNodes = 65536)
    (h2 : g.colorCounts.length = 2) : 65536 ≤ searchFuel g := by
  unfold searchFuel
  rw [h1, h2]
  norm_num

theorem gBig_ccLen : gBig.colorCounts.length = 2 := rfl

theorem gBig_root : gBig.rootIndex = 0 := rfl

theorem gBig_fuel : 65536 ≤ searchFuel gBig :=
  searchFuel_lb gBig gBig_numNodes gBig_ccLen

theorem replay_nil_getD (g : Graph) {v : Nat} (hv : g.rootIndex ≠ v) :
    (replay g []).getD v false = false := by
  show ((List.replicate g.numNodes false).set g.rootIndex true).getD v false = false
  rw [getD_set_ne _ _ _ hv]
  by_cases hb : v < g.numNodes
  · exact getD_replicate false false hb
  · exact getD_of_le _ _ (by rw [List.length_replicate]; omega)

/-- C2's counterexample: on the connected, reduced, well-formed 65536-node
two-color path the search terminates successfully, but its 16-bit move
counter wraps exactly at the goal state, so the returned sequence is empty
and replaying it leaves every node but the root unfilled. -/
theorem search_replay_cex :
    gBig.wfB = true ∧ gBig.reducedB = true ∧ gBig.connB = true ∧
    computeBestSequence gBig = .ok [] ∧
    replay gBig [] ≠ List.replicate gBig.numNodes true := by
  refine ⟨pathAlt_wf 65536 (by omega), gBig_reduced, gBig_conn, ?_, ?_⟩
  · show searchLoop gBig (searchFuel gBig) (State.mk0 gBig TrieSt.empty).1
      [(State.mk0 gBig TrieSt.empty).2] = .ok []
    obtain ⟨b1, b2, b3, b4⟩ := gBig_base
    exact gBig_loop 65535 0 (searchFuel gBig) _ _ (by omega)
      (by have := gBig_fuel; omega) b1 b2 (b3.trans (by decide)) (fun _ => b4)
  · intro h
    have h1 : (replay gBig []).getD 1 false = false :=
      replay_nil_getD gBig (by rw [gBig_root]; omega)
    have h2 : (List.replicate gBig.numNodes true).getD 1 false = true :=
      getD_replicate _ _ (by rw [gBig_numNodes]; omega)
    rw [h, h2] at h1
    exact Bool.noConfusion h1

end Floodit
